import Mathlib

/-!
# Sepulca storage engine: a shallow embedding

The development embeds the storage engine of the Sepulca distribution
(`sepulca_id.h`, `storage.h`, `sepulca.h`, `file_storage.h`) and proves
properties of it.

Modelling conventions.

* A `std::string` is a list of characters (`Str`); `std::map<std::string,
  std::string>` is an association list kept in strictly ascending key order
  (`map_wf`), the order being the lexicographic order of `std::string`.
* The file system is a finite table of regular files, keyed by the path
  string, listed in directory-traversal order; two paths name the same file
  exactly when they are the same string (a path is held in the form the
  code builds it, `m_dir / name`).  Directories are not in the table.
  `do_serialize` does not check that its output stream opened, and the
  embedding writes the file in every case: it agrees with the code where the
  stream opens, that is where the file exists already or its directory does,
  as the storage directory does once the storage is constructed.  A statement
  about a write for an arbitrary identifier therefore carries `can_write`;
  identifiers from `new_id` always satisfy it.
* An input file stream is the unread rest of the file together with its
  `eofbit` and `failbit`.
* `std::random_device` is an oracle `Nat → Nat` read at successive positions.
* An exception is a value of `runtime_error`, returned through `Except`.
* The process lock does not change what an operation computes: the
  operations are given first without it, and then once more under their
  lock guard (`get_io`, `erase_io`, ...), acting on a state that carries
  the lock and the list of the steps taken; the two forms are proved to
  compute the same.  The visitor of `enumerate` is a function of the record
  in the first form; in the second it acts on the state, as a visitor that
  calls the storage through the handle it is given does.
-/

namespace cosmica

/-! ## Strings and the attribute map -/

/-- A `std::string`. -/
abbrev Str := List Char

/-- The order `operator<` of `std::string`: lexicographic, character by character. -/
def str_lt : Str → Str → Bool
  | [], [] => false
  | [], _ :: _ => true
  | _ :: _, [] => false
  | a :: as, b :: bs =>
    if a < b then true else if b < a then false else str_lt as bs

/-- The type `attributes`, a `std::map<std::string, std::string>`, as the list of its
pairs in iteration order. -/
abbrev attributes := List (Str × Str)

/-- The representation invariant of `std::map`: keys strictly ascending. -/
def map_wf (m : attributes) : Prop :=
  m.Pairwise (fun a b => str_lt a.1 b.1 = true)

instance (m : attributes) : Decidable (map_wf m) := by
  unfold map_wf; infer_instance

/-- The member `std::map::find`, returning the mapped value. -/
def map_find : attributes → Str → Option Str
  | [], _ => none
  | (k', v') :: rest, k => if k' = k then some v' else map_find rest k

/-- The member `std::map::emplace`: inserts the pair unless an equivalent key is present. -/
def map_emplace : attributes → Str → Str → attributes
  | [], k, v => [(k, v)]
  | (k', v') :: rest, k, v =>
    if str_lt k k' then (k, v) :: (k', v') :: rest
    else if str_lt k' k then (k', v') :: map_emplace rest k v
    else (k', v') :: rest

/-- The assignment `m[k] = v` of `std::map`: inserts the key or overwrites its value. -/
def map_assign : attributes → Str → Str → attributes
  | [], k, v => [(k, v)]
  | (k', v') :: rest, k, v =>
    if str_lt k k' then (k, v) :: (k', v') :: rest
    else if str_lt k' k then (k', v') :: map_assign rest k v
    else (k', v) :: rest

/-- The member `std::map::erase` at the position of key `k`. -/
def map_erase : attributes → Str → attributes
  | [], _ => []
  | (k', v') :: rest, k => if k' = k then rest else (k', v') :: map_erase rest k

/-! ## Identifiers (`sepulca_id.h`) -/

/-- The type `sepulca_id`. -/
abbrev sepulca_id := Str

/-- The function `random_num`: one value of the random device, as a `uint8_t`. -/
def random_num (rd : Nat → Nat) (pos : Nat) : Nat := rd pos % 256

/-- Output of an unsigned value under `std::hex`: lowercase digits, no leading zero. -/
def to_hex (n : Nat) : Str := Nat.toDigits 16 n

/-- The effect of `std::setw(2) << std::setfill('0')` on the next output. -/
def setw2_fill0 (s : Str) : Str := List.replicate (2 - s.length) '0' ++ s

/-- The body of the loop of `new_id` for index `i`. -/
def new_id_step (rd : Nat → Nat) (pos i : Nat) : Str :=
  (if i > 0 ∧ i % 2 = 0 then ['-'] else []) ++ setw2_fill0 (to_hex (random_num rd (pos + i)))

/-- The function `sepulca_id_generator::new_id`, reading the random device from `pos`. -/
def new_id (rd : Nat → Nat) (pos : Nat) : sepulca_id :=
  ['{'] ++ (List.range 8).flatMap (new_id_step rd pos) ++ ['}']

/-! ## Records (`sepulca.h`) -/

/-- The payload type `std::any`: empty, or an opaque caller value. -/
abbrev std_any := Option Nat

/-- The exceptions thrown by the engine, one constructor per `throw` site message. -/
inductive runtime_error where
  | sepulca_not_found (sid : sepulca_id)
  | already_destroyed (sid : sepulca_id)
  | attribute_not_found (name : Str)
  | not_a_directory (dir : Str)
  | create_directories_failed (dir : Str)
  deriving DecidableEq, Repr

/-- The class `sepulca`. The reference `m_stor` is the one storage of the development. -/
structure sepulca where
  m_sid : sepulca_id
  m_attrs : attributes
  m_transient_data : std_any
  deriving DecidableEq, Repr

/-- The method `sepulca::get_id`. -/
def sepulca.get_id (s : sepulca) : sepulca_id := s.m_sid

/-- The method `sepulca::get_attrs`. -/
def sepulca.get_attrs (s : sepulca) : attributes := s.m_attrs

/-- The method `sepulca::has_attr`. -/
def sepulca.has_attr (s : sepulca) (name : Str) : Bool := (map_find s.m_attrs name).isSome

/-- The method `sepulca::get_attr`. -/
def sepulca.get_attr (s : sepulca) (name : Str) : Except runtime_error Str :=
  match map_find s.m_attrs name with
  | some v => .ok v
  | none => .error (.attribute_not_found name)

/-- The method `sepulca::set_attr`. -/
def sepulca.set_attr (s : sepulca) (name value : Str) : sepulca :=
  { s with m_attrs := map_assign s.m_attrs name value }

/-- The method `sepulca::delete_attr`: the outcome and the record afterwards. -/
def sepulca.delete_attr (s : sepulca) (name : Str) : Except runtime_error Unit × sepulca :=
  match map_find s.m_attrs name with
  | some _ => (.ok (), { s with m_attrs := map_erase s.m_attrs name })
  | none => (.error (.attribute_not_found name), s)

/-- The method `sepulca::get_transient_data`. -/
def sepulca.get_transient_data (s : sepulca) : std_any := s.m_transient_data

/-- The method `sepulca::set_transient_data`, a `std::exchange`: the payload held before and
the record afterwards. -/
def sepulca.set_transient_data (s : sepulca) (data : std_any) : std_any × sepulca :=
  (s.m_transient_data, { s with m_transient_data := data })

/-! ## Paths (`std::filesystem::path`, POSIX) -/

/-- The operator `p / q` of `std::filesystem::path`. -/
def path_append (p q : Str) : Str :=
  if q.head? = some '/' then q
  else if p ≠ [] ∧ p.getLast? ≠ some '/' then p ++ ['/'] ++ q
  else p ++ q

/-- The member `path::filename`: what follows the last directory separator. -/
def path_filename (p : Str) : Str := (p.reverse.takeWhile (fun c => c ≠ '/')).reverse

/-- The member `path::extension`: from the rightmost period of the file name, unless the
file name is dot or dot-dot or that period is its first character. -/
def path_extension (p : Str) : Str :=
  let f := path_filename p
  if f = ['.'] ∨ f = ['.', '.'] then []
  else if '.' ∈ f.tail then '.' :: (f.reverse.takeWhile (fun c => c ≠ '.')).reverse
  else []

/-- The member `path::stem`: the file name without its extension. -/
def path_stem (p : Str) : Str :=
  (path_filename p).take ((path_filename p).length - (path_extension p).length)

/-- The member `path::replace_extension`. -/
def replace_extension (p r : Str) : Str :=
  let q := p.take (p.length - (path_extension p).length)
  (if r ≠ [] ∧ r.head? ≠ some '.' then q ++ ['.'] else q) ++ r

/-! ## The file system and input streams -/

/-- The regular files, as pairs of path and content in directory-traversal order. -/
abbrev filesystem := List (Str × Str)

/-- The content of the regular file at a path, if there is one. -/
def fs_read : filesystem → Str → Option Str
  | [], _ => none
  | (p', c) :: rest, p => if p' = p then some c else fs_read rest p

/-- The function `std::filesystem::is_regular_file`. -/
def is_regular_file (fs : filesystem) (p : Str) : Bool := (fs_read fs p).isSome

/-- The function `std::filesystem::remove` on a regular file. -/
def fs_remove (fs : filesystem) (p : Str) : filesystem := fs.filter (fun e => e.1 ≠ p)

/-- Writing a whole file through a `std::ofstream` opened with `trunc`: the file is
replaced in place if present and otherwise created as a new directory entry. -/
def fs_write : filesystem → Str → Str → filesystem
  | [], p, c => [(p, c)]
  | (p', c') :: rest, p, c =>
    if p' = p then (p', c) :: rest else (p', c') :: fs_write rest p c

/-- The part of `p` after the leading `d`, if `p` starts with `d`. -/
def strip_dir : Str → Str → Option Str
  | [], p => some p
  | _ :: _, [] => none
  | a :: as, b :: bs => if a = b then strip_dir as bs else none

/-- Whether the path `p` names a direct entry of the directory `m_dir`. -/
def is_dir_entry (m_dir p : Str) : Bool :=
  match strip_dir (path_append m_dir []) p with
  | some name => decide (name ≠ [] ∧ '/' ∉ name)
  | none => false

/-- The paths produced by `std::filesystem::directory_iterator(m_dir)`. -/
def directory_iterator (fs : filesystem) (m_dir : Str) : List Str :=
  (fs.filter (fun e => is_dir_entry m_dir e.1)).map Prod.fst

/-- A `std::ifstream`: the unread characters and the two state bits. A stream whose file
could not be opened has `failbit` set. -/
structure ifstream where
  buf : Str
  eofbit : Bool
  failbit : Bool
  deriving DecidableEq, Repr

/-- The constructor `std::ifstream ifs(p)`. -/
def ifstream.open (fs : filesystem) (p : Str) : ifstream :=
  match fs_read fs p with
  | some c => { buf := c, eofbit := false, failbit := false }
  | none => { buf := [], eofbit := false, failbit := true }

/-- The conversion of a stream to `bool`: `!fail()`. -/
def ifstream.ok (s : ifstream) : Bool := !s.failbit

/-- The function `std::getline(ifs, str)` into a string that is empty before the call.
A stream that is not good gets `failbit` and extracts nothing; otherwise characters are
extracted up to and without the next newline, and reaching the end of the file sets
`eofbit`, and `failbit` too when nothing was extracted. -/
def getline (s : ifstream) : Str × ifstream :=
  if s.eofbit ∨ s.failbit then ([], { s with failbit := true })
  else
    let line := s.buf.takeWhile (fun c => c ≠ '\n')
    match s.buf.dropWhile (fun c => c ≠ '\n') with
    | [] => (line, { buf := [], eofbit := true, failbit := line.isEmpty })
    | _ :: rest => (line, { buf := rest, eofbit := false, failbit := false })

/-! ## The file storage (`file_storage.h`) -/

/-- The macro `SEPULCA_SIG`. -/
def SEPULCA_SIG : Str := "Sepulca v1".toList

/-- The class `file_storage`: its directory. The lock file is `m_dir / "lock.txt"`. -/
structure file_storage where
  m_dir : Str
  deriving DecidableEq, Repr

/-- The constructor `file_lock::file_lock`: `open` with `O_CREAT | O_RDONLY` creates the
lock file, empty, when it is absent and leaves an existing one as it is. -/
def file_lock.ctor (fs : filesystem) (path : Str) : filesystem :=
  if is_regular_file fs path then fs else fs ++ [(path, [])]

/-- The leading parts of a path that end right before a separator: the directories the path
lies below (`db` and `db/x` for `db/x/y`). -/
def path_ancestors : Str → List Str
  | [] => []
  | c :: rest =>
    (if c = '/' then [[]] else []) ++ (path_ancestors rest).map (fun a => c :: a)

/-- The constructor `file_storage::file_storage`. `status(m_dir)` is a regular file when the
table holds `dir`: the constructor throws "not a directory". It is `not_found` when a
directory above `dir` is a regular file, and `create_directories` then throws. In every other
case the directory exists afterwards (it did, or `create_directories` made it; directories
are not in the table, so the table is unchanged), and the lock `dir / "lock.txt"` is
opened. -/
def file_storage.ctor (fs : filesystem) (dir : Str) :
    Except runtime_error (file_storage × filesystem) :=
  if is_regular_file fs dir then .error (.not_a_directory dir)
  else if (path_ancestors dir).any (is_regular_file fs) then
    .error (.create_directories_failed dir)
  else .ok ({ m_dir := dir }, file_lock.ctor fs (path_append dir "lock.txt".toList))

/-- The path `m_lock->get_lock_file_path()`. -/
def file_storage.get_lock_file_path (st : file_storage) : Str :=
  path_append st.m_dir "lock.txt".toList

/-- The method `file_storage::get_cell_path`. -/
def file_storage.get_cell_path (st : file_storage) (sid : sepulca_id) : Str :=
  replace_extension (path_append st.m_dir sid) "txt".toList

/-- The method `file_storage::new_sepulca`. -/
def file_storage.new_sepulca (sid : sepulca_id) (attrs : attributes) : sepulca :=
  { m_sid := sid, m_attrs := attrs, m_transient_data := none }

/-- The method `file_storage::do_check_exists`. -/
def file_storage.do_check_exists (st : file_storage) (fs : filesystem) (sid : sepulca_id) : Bool :=
  is_regular_file fs (st.get_cell_path sid)

/-- The characters written by the loop of `do_serialize` over the attributes. -/
def serialize_attrs : attributes → Str
  | [] => []
  | (k, v) :: rest => k ++ ['\n'] ++ v ++ ['\n'] ++ serialize_attrs rest

/-- The characters written by `do_serialize` for a record. -/
def serialize (s : sepulca) : Str :=
  SEPULCA_SIG ++ ['\n'] ++ s.get_id ++ ['\n'] ++ serialize_attrs s.get_attrs

/-- The method `file_storage::do_serialize`. The stream `ofs` is taken to open; the code does
not check it, and where it does not open (the directory of the path is missing) the code
writes nothing. See `can_write`. -/
def file_storage.do_serialize (st : file_storage) (fs : filesystem) (s : sepulca) : filesystem :=
  fs_write fs (st.get_cell_path s.get_id) (serialize s)

/-- The `while (ifs)` loop of `do_deserialize`, run for at most `fuel` iterations. -/
def deserialize_loop : Nat → ifstream → attributes → attributes
  | 0, _, attrs => attrs
  | fuel + 1, ifs, attrs =>
    if ifs.ok then
      let (k, ifs1) := getline ifs
      if k ≠ [] then
        let (v, ifs2) := getline ifs1
        deserialize_loop fuel ifs2 (map_emplace attrs k v)
      else attrs
    else attrs

/-- The body of `do_deserialize` on an opened stream. Each iteration of the loop that
continues extracts at least one character, so `buf.length + 1` iterations suffice. -/
def deserialize (ifs : ifstream) : Option sepulca :=
  let (sig, ifs1) := getline ifs
  if sig ≠ SEPULCA_SIG then none
  else
    let (sid, ifs2) := getline ifs1
    if sid = [] then none
    else some (file_storage.new_sepulca sid (deserialize_loop (ifs2.buf.length + 1) ifs2 []))

/-- The method `file_storage::do_deserialize`. -/
def file_storage.do_deserialize (fs : filesystem) (p : Str) : Option sepulca :=
  deserialize (ifstream.open fs p)

/-- The `do ... while` loop of `create`, run for at most `fuel` iterations: the chosen
identifier and the next position of the random device. -/
def create_loop (st : file_storage) (fs : filesystem) (rd : Nat → Nat) :
    Nat → Nat → Option (sepulca_id × Nat)
  | 0, _ => none
  | fuel + 1, pos =>
    let sid := new_id rd pos
    if st.do_check_exists fs sid then create_loop st fs rd fuel (pos + 8)
    else some (sid, pos + 8)

/-- The method `file_storage::create`: the handle, the file system afterwards and the next
position of the random device; `none` when `fuel` iterations found no free identifier. -/
def file_storage.create (st : file_storage) (fs : filesystem) (rd : Nat → Nat) (fuel pos : Nat)
    (attrs : attributes) : Option (sepulca × filesystem × Nat) :=
  match create_loop st fs rd fuel pos with
  | none => none
  | some (sid, pos') =>
    let s := file_storage.new_sepulca sid attrs
    some (s, st.do_serialize fs s, pos')

/-- The method `file_storage::get`: the outcome and the file system afterwards. -/
def file_storage.get (st : file_storage) (fs : filesystem) (sid : sepulca_id) :
    Except runtime_error sepulca × filesystem :=
  match file_storage.do_deserialize fs (st.get_cell_path sid) with
  | some s => (.ok s, fs)
  | none => (.error (.sepulca_not_found sid), fs)

/-- The method `file_storage::exists`: the answer and the file system afterwards. -/
def file_storage.exists (st : file_storage) (fs : filesystem) (sid : sepulca_id) :
    Bool × filesystem :=
  (st.do_check_exists fs sid, fs)

/-- The loop of `enumerate` over the directory entries, with a visitor that carries a state
of its own: the visitor's final state and the records it was called on, in call order. -/
def enumerate_loop {σ : Type} (st : file_storage) (fs : filesystem)
    (cb : σ → sepulca → Bool × σ) : List Str → σ → σ × List sepulca
  | [], acc => (acc, [])
  | p :: rest, acc =>
    if p = st.get_lock_file_path then enumerate_loop st fs cb rest acc
    else
      match file_storage.do_deserialize fs p with
      | some s =>
        let (go, acc1) := cb acc s
        if go then
          let (acc2, visited) := enumerate_loop st fs cb rest acc1
          (acc2, s :: visited)
        else (acc1, [s])
      | none => enumerate_loop st fs cb rest acc

/-- The method `file_storage::enumerate`: the visitor's final state and the records it was
called on, in call order. The visitor does not touch the storage. -/
def file_storage.enumerate {σ : Type} (st : file_storage) (fs : filesystem)
    (cb : σ → sepulca → Bool × σ) (acc : σ) : σ × List sepulca :=
  enumerate_loop st fs cb (directory_iterator fs st.m_dir) acc

/-- The method `file_storage::erase`: the outcome and the file system afterwards. -/
def file_storage.erase (st : file_storage) (fs : filesystem) (s : sepulca) :
    Except runtime_error Unit × filesystem :=
  if !st.do_check_exists fs s.get_id then (.error (.already_destroyed s.get_id), fs)
  else (.ok (), fs_remove fs (st.get_cell_path s.get_id))

/-- The method `file_storage::commit`. -/
def file_storage.commit (st : file_storage) (fs : filesystem) (s : sepulca) : filesystem :=
  st.do_serialize fs s

/-- The method `sepulca::erase`. -/
def sepulca.erase (s : sepulca) (st : file_storage) (fs : filesystem) :
    Except runtime_error Unit × filesystem :=
  st.erase fs s

/-- The method `sepulca::commit`. -/
def sepulca.commit (s : sepulca) (st : file_storage) (fs : filesystem) : filesystem :=
  st.commit fs s

/-! ## Predicates and scenarios used in the statements -/

/-- Attribute names non-empty and free of newlines, attribute values free of newlines. -/
def attrs_wellformed (m : attributes) : Prop :=
  ∀ e ∈ m, e.1 ≠ [] ∧ '\n' ∉ e.1 ∧ '\n' ∉ e.2

instance (m : attributes) : Decidable (attrs_wellformed m) := by
  unfold attrs_wellformed; infer_instance

/-- A candidate identifier drawn within `fuel` attempts from position `pos` is free. -/
def free_within (st : file_storage) (fs : filesystem) (rd : Nat → Nat) (fuel pos : Nat) : Prop :=
  ∃ n, n < fuel ∧ st.do_check_exists fs (new_id rd (pos + 8 * n)) = false

/-- The output stream of `do_serialize` for an identifier opens: the file exists already,
or it is an entry of the storage directory itself, which exists once the storage is
constructed. -/
def can_write (st : file_storage) (fs : filesystem) (sid : sepulca_id) : Prop :=
  is_regular_file fs (st.get_cell_path sid) = true
    ∨ is_dir_entry st.m_dir (st.get_cell_path sid) = true

instance (st : file_storage) (fs : filesystem) (sid : sepulca_id) :
    Decidable (can_write st fs sid) := by
  unfold can_write; infer_instance

/-- The first line of a file: its characters before the first newline. -/
def first_line (c : Str) : Str := c.takeWhile (fun x => x ≠ '\n')

/-- The second line of a file: the characters after the first newline, up to the next. -/
def second_line (c : Str) : Str :=
  ((c.dropWhile (fun x => x ≠ '\n')).drop 1).takeWhile (fun x => x ≠ '\n')

/-- A file whose first line is the signature and whose second line is empty. -/
def empty_id_file : Str := "Sepulca v1\n\ncolour\nred\n".toList

/-- A file whose first line is not the signature. -/
def wrong_sig_file : Str := "Sepulca v2\n{0001-0203-0405-0607}\n".toList

/-- The entries of the storage directory other than the lock file that deserialize, as
records, in traversal order. -/
def valid_entries (st : file_storage) (fs : filesystem) : List sepulca :=
  ((directory_iterator fs st.m_dir).filter (fun p => p ≠ st.get_lock_file_path)).filterMap
    (file_storage.do_deserialize fs)

/-- Calling the visitor on the records of a list in order, up to and including the first one
for which it returns false. -/
def visit_until {σ : Type} (cb : σ → sepulca → Bool × σ) : List sepulca → σ → σ × List sepulca
  | [], acc => (acc, [])
  | s :: rest, acc =>
    if (cb acc s).1 then ((visit_until cb rest (cb acc s).2).1, s :: (visit_until cb rest (cb acc s).2).2)
    else ((cb acc s).2, [s])

/-- A run of `erase` calls on handles, in order; an `erase` that raises is passed over. -/
def erase_many (st : file_storage) : List sepulca → filesystem → filesystem
  | [], fs => fs
  | s :: rest, fs => erase_many st rest (s.erase st fs).2

/-- A run of `create` calls, one per attribute mapping, on one storage: the handles in call
order, the file system afterwards and the next position of the random device. -/
def create_many (st : file_storage) (rd : Nat → Nat) (fuel : Nat) :
    List attributes → filesystem → Nat → Option (List sepulca × filesystem × Nat)
  | [], fs, pos => some ([], fs, pos)
  | a :: rest, fs, pos =>
    match st.create fs rd fuel pos a with
    | none => none
    | some (s, fs1, pos1) =>
      match create_many st rd fuel rest fs1 pos1 with
      | none => none
      | some (ss, fs2, pos2) => some (s :: ss, fs2, pos2)

/-- A call on the storage other than `erase` that may write: `create`, or `commit` on some
handle. -/
inductive storage_call where
  | create (attrs : attributes)
  | commit (s : sepulca)

/-- A run of `create` and `commit` calls on one storage: the handles returned by the `create`
calls in call order, the file system afterwards and the next position of the random
device. -/
def run_calls (st : file_storage) (rd : Nat → Nat) (fuel : Nat) :
    List storage_call → filesystem → Nat → Option (List sepulca × filesystem × Nat)
  | [], fs, pos => some ([], fs, pos)
  | .create a :: rest, fs, pos =>
    match st.create fs rd fuel pos a with
    | none => none
    | some (s, fs1, pos1) =>
      match run_calls st rd fuel rest fs1 pos1 with
      | none => none
      | some (ss, fs2, pos2) => some (s :: ss, fs2, pos2)
  | .commit s :: rest, fs, pos => run_calls st rd fuel rest (s.commit st fs) pos

/-- The sixteen lowercase hexadecimal digits. -/
def hex_digits : Str := "0123456789abcdef".toList

/-- The lowercase hexadecimal digit of a value below sixteen. -/
def hex_digit (d : Nat) : Char := hex_digits.getD d '0'

/-- A byte as two lowercase hexadecimal digits, the high one first. -/
def two_hex (b : Nat) : Str := [hex_digit (b / 16), hex_digit (b % 16)]

/-- What the shape `{hhhh-hhhh-hhhh-hhhh}` asks of the character at index `i`. -/
def id_char_ok (i : Nat) (c : Char) : Bool :=
  if i = 0 then c == '{'
  else if i = 20 then c == '}'
  else if i = 5 ∨ i = 10 ∨ i = 15 then c == '-'
  else hex_digits.contains c

/-- The characters of a string, from index `i` on, fit the shape. -/
def id_chars_ok : Nat → Str → Bool
  | _, [] => true
  | i, c :: rest => id_char_ok i c && id_chars_ok (i + 1) rest

/-- The grammar of generated identifiers: 21 characters of the shape
`{hhhh-hhhh-hhhh-hhhh}`, each `h` a lowercase hexadecimal digit. -/
def in_id_grammar (sid : Str) : Bool := sid.length == 21 && id_chars_ok 0 sid

/-- The lines of the encoding of a record: the signature, the identifier, then the name and
the value of each attribute in the iteration order of the map. -/
def record_lines (s : sepulca) : List Str :=
  SEPULCA_SIG :: s.get_id :: s.get_attrs.flatMap (fun e => [e.1, e.2])

/-- A storage on the directory `db`, for the examples. -/
def example_storage : file_storage := { m_dir := "db".toList }

/-- A random device for the examples: the values 0, 1, 2, ... -/
def example_rd : Nat → Nat := fun i => i

/-- An attribute mapping whose one name holds a newline. -/
def newline_key_attrs : attributes := [("a\nb".toList, "v".toList)]

/-- A well-formed attribute mapping for the examples, with an empty value. -/
def example_attrs : attributes := [("colour".toList, "red".toList), ("note".toList, [])]

/-- A handle for the examples. -/
def example_sepulca : sepulca :=
  { m_sid := "{0001-0203-0405-0607}".toList, m_attrs := example_attrs, m_transient_data := none }

/-- A storage directory holding a lock file with the text of a record, two files that are
not valid records, and one record file. -/
def corrupt_dir : filesystem :=
  [("db/lock.txt".toList, serialize example_sepulca),
   ("db/bad.txt".toList, wrong_sig_file),
   ("db/noid.txt".toList, empty_id_file),
   ("db/{0001-0203-0405-0607}.txt".toList, serialize example_sepulca)]

/-- The file system right after a storage was opened on the new directory `db`. -/
def fresh_dir : filesystem := [("db/lock.txt".toList, [])]

/-- The handles returned by three `create` calls on `fresh_dir`. -/
def created_handles : List sepulca :=
  [file_storage.new_sepulca (new_id example_rd 0) example_attrs,
   file_storage.new_sepulca (new_id example_rd 8) [],
   file_storage.new_sepulca (new_id example_rd 16) example_attrs]

/-- The file system after the three `create` calls on `fresh_dir`. -/
def created_fs : filesystem :=
  fresh_dir ++ created_handles.map
    (fun s => (example_storage.get_cell_path s.m_sid, serialize s))

/-- The example handle carrying a payload. -/
def example_sepulca_payload : sepulca :=
  { m_sid := "{0001-0203-0405-0607}".toList, m_attrs := example_attrs,
    m_transient_data := some 7 }

/-- A handle with no attribute. -/
def bare_sepulca : sepulca :=
  { m_sid := "{1011-1213-1415-1617}".toList, m_attrs := [], m_transient_data := none }

/-- An attribute mapping that holds the empty name. -/
def empty_name_attrs : attributes :=
  [([], "lost".toList), ("colour".toList, "red".toList)]

/-- A handle whose attribute mapping holds the empty name. -/
def empty_name_sepulca : sepulca :=
  { m_sid := "{0001-0203-0405-0607}".toList, m_attrs := empty_name_attrs,
    m_transient_data := none }

/-! ## The process lock and the steps of an operation (`file_lock.h`) -/

/-- A step of an operation as seen from outside: the lock taken, the lock dropped, or a
call on the file system at a path. -/
inductive io_event where
  | lock
  | unlock
  | fs_access (p : Str)
  deriving DecidableEq, Repr

/-- The class `file_lock`: the path and the descriptor of the lock file (`-1` when it is not
open), and whether the exclusive `flock` is held through that descriptor. -/
structure file_lock where
  m_path : Str
  m_fd : Int
  held : Bool
  deriving DecidableEq, Repr

/-- What an operation acts on: the file system, the lock of the storage, and the steps
taken so far. -/
structure io_state where
  fs : filesystem
  lk : file_lock
  log : List io_event

/-- The method `file_lock::lock`; `flock` is taken to succeed. -/
def file_lock.lock (w : io_state) : io_state :=
  if w.lk.m_fd = -1 then w
  else { w with lk := { w.lk with held := true }, log := w.log ++ [io_event.lock] }

/-- The method `file_lock::unlock`; `flock` is taken to succeed. -/
def file_lock.unlock (w : io_state) : io_state :=
  if w.lk.m_fd = -1 then w
  else { w with lk := { w.lk with held := false }, log := w.log ++ [io_event.unlock] }

/-- A `std::lock_guard guard(*m_lock)` at the head of a function body: the lock is taken
before the body, and dropped when the body is left, by `return` or by `throw` (an exception
is part of the value the body yields). -/
def lock_guard {α : Type} (body : io_state → α × io_state) (w : io_state) : α × io_state :=
  ((body (file_lock.lock w)).1, file_lock.unlock (body (file_lock.lock w)).2)

/-- The record of one call on the file system at `p`. -/
def io_state.access (w : io_state) (p : Str) : io_state :=
  { w with log := w.log ++ [io_event.fs_access p] }

/-- The method `file_storage::do_check_exists`, with its step. -/
def file_storage.do_check_exists_io (st : file_storage) (sid : sepulca_id) (w : io_state) :
    Bool × io_state :=
  (st.do_check_exists w.fs sid, w.access (st.get_cell_path sid))

/-- The method `file_storage::do_serialize`, with its step. -/
def file_storage.do_serialize_io (st : file_storage) (s : sepulca) (w : io_state) : io_state :=
  { w.access (st.get_cell_path s.get_id) with fs := st.do_serialize w.fs s }

/-- The method `file_storage::do_deserialize`, with its step. -/
def file_storage.do_deserialize_io (p : Str) (w : io_state) : Option sepulca × io_state :=
  (file_storage.do_deserialize w.fs p, w.access p)

/-- The call `std::filesystem::remove(p)`, with its step. -/
def remove_io (p : Str) (w : io_state) : io_state :=
  { w.access p with fs := fs_remove w.fs p }

/-- The traversal `std::filesystem::directory_iterator(dir)`, with its step. -/
def directory_iterator_io (dir : Str) (w : io_state) : List Str × io_state :=
  (directory_iterator w.fs dir, w.access dir)

/-- The `do ... while` loop of `create`, with its steps. -/
def create_loop_io (st : file_storage) (rd : Nat → Nat) :
    Nat → Nat → io_state → Option (sepulca_id × Nat × io_state)
  | 0, _, _ => none
  | fuel + 1, pos, w =>
    if (st.do_check_exists_io (new_id rd pos) w).1
    then create_loop_io st rd fuel (pos + 8) (st.do_check_exists_io (new_id rd pos) w).2
    else some (new_id rd pos, pos + 8, (st.do_check_exists_io (new_id rd pos) w).2)

/-- The method `file_storage::create` under its lock guard: the handle, the next position of
the random device and the state afterwards; `none` when the loop does not end within
`fuel` iterations. -/
def file_storage.create_io (st : file_storage) (rd : Nat → Nat) (fuel pos : Nat)
    (attrs : attributes) (w : io_state) : Option ((sepulca × Nat) × io_state) :=
  match create_loop_io st rd fuel pos (file_lock.lock w) with
  | none => none
  | some (sid, pos', w1) =>
    some ((file_storage.new_sepulca sid attrs, pos'),
      file_lock.unlock (st.do_serialize_io (file_storage.new_sepulca sid attrs) w1))

/-- The method `file_storage::get` under its lock guard. -/
def file_storage.get_io (st : file_storage) (sid : sepulca_id) :
    io_state → Except runtime_error sepulca × io_state :=
  lock_guard (fun w =>
    match (file_storage.do_deserialize_io (st.get_cell_path sid) w).1 with
    | some s => (.ok s, (file_storage.do_deserialize_io (st.get_cell_path sid) w).2)
    | none => (.error (.sepulca_not_found sid),
        (file_storage.do_deserialize_io (st.get_cell_path sid) w).2))

/-- The method `file_storage::exists` under its lock guard. -/
def file_storage.exists_io (st : file_storage) (sid : sepulca_id) :
    io_state → Bool × io_state :=
  lock_guard (st.do_check_exists_io sid)

/-- A visitor of `enumerate` with its steps. The `std::function<bool(sepulca_ptr)>` is handed
the handle of the record, and through it (`s->commit()`, `s->erase()`) or through a captured
reference it can call the storage, whose operations take and release the same `file_lock`: the
visitor acts on the state. -/
abbrev visitor_io (σ : Type) : Type := σ → sepulca → io_state → (Bool × σ) × io_state

/-- A visitor that does not touch the file system or the lock. -/
def pure_visitor {σ : Type} (cb : σ → sepulca → Bool × σ) : visitor_io σ :=
  fun acc s w => (cb acc s, w)

/-- The loop of `enumerate`, with its steps. The entries are those the directory held when
the iterator was opened; each one is read in the state the visitor left. -/
def enumerate_loop_io {σ : Type} (st : file_storage) (cb : visitor_io σ) :
    List Str → σ → io_state → (σ × List sepulca) × io_state
  | [], acc, w => ((acc, []), w)
  | p :: rest, acc, w =>
    if p = st.get_lock_file_path then enumerate_loop_io st cb rest acc w
    else
      match (file_storage.do_deserialize_io p w).1 with
      | some s =>
        if (cb acc s (file_storage.do_deserialize_io p w).2).1.1 then
          (((enumerate_loop_io st cb rest (cb acc s (file_storage.do_deserialize_io p w).2).1.2
              (cb acc s (file_storage.do_deserialize_io p w).2).2).1.1,
            s :: (enumerate_loop_io st cb rest
              (cb acc s (file_storage.do_deserialize_io p w).2).1.2
              (cb acc s (file_storage.do_deserialize_io p w).2).2).1.2),
           (enumerate_loop_io st cb rest (cb acc s (file_storage.do_deserialize_io p w).2).1.2
              (cb acc s (file_storage.do_deserialize_io p w).2).2).2)
        else (((cb acc s (file_storage.do_deserialize_io p w).2).1.2, [s]),
          (cb acc s (file_storage.do_deserialize_io p w).2).2)
      | none => enumerate_loop_io st cb rest acc (file_storage.do_deserialize_io p w).2

/-- The method `file_storage::enumerate` under its lock guard. -/
def file_storage.enumerate_io {σ : Type} (st : file_storage) (cb : visitor_io σ)
    (acc : σ) : io_state → (σ × List sepulca) × io_state :=
  lock_guard (fun w =>
    enumerate_loop_io st cb (directory_iterator_io st.m_dir w).1 acc
      (directory_iterator_io st.m_dir w).2)

/-- The method `file_storage::erase` under its lock guard. -/
def file_storage.erase_io (st : file_storage) (s : sepulca) :
    io_state → Except runtime_error Unit × io_state :=
  lock_guard (fun w =>
    if !(st.do_check_exists_io s.get_id w).1
    then (.error (.already_destroyed s.get_id), (st.do_check_exists_io s.get_id w).2)
    else (.ok (), remove_io (st.get_cell_path s.get_id) (st.do_check_exists_io s.get_id w).2))

/-- The method `file_storage::commit` under its lock guard. -/
def file_storage.commit_io (st : file_storage) (s : sepulca) : io_state → Unit × io_state :=
  lock_guard (fun w => ((), st.do_serialize_io s w))

/-- Whether a step is a call on the file system. -/
def is_fs_access : io_event → Bool
  | .fs_access _ => true
  | _ => false

/-- From `w` to `w'` only calls on the file system were made; the lock was not touched. -/
def only_accesses (w w' : io_state) : Prop :=
  ∃ mid, w'.log = w.log ++ mid ∧ (∀ e ∈ mid, is_fs_access e = true) ∧ w'.lk = w.lk

/-- From `w` to `w'` the lock was taken first, then only calls on the file system were
made, then the lock was dropped, and it is not held in `w'`. -/
def lock_guarded (w w' : io_state) : Prop :=
  ∃ mid, w'.log = w.log ++ [io_event.lock] ++ mid ++ [io_event.unlock]
    ∧ (∀ e ∈ mid, is_fs_access e = true) ∧ w'.lk.held = false

/-- The state before an operation on the directory `corrupt_dir`, the lock open and free. -/
def example_io_state : io_state :=
  { fs := corrupt_dir,
    lk := { m_path := "db/lock.txt".toList, m_fd := 3, held := false },
    log := [] }

/-- Whether every call on the file system in a sequence of steps is made with the lock held,
`held` telling whether it is held before the first step. The lock does not count: `lock` on
a held lock changes nothing, and one `unlock` releases it. -/
def accesses_under_lock : Bool → List io_event → Bool
  | _, [] => true
  | _, .lock :: rest => accesses_under_lock true rest
  | _, .unlock :: rest => accesses_under_lock false rest
  | held, .fs_access _ :: rest => held && accesses_under_lock held rest

/-- A visitor that commits every record it is handed (`s->commit()`) and goes on. -/
def committing_visitor (st : file_storage) : visitor_io Unit :=
  fun acc s w => ((true, acc), (st.commit_io s w).2)

/-- A directory with two records. -/
def two_records_dir : filesystem :=
  [("db/lock.txt".toList, []),
   ("db/{0001-0203-0405-0607}.txt".toList, serialize example_sepulca),
   ("db/{1011-1213-1415-1617}.txt".toList, serialize bare_sepulca)]

/-- The state before an operation on the directory `two_records_dir`, the lock open and
free. -/
def two_records_io_state : io_state :=
  { fs := two_records_dir,
    lk := { m_path := "db/lock.txt".toList, m_fd := 3, held := false },
    log := [] }

/-! ## Reachable states of a storage -/

/-- The record files of a storage: the entries of its directory other than the lock file. -/
def record_files (st : file_storage) (fs : filesystem) : filesystem :=
  fs.filter (fun e => is_dir_entry st.m_dir e.1 && decide (e.1 ≠ st.get_lock_file_path))

/-- A storage on an empty directory: the directory holds at most the lock file. -/
def empty_directory (st : file_storage) (fs0 : filesystem) : Prop :=
  ∀ p ∈ directory_iterator fs0 st.m_dir, p = st.get_lock_file_path

instance (st : file_storage) (fs0 : filesystem) : Decidable (empty_directory st fs0) := by
  unfold empty_directory; infer_instance

/-- No file of the file system, inside the storage directory or outside it, holds a valid
record. -/
def no_valid_record (fs0 : filesystem) : Prop :=
  ∀ e ∈ fs0, first_line e.2 ≠ SEPULCA_SIG ∨ second_line e.2 = []

instance (fs0 : filesystem) : Decidable (no_valid_record fs0) := by
  unfold no_valid_record; infer_instance

/-- The states reachable from the file system `fs0`: a file system together with the handles
in the hands of the caller. Handles come from `create`, `get` or `enumerate`, may be changed
by `set_attr`, `delete_attr` and `set_transient_data`, and are committed and erased. `visit`
is one turn of the loop of `enumerate`, the handle read from an entry of the directory and
handed to the visitor: a visitor may commit or erase handles before the next entry is read,
and such a run is a sequence of `visit`, `commit` and `erase` steps. A `commit` whose stream
does not open leaves the file system as it was; the state after it is the state before it,
which is reachable, so every state of the code is among these. -/
inductive reachable (st : file_storage) (fs0 : filesystem) : filesystem → List sepulca → Prop
  | init : reachable st fs0 fs0 []
  | create {fs H} (rd : Nat → Nat) (fuel pos : Nat) (attrs : attributes) (s : sepulca)
      (fs' : filesystem) (pos' : Nat) :
      reachable st fs0 fs H → st.create fs rd fuel pos attrs = some (s, fs', pos') →
      reachable st fs0 fs' (s :: H)
  | get {fs H} (sid : sepulca_id) (r : sepulca) :
      reachable st fs0 fs H → (st.get fs sid).1 = .ok r → reachable st fs0 fs (r :: H)
  | enumerate {fs H} {σ : Type} (cb : σ → sepulca → Bool × σ) (acc : σ) :
      reachable st fs0 fs H → reachable st fs0 fs ((st.enumerate fs cb acc).2 ++ H)
  | visit {fs H} (p : Str) (r : sepulca) :
      reachable st fs0 fs H → p ∈ directory_iterator fs st.m_dir →
      p ≠ st.get_lock_file_path → file_storage.do_deserialize fs p = some r →
      reachable st fs0 fs (r :: H)
  | set_attr {fs H} (h : sepulca) (name value : Str) :
      reachable st fs0 fs H → h ∈ H → reachable st fs0 fs (h.set_attr name value :: H)
  | delete_attr {fs H} (h : sepulca) (name : Str) :
      reachable st fs0 fs H → h ∈ H → reachable st fs0 fs ((h.delete_attr name).2 :: H)
  | set_transient_data {fs H} (h : sepulca) (d : std_any) :
      reachable st fs0 fs H → h ∈ H → reachable st fs0 fs ((h.set_transient_data d).2 :: H)
  | commit {fs H} (h : sepulca) :
      reachable st fs0 fs H → h ∈ H → reachable st fs0 (h.commit st fs) H
  | erase {fs H} (h : sepulca) :
      reachable st fs0 fs H → h ∈ H → reachable st fs0 (h.erase st fs).2 H

/-- What holds of a file in a state reached from a file system without a valid record: it is
a file that was there at the start, not a valid record and not a record file of the storage,
or it was written by `do_serialize` for a handle with a generated identifier. -/
def file_inv (st : file_storage) (e : Str × Str) : Prop :=
  ((first_line e.2 ≠ SEPULCA_SIG ∨ second_line e.2 = [])
      ∧ (is_dir_entry st.m_dir e.1 = true → e.1 = st.get_lock_file_path))
    ∨ ∃ s : sepulca, in_id_grammar s.m_sid = true ∧ e.1 = st.get_cell_path s.m_sid
        ∧ e.2 = serialize s

/-- What holds of a record file in a reachable state: it is a valid record, and the
identifier on its second line is mapped to its path. -/
def record_inv (st : file_storage) (e : Str × Str) : Prop :=
  first_line e.2 = SEPULCA_SIG ∧ second_line e.2 ≠ []
    ∧ st.get_cell_path (second_line e.2) = e.1

/-- A file system whose storage directory `db` is empty, with a record file in another
directory. -/
def outside_record_fs : filesystem :=
  [("db/lock.txt".toList, []),
   ("/db1/{0001-0203-0405-0607}.txt".toList, serialize example_sepulca)]

/-- The handle returned by the first `create` on `fresh_dir` in the examples. -/
def first_handle : sepulca := file_storage.new_sepulca (new_id example_rd 0) example_attrs

/-- The file system after `create`, then `set_attr` and `commit` on the handle, then a second
`create` and the `erase` of its handle. -/
def reached_fs : filesystem :=
  ((file_storage.new_sepulca (new_id example_rd 8) []).erase example_storage
    (example_storage.do_serialize
      ((first_handle.set_attr "size".toList "3".toList).commit example_storage
        (example_storage.do_serialize fresh_dir first_handle))
      (file_storage.new_sepulca (new_id example_rd 8) []))).2

/-- The handles in hand in that state. -/
def reached_handles : List sepulca :=
  [file_storage.new_sepulca (new_id example_rd 8) [],
   first_handle.set_attr "size".toList "3".toList, first_handle]

/-! ## The string order -/

theorem str_lt_irrefl (a : Str) : str_lt a a = false := by
  induction a with
  | nil => rfl
  | cons c cs ih => simp [str_lt, ih]

theorem str_lt_trans : ∀ (a b c : Str), str_lt a b = true → str_lt b c = true → str_lt a c = true
  | [], [], _, h, _ => by simp [str_lt] at h
  | [], _ :: _, [], _, h => by simp [str_lt] at h
  | [], _ :: _, _ :: _, _, _ => by simp [str_lt]
  | _ :: _, [], _, h, _ => by simp [str_lt] at h
  | _ :: _, _ :: _, [], _, h => by simp [str_lt] at h
  | x :: xs, y :: ys, z :: zs, h1, h2 => by
    have ih := str_lt_trans xs ys zs
    rcases lt_trichotomy x y with hxy | hxy | hxy
    · rcases lt_trichotomy y z with hyz | hyz | hyz
      · simp [str_lt, lt_trans hxy hyz]
      · subst hyz; simp [str_lt, hxy]
      · simp [str_lt, hyz, lt_asymm hyz] at h2
    · subst hxy
      rcases lt_trichotomy x z with hxz | hxz | hxz
      · simp [str_lt, hxz]
      · subst hxz
        simp only [str_lt, lt_irrefl, if_false] at h1 h2 ⊢
        exact ih h1 h2
      · simp [str_lt, hxz, lt_asymm hxz] at h2
    · simp [str_lt, hxy, lt_asymm hxy] at h1

theorem str_lt_asymm (a b : Str) (h : str_lt a b = true) : str_lt b a = false := by
  cases hb : str_lt b a with
  | false => rfl
  | true =>
    have := str_lt_trans a b a h hb
    rw [str_lt_irrefl] at this
    exact absurd this (by decide)

theorem str_lt_total : ∀ (a b : Str), str_lt a b = false → str_lt b a = false → a = b
  | [], [], _, _ => rfl
  | [], _ :: _, h, _ => by simp [str_lt] at h
  | _ :: _, [], _, h => by simp [str_lt] at h
  | x :: xs, y :: ys, h1, h2 => by
    have ih := str_lt_total xs ys
    simp only [str_lt] at h1 h2
    split_ifs at h1 h2 with p1 p2
    have hxy : x = y := le_antisymm (not_lt.mp p2) (not_lt.mp p1)
    rw [hxy, ih h1 h2]

/-! ## The attribute map -/

/-- The pairs of a list emplaced one after the other, as the loop of `do_deserialize` does. -/
theorem map_emplace_last (m : attributes) (k v : Str)
    (h : ∀ e ∈ m, str_lt e.1 k = true) : map_emplace m k v = m ++ [(k, v)] := by
  induction m with
  | nil => rfl
  | cons e rest ih =>
    obtain ⟨k', v'⟩ := e
    have hk : str_lt k' k = true := h (k', v') (List.mem_cons_self _ _)
    have hk' : str_lt k k' = false := str_lt_asymm k' k hk
    simp only [map_emplace, hk, hk', if_true, Bool.false_eq_true, if_false, List.cons_append]
    rw [ih (fun e he => h e (List.mem_cons_of_mem _ he))]

theorem foldl_emplace_sorted (l acc : attributes) (h : map_wf (acc ++ l)) :
    l.foldl (fun a e => map_emplace a e.1 e.2) acc = acc ++ l := by
  induction l generalizing acc with
  | nil => simp
  | cons e rest ih =>
    have h1 : ∀ x ∈ acc, str_lt x.1 e.1 = true := by
      intro x hx
      have := List.pairwise_append.mp h
      exact this.2.2 x hx e (List.mem_cons_self _ _)
    simp only [List.foldl_cons]
    rw [map_emplace_last acc e.1 e.2 h1]
    have h2 : map_wf ((acc ++ [(e.1, e.2)]) ++ rest) := by
      simpa [map_wf] using h
    rw [ih _ h2]
    simp

theorem map_assign_mem (m : attributes) (k v : Str) (e : Str × Str)
    (he : e ∈ map_assign m k v) : e = (k, v) ∨ e ∈ m := by
  induction m with
  | nil => simpa [map_assign] using he
  | cons x rest ih =>
    obtain ⟨k', v'⟩ := x
    simp only [map_assign] at he
    split_ifs at he with h1 h2
    · rcases List.mem_cons.mp he with h | h
      · exact Or.inl h
      · exact Or.inr h
    · rcases List.mem_cons.mp he with h | h
      · exact Or.inr (h ▸ List.mem_cons_self _ _)
      · rcases ih h with h | h
        · exact Or.inl h
        · exact Or.inr (List.mem_cons_of_mem _ h)
    · have hk : k = k' := str_lt_total k k' (by simpa using h1) (by simpa using h2)
      rcases List.mem_cons.mp he with h | h
      · exact Or.inl (by rw [h, hk])
      · exact Or.inr (List.mem_cons_of_mem _ h)

theorem map_assign_wf (m : attributes) (k v : Str) (h : map_wf m) :
    map_wf (map_assign m k v) := by
  induction m with
  | nil => simp [map_assign, map_wf]
  | cons x rest ih =>
    obtain ⟨k', v'⟩ := x
    have hrest : map_wf rest := (List.pairwise_cons.mp h).2
    have hhead : ∀ e ∈ rest, str_lt k' e.1 = true := (List.pairwise_cons.mp h).1
    simp only [map_assign]
    split_ifs with h1 h2
    · refine List.pairwise_cons.mpr ⟨?_, h⟩
      intro e he
      rcases List.mem_cons.mp he with h' | h'
      · rw [h']; exact h1
      · exact str_lt_trans k k' e.1 h1 (hhead e h')
    · refine List.pairwise_cons.mpr ⟨?_, ih hrest⟩
      intro e he
      rcases map_assign_mem rest k v e he with h' | h'
      · rw [h']; exact h2
      · exact hhead e h'
    · exact List.pairwise_cons.mpr ⟨hhead, hrest⟩

theorem map_find_assign_same (m : attributes) (k v : Str) :
    map_find (map_assign m k v) k = some v := by
  induction m with
  | nil => simp [map_assign, map_find]
  | cons x rest ih =>
    obtain ⟨k', v'⟩ := x
    simp only [map_assign]
    split_ifs with h1 h2
    · simp [map_find]
    · have hne : k' ≠ k := by
        intro hc; rw [hc, str_lt_irrefl] at h2; exact absurd h2 (by decide)
      simp [map_find, hne, ih]
    · have hk : k = k' := str_lt_total k k' (by simpa using h1) (by simpa using h2)
      simp [map_find, hk]

/-! ## Input streams -/

theorem takeWhile_ne_append (l rest : Str) (c : Char) (h : c ∉ l) :
    (l ++ c :: rest).takeWhile (fun x => x ≠ c) = l := by
  induction l with
  | nil => simp [List.takeWhile]
  | cons a as ih =>
    have ha : a ≠ c := fun hc => h (hc ▸ List.mem_cons_self _ _)
    have has : c ∉ as := fun hc => h (List.mem_cons_of_mem _ hc)
    have hd : decide (a ≠ c) = true := decide_eq_true ha
    simp only [List.cons_append, List.takeWhile_cons, hd, if_true]
    rw [ih has]

theorem dropWhile_ne_append (l rest : Str) (c : Char) (h : c ∉ l) :
    (l ++ c :: rest).dropWhile (fun x => x ≠ c) = c :: rest := by
  induction l with
  | nil => simp [List.dropWhile]
  | cons a as ih =>
    have ha : a ≠ c := fun hc => h (hc ▸ List.mem_cons_self _ _)
    have has : c ∉ as := fun hc => h (List.mem_cons_of_mem _ hc)
    have hd : decide (a ≠ c) = true := decide_eq_true ha
    simp only [List.cons_append, List.dropWhile_cons, hd, if_true]
    exact ih has

/-- Reading a line that ends in a newline from a good stream. -/
theorem getline_line (l rest : Str) (h : '\n' ∉ l) :
    getline { buf := l ++ '\n' :: rest, eofbit := false, failbit := false }
      = (l, { buf := rest, eofbit := false, failbit := false }) := by
  unfold getline
  simp only [Bool.false_eq_true, or_self, if_false]
  rw [dropWhile_ne_append l rest '\n' h, takeWhile_ne_append l rest '\n' h]

theorem getline_buf_le (s : ifstream) : (getline s).2.buf.length ≤ s.buf.length := by
  unfold getline
  split_ifs with h
  · simp
  · have hlen := congrArg List.length (List.takeWhile_append_dropWhile (fun c => decide (c ≠ '\n')) s.buf)
    rw [List.length_append] at hlen
    cases heq : List.dropWhile (fun c => decide (c ≠ '\n')) s.buf with
    | nil => simp
    | cons a as =>
      rw [heq] at hlen
      simp only [List.length_cons] at hlen ⊢
      omega

theorem getline_buf_lt (s : ifstream) (h : (getline s).1 ≠ []) :
    (getline s).2.buf.length < s.buf.length := by
  unfold getline at h ⊢
  split_ifs at h ⊢ with hbits
  · simp at h
  · have hlen := congrArg List.length (List.takeWhile_append_dropWhile (fun c => decide (c ≠ '\n')) s.buf)
    rw [List.length_append] at hlen
    cases heq : List.dropWhile (fun c => decide (c ≠ '\n')) s.buf with
    | nil =>
      rw [heq] at h hlen
      have : 0 < (List.takeWhile (fun c => decide (c ≠ '\n')) s.buf).length :=
        List.length_pos.mpr h
      simp only [List.length_nil] at hlen ⊢
      omega
    | cons a as =>
      rw [heq] at hlen
      simp only [List.length_cons] at hlen ⊢
      omega

/-- The loop of `do_deserialize` ends before `buf.length + 1` iterations: more fuel does
not change its result. -/
theorem deserialize_loop_fuel (f1 f2 : Nat) (ifs : ifstream) (attrs : attributes)
    (h1 : ifs.buf.length < f1) (h2 : ifs.buf.length < f2) :
    deserialize_loop f1 ifs attrs = deserialize_loop f2 ifs attrs := by
  induction f1 generalizing f2 ifs attrs with
  | zero => omega
  | succ a ih =>
    cases f2 with
    | zero => omega
    | succ b =>
      simp only [deserialize_loop]
      split_ifs with hok hk
      · have hlt := getline_buf_lt ifs hk
        have hle := getline_buf_le (getline ifs).2
        exact ih b _ _ (by omega) (by omega)
      · rfl
      · rfl

/-! ## The file table -/

theorem fs_read_write_same (fs : filesystem) (p c : Str) :
    fs_read (fs_write fs p c) p = some c := by
  induction fs with
  | nil => simp [fs_write, fs_read]
  | cons e rest ih =>
    obtain ⟨p', c'⟩ := e
    simp only [fs_write]
    split_ifs with h
    · simp [fs_read, h]
    · simp [fs_read, h, ih]

theorem fs_read_write_other (fs : filesystem) (p q c : Str) (hq : q ≠ p) :
    fs_read (fs_write fs p c) q = fs_read fs q := by
  induction fs with
  | nil => simp [fs_write, fs_read, Ne.symm hq]
  | cons e rest ih =>
    obtain ⟨p', c'⟩ := e
    simp only [fs_write]
    split_ifs with h
    · have : p' ≠ q := fun hc => hq (hc ▸ h)
      simp [fs_read, this]
    · simp [fs_read, ih]

theorem fs_read_remove_same (fs : filesystem) (p : Str) :
    fs_read (fs_remove fs p) p = none := by
  induction fs with
  | nil => rfl
  | cons e rest ih =>
    obtain ⟨p', c'⟩ := e
    unfold fs_remove at ih ⊢
    simp only [decide_not] at ih
    by_cases h : p' = p
    · simp [List.filter_cons, h, ih]
    · simp [List.filter_cons, h, fs_read, ih]

theorem fs_read_remove_other (fs : filesystem) (p q : Str) (hq : q ≠ p) :
    fs_read (fs_remove fs p) q = fs_read fs q := by
  induction fs with
  | nil => rfl
  | cons e rest ih =>
    obtain ⟨p', c'⟩ := e
    unfold fs_remove at ih ⊢
    simp only [decide_not] at ih
    by_cases h : p' = p
    · have : ¬ p = q := fun hc => hq hc.symm
      simp [List.filter_cons, h, fs_read, this, ih]
    · simp [List.filter_cons, h, fs_read, ih]

theorem fs_read_none_iff (fs : filesystem) (p : Str) :
    fs_read fs p = none ↔ ∀ e ∈ fs, e.1 ≠ p := by
  induction fs with
  | nil => simp [fs_read]
  | cons e rest ih =>
    obtain ⟨p', c'⟩ := e
    by_cases h : p' = p
    · simp [fs_read, h]
    · simp [fs_read, h, ih]

theorem fs_remove_absent (fs : filesystem) (p : Str) (h : fs_read fs p = none) :
    fs_remove fs p = fs := by
  unfold fs_remove
  rw [List.filter_eq_self]
  intro e he
  simpa using (fs_read_none_iff fs p).mp h e he

theorem fs_write_absent (fs : filesystem) (p c : Str) (h : fs_read fs p = none) :
    fs_write fs p c = fs ++ [(p, c)] := by
  induction fs with
  | nil => rfl
  | cons e rest ih =>
    obtain ⟨p', c'⟩ := e
    by_cases hp : p' = p
    · simp [fs_read, hp] at h
    · simp only [fs_read, hp, if_false] at h
      simp [fs_write, hp, ih h]

/-! ## The codec -/

theorem sig_no_newline : '\n' ∉ SEPULCA_SIG := by decide

theorem deserialize_loop_serialize (m : attributes) (fuel : Nat) (acc : attributes)
    (hm : attrs_wellformed m) (hfuel : m.length < fuel) :
    deserialize_loop fuel { buf := serialize_attrs m, eofbit := false, failbit := false } acc
      = m.foldl (fun a e => map_emplace a e.1 e.2) acc := by
  induction m generalizing fuel acc with
  | nil =>
    cases fuel with
    | zero => simp at hfuel
    | succ f => simp [deserialize_loop, ifstream.ok, getline, serialize_attrs]
  | cons e rest ih =>
    obtain ⟨k, v⟩ := e
    cases fuel with
    | zero => simp at hfuel
    | succ f =>
      obtain ⟨hk, hkn, hvn⟩ := hm (k, v) (List.mem_cons_self _ _)
      have hrest : attrs_wellformed rest := fun e he => hm e (List.mem_cons_of_mem _ he)
      have hbuf : serialize_attrs ((k, v) :: rest)
          = k ++ '\n' :: (v ++ '\n' :: serialize_attrs rest) := by
        simp [serialize_attrs]
      simp only [deserialize_loop, ifstream.ok, hbuf, getline_line k _ hkn, getline_line v _ hvn,
        Bool.not_false, if_true, ne_eq, hk, not_false_eq_true, List.foldl_cons]
      exact ih f _ hrest (by simpa using hfuel)

theorem serialize_attrs_length (m : attributes) : m.length ≤ (serialize_attrs m).length := by
  induction m with
  | nil => simp
  | cons e rest ih =>
    obtain ⟨k, v⟩ := e
    simp only [serialize_attrs, List.length_cons, List.length_append, List.length_nil]
    omega

/-- Reading back what `do_serialize` writes: the identifier is recovered whenever it is
non-empty and free of newlines. -/
theorem deserialize_serialize_id (s : sepulca) (hid : s.m_sid ≠ []) (hidn : '\n' ∉ s.m_sid) :
    ∃ a, deserialize { buf := serialize s, eofbit := false, failbit := false }
      = some (file_storage.new_sepulca s.m_sid a) := by
  have hbuf : serialize s = SEPULCA_SIG ++ '\n' :: (s.m_sid ++ '\n' :: serialize_attrs s.m_attrs) := by
    simp [serialize, sepulca.get_id, sepulca.get_attrs]
  simp only [deserialize, hbuf, getline_line _ _ sig_no_newline, getline_line _ _ hidn,
    ne_eq, not_true_eq_false, if_false, hid]
  exact ⟨_, rfl⟩

/-- Reading back what `do_serialize` writes: a record with well-formed attributes is
recovered whole. -/
theorem deserialize_serialize (s : sepulca) (hid : s.m_sid ≠ []) (hidn : '\n' ∉ s.m_sid)
    (hwf : map_wf s.m_attrs) (hm : attrs_wellformed s.m_attrs) :
    deserialize { buf := serialize s, eofbit := false, failbit := false }
      = some (file_storage.new_sepulca s.m_sid s.m_attrs) := by
  have hbuf : serialize s = SEPULCA_SIG ++ '\n' :: (s.m_sid ++ '\n' :: serialize_attrs s.m_attrs) := by
    simp [serialize, sepulca.get_id, sepulca.get_attrs]
  simp only [deserialize, hbuf, getline_line _ _ sig_no_newline, getline_line _ _ hidn,
    ne_eq, not_true_eq_false, if_false, hid]
  rw [deserialize_loop_serialize _ _ _ hm
    (Nat.lt_succ_of_le (serialize_attrs_length s.m_attrs))]
  rw [foldl_emplace_sorted _ _ (by simpa using hwf)]
  simp

theorem do_deserialize_of_read (fs : filesystem) (p c : Str) (h : fs_read fs p = some c) :
    file_storage.do_deserialize fs p
      = deserialize { buf := c, eofbit := false, failbit := false } := by
  simp [file_storage.do_deserialize, ifstream.open, h]

/-! ## The loop of `create` -/

theorem create_loop_returns (st : file_storage) (fs : filesystem) (rd : Nat → Nat)
    (fuel pos : Nat) (h : free_within st fs rd fuel pos) :
    ∃ r, create_loop st fs rd fuel pos = some r := by
  induction fuel generalizing pos with
  | zero => obtain ⟨n, hn, _⟩ := h; omega
  | succ f ih =>
    obtain ⟨n, hn, hfree⟩ := h
    simp only [create_loop]
    split_ifs with hex
    · cases n with
      | zero => simp [hex] at hfree
      | succ n' =>
        apply ih
        refine ⟨n', by omega, ?_⟩
        have : pos + 8 + 8 * n' = pos + 8 * (n' + 1) := by ring
        rw [this]; exact hfree
    · exact ⟨_, rfl⟩

theorem create_loop_result (st : file_storage) (fs : filesystem) (rd : Nat → Nat)
    (fuel pos : Nat) (sid : sepulca_id) (pos' : Nat)
    (h : create_loop st fs rd fuel pos = some (sid, pos')) :
    st.do_check_exists fs sid = false ∧ ∃ n, sid = new_id rd (pos + 8 * n) := by
  induction fuel generalizing pos with
  | zero => simp [create_loop] at h
  | succ f ih =>
    simp only [create_loop] at h
    split_ifs at h with hex
    · obtain ⟨h1, n, h2⟩ := ih _ h
      refine ⟨h1, n + 1, ?_⟩
      have : pos + 8 * (n + 1) = pos + 8 + 8 * n := by ring
      rw [this]; exact h2
    · simp only [Option.some.injEq, Prod.mk.injEq] at h
      refine ⟨?_, 0, ?_⟩
      · rw [← h.1]; simpa using hex
      · simp [← h.1]

/-! ## Identifiers and paths -/

set_option maxRecDepth 100000 in
theorem hex_byte_chars :
    ∀ n < 256, ∀ c ∈ setw2_fill0 (to_hex n), c ≠ '/' ∧ c ≠ '.' ∧ c ≠ '\n' := by
  decide

theorem new_id_chars (rd : Nat → Nat) (pos : Nat) :
    ∀ c ∈ new_id rd pos, c ≠ '/' ∧ c ≠ '.' ∧ c ≠ '\n' := by
  intro c hc
  simp only [new_id, List.mem_append, List.mem_singleton, List.mem_flatMap, List.mem_range] at hc
  rcases hc with (hc | ⟨i, _, hc⟩) | hc
  · subst hc; decide
  · simp only [new_id_step, List.mem_append] at hc
    rcases hc with hc | hc
    · split_ifs at hc
      · simp only [List.mem_singleton] at hc; subst hc; decide
      · simp at hc
    · exact hex_byte_chars _ (Nat.mod_lt _ (by decide)) c hc
  · subst hc; decide

theorem new_id_head (rd : Nat → Nat) (pos : Nat) :
    ∃ t, new_id rd pos = '{' :: t := ⟨_, rfl⟩

theorem path_append_nil_cases (d : Str) :
    path_append d [] = [] ∨ (path_append d []).getLast? = some '/' := by
  unfold path_append
  simp only [List.head?_nil, reduceCtorEq, if_false, List.append_nil]
  split_ifs with h
  · right; simp
  · by_cases hd : d = []
    · left; exact hd
    · right
      by_contra hc
      exact h ⟨hd, hc⟩

theorem path_append_eq (d sid : Str) (h : sid.head? ≠ some '/') :
    path_append d sid = path_append d [] ++ sid := by
  unfold path_append
  simp only [h, if_false, List.head?_nil, reduceCtorEq, List.append_nil]
  split_ifs <;> simp

theorem takeWhile_append_stop {p : Char → Bool} (a b : Str) (ha : ∀ c ∈ a, p c = true)
    (hb : b = [] ∨ ∃ x t, b = x :: t ∧ p x = false) :
    (a ++ b).takeWhile p = a := by
  induction a with
  | nil =>
    rcases hb with hb | ⟨x, t, hb, hx⟩
    · simp [hb]
    · simp [hb, List.takeWhile_cons, hx]
  | cons c cs ih =>
    have hc : p c = true := ha c (List.mem_cons_self _ _)
    simp only [List.cons_append, List.takeWhile_cons, hc, if_true]
    rw [ih (fun x hx => ha x (List.mem_cons_of_mem _ hx))]

theorem path_filename_append (D sid : Str) (hD : D = [] ∨ D.getLast? = some '/')
    (hs : '/' ∉ sid) : path_filename (D ++ sid) = sid := by
  unfold path_filename
  rw [List.reverse_append, takeWhile_append_stop, List.reverse_reverse]
  · intro c hc
    have : c ≠ '/' := fun h => hs (h ▸ List.mem_reverse.mp hc)
    simpa using this
  · rcases hD with hD | hD
    · left; simp [hD]
    · right
      rw [List.getLast?_eq_head?_reverse] at hD
      cases hr : D.reverse with
      | nil => simp [hr] at hD
      | cons x t =>
        rw [hr] at hD
        simp only [List.head?_cons, Option.some.injEq] at hD
        exact ⟨x, t, rfl, by simp [hD]⟩

/-- An identifier without a separator and without a period is used verbatim as the stem of
its file, directly under the storage directory. -/
theorem get_cell_path_plain (st : file_storage) (sid : sepulca_id)
    (hs : '/' ∉ sid) (hdot : '.' ∉ sid) :
    st.get_cell_path sid = path_append st.m_dir [] ++ (sid ++ "txt".toList.cons '.') := by
  have hhead : sid.head? ≠ some '/' := by
    intro h
    cases sid with
    | nil => simp at h
    | cons a t => simp only [List.head?_cons, Option.some.injEq] at h; exact hs (h ▸ List.mem_cons_self _ _)
  have hf := path_filename_append (path_append st.m_dir []) sid (path_append_nil_cases _) hs
  have hext : path_extension (path_append st.m_dir [] ++ sid) = [] := by
    unfold path_extension
    simp only [hf]
    have h1 : ¬ (sid = ['.'] ∨ sid = ['.', '.']) := by
      rintro (h | h) <;> (rw [h] at hdot; simp at hdot)
    have h2 : '.' ∉ sid.tail := fun h => hdot (List.mem_of_mem_tail h)
    simp [h1, h2]
  unfold file_storage.get_cell_path replace_extension
  rw [path_append_eq _ _ hhead, hext]
  simp only [List.length_nil, Nat.sub_zero, List.take_length]
  simp

theorem strip_dir_append (d x : Str) : strip_dir d (d ++ x) = some x := by
  induction d with
  | nil => cases x <;> rfl
  | cons a t ih => simp [strip_dir, ih]

theorem get_lock_file_path_eq (st : file_storage) :
    st.get_lock_file_path = path_append st.m_dir [] ++ "lock.txt".toList := by
  unfold file_storage.get_lock_file_path
  exact path_append_eq _ _ (by decide)

/-- The file of a generated identifier is an entry of the storage directory and is not the
lock file. -/
theorem new_id_cell (st : file_storage) (rd : Nat → Nat) (pos : Nat) :
    is_dir_entry st.m_dir (st.get_cell_path (new_id rd pos)) = true
      ∧ st.get_cell_path (new_id rd pos) ≠ st.get_lock_file_path := by
  have hch := new_id_chars rd pos
  have hs : '/' ∉ new_id rd pos := fun h => (hch _ h).1 rfl
  have hdot : '.' ∉ new_id rd pos := fun h => (hch _ h).2.1 rfl
  rw [get_cell_path_plain st _ hs hdot, get_lock_file_path_eq]
  obtain ⟨t, ht⟩ := new_id_head rd pos
  constructor
  · unfold is_dir_entry
    rw [strip_dir_append]
    simp only [decide_eq_true_eq]
    refine ⟨by simp [ht], ?_⟩
    intro h
    rcases List.mem_append.mp h with h | h
    · exact hs h
    · revert h; decide
  · intro h
    have := List.append_cancel_left h
    rw [ht] at this
    simp at this

/-! ## Storage operations -/

theorem create_eq (st : file_storage) (fs : filesystem) (rd : Nat → Nat) (fuel pos : Nat)
    (attrs : attributes) (s : sepulca) (fs' : filesystem) (pos' : Nat)
    (h : st.create fs rd fuel pos attrs = some (s, fs', pos')) :
    create_loop st fs rd fuel pos = some (s.m_sid, pos')
      ∧ s = file_storage.new_sepulca s.m_sid attrs
      ∧ fs' = fs_write fs (st.get_cell_path s.m_sid) (serialize s) := by
  unfold file_storage.create at h
  cases hl : create_loop st fs rd fuel pos with
  | none => simp [hl] at h
  | some r =>
    obtain ⟨sid, p⟩ := r
    simp only [hl, Option.some.injEq, Prod.mk.injEq] at h
    obtain ⟨h1, h2, h3⟩ := h
    subst h1 h2 h3
    exact ⟨rfl, rfl, rfl⟩

theorem create_returns (st : file_storage) (fs : filesystem) (rd : Nat → Nat) (fuel pos : Nat)
    (attrs : attributes) (h : free_within st fs rd fuel pos) :
    ∃ s fs' pos', st.create fs rd fuel pos attrs = some (s, fs', pos') := by
  obtain ⟨⟨sid, p⟩, hr⟩ := create_loop_returns st fs rd fuel pos h
  refine ⟨file_storage.new_sepulca sid attrs,
    st.do_serialize fs (file_storage.new_sepulca sid attrs), p, ?_⟩
  simp [file_storage.create, hr]

/-- A record with a plain identifier and well-formed attributes is read back by `get` from
the file that `do_serialize` wrote. -/
theorem get_do_serialize (st : file_storage) (fs : filesystem) (s : sepulca)
    (hid : s.m_sid ≠ []) (hidn : '\n' ∉ s.m_sid)
    (hwf : map_wf s.m_attrs) (hm : attrs_wellformed s.m_attrs) :
    (st.get (st.do_serialize fs s) s.m_sid).1
      = .ok (file_storage.new_sepulca s.m_sid s.m_attrs) := by
  unfold file_storage.get
  rw [do_deserialize_of_read _ _ (serialize s)
    (by simp [file_storage.do_serialize, sepulca.get_id, fs_read_write_same])]
  rw [deserialize_serialize s hid hidn hwf hm]

theorem new_id_wellformed (rd : Nat → Nat) (pos : Nat) :
    new_id rd pos ≠ [] ∧ '\n' ∉ new_id rd pos := by
  obtain ⟨t, ht⟩ := new_id_head rd pos
  exact ⟨by simp [ht], fun h => (new_id_chars rd pos _ h).2.2 rfl⟩

theorem create_id_wellformed (st : file_storage) (fs : filesystem) (rd : Nat → Nat)
    (fuel pos : Nat) (attrs : attributes) (s : sepulca) (fs' : filesystem) (pos' : Nat)
    (h : st.create fs rd fuel pos attrs = some (s, fs', pos')) :
    s.m_sid ≠ [] ∧ '\n' ∉ s.m_sid ∧ ∃ n, s.m_sid = new_id rd n := by
  obtain ⟨hl, _, _⟩ := create_eq st fs rd fuel pos attrs s fs' pos' h
  obtain ⟨_, n, hn⟩ := create_loop_result st fs rd fuel pos _ _ hl
  rw [hn]
  exact ⟨(new_id_wellformed rd _).1, (new_id_wellformed rd _).2, _, rfl⟩

/-! ## C1 -/

/-- C1, as stated, fails: an attribute name holding a newline is non-empty, and its value has
no newline, yet `create` followed by `get` returns another mapping (the name is split over
two lines and read back as two attributes). -/
theorem create_get_newline_key_counterexample :
    (map_wf newline_key_attrs ∧ ∀ e ∈ newline_key_attrs, e.1 ≠ [] ∧ '\n' ∉ e.2)
    ∧ (example_storage.create [] example_rd 1 0 newline_key_attrs).map
        (fun r => (example_storage.get r.2.1 r.1.get_id).1)
      = some (.ok { m_sid := "{0001-0203-0405-0607}".toList,
                    m_attrs := [("a".toList, "b".toList), ("v".toList, [])],
                    m_transient_data := none }) := by
  refine ⟨by decide, ?_⟩
  rfl

/-- C1 (amended): for every attribute mapping `M` whose names are non-empty and free of
newlines and whose values are free of newlines, whenever a free identifier is drawn within
the attempts allowed, `create M` returns a handle and `get` with the identifier of that
handle yields a record whose attribute mapping is exactly `M`. -/
theorem create_get_roundtrip (st : file_storage) (fs : filesystem) (rd : Nat → Nat)
    (fuel pos : Nat) (M : attributes)
    (hwf : map_wf M) (hM : attrs_wellformed M) (hfree : free_within st fs rd fuel pos) :
    ∃ s fs' pos', st.create fs rd fuel pos M = some (s, fs', pos')
      ∧ ∃ r, (st.get fs' s.get_id).1 = .ok r ∧ r.get_attrs = M := by
  obtain ⟨s, fs', pos', hc⟩ := create_returns st fs rd fuel pos M hfree
  refine ⟨s, fs', pos', hc, ?_⟩
  obtain ⟨_, hs, hfs⟩ := create_eq st fs rd fuel pos M s fs' pos' hc
  obtain ⟨hid, hidn, _⟩ := create_id_wellformed st fs rd fuel pos M s fs' pos' hc
  have hattrs : s.m_attrs = M := by rw [hs]; rfl
  refine ⟨file_storage.new_sepulca s.m_sid s.m_attrs, ?_, ?_⟩
  · have := get_do_serialize st fs s hid hidn (hattrs ▸ hwf) (hattrs ▸ hM)
    rw [hfs]
    exact this
  · simp [sepulca.get_attrs, file_storage.new_sepulca, hattrs]

theorem create_get_roundtrip_witness :
    ∃ s fs' pos', example_storage.create [] example_rd 1 0 example_attrs = some (s, fs', pos')
      ∧ ∃ r, (example_storage.get fs' s.get_id).1 = .ok r ∧ r.get_attrs = example_attrs :=
  create_get_roundtrip example_storage [] example_rd 1 0 example_attrs
    (by decide) (by decide) ⟨0, by decide, by decide⟩

/-! ## C2 -/

theorem fs_read_append_none (a b : filesystem) (p : Str) (h : fs_read (a ++ b) p = none) :
    fs_read a p = none := by
  rw [fs_read_none_iff] at h ⊢
  exact fun e he => h e (List.mem_append_left _ he)

theorem do_check_exists_false_iff (st : file_storage) (fs : filesystem) (sid : sepulca_id) :
    st.do_check_exists fs sid = false ↔ fs_read fs (st.get_cell_path sid) = none := by
  simp [file_storage.do_check_exists, is_regular_file]

/-- One `create`: the file of the new handle was absent and is added as a new entry. -/
theorem create_step (st : file_storage) (fs : filesystem) (rd : Nat → Nat) (fuel pos : Nat)
    (attrs : attributes) (s : sepulca) (fs' : filesystem) (pos' : Nat)
    (h : st.create fs rd fuel pos attrs = some (s, fs', pos')) :
    fs_read fs (st.get_cell_path s.m_sid) = none
      ∧ fs' = fs ++ [(st.get_cell_path s.m_sid, serialize s)] := by
  obtain ⟨hl, _, hfs⟩ := create_eq st fs rd fuel pos attrs s fs' pos' h
  obtain ⟨hfree, _⟩ := create_loop_result st fs rd fuel pos _ _ hl
  have hnone := (do_check_exists_false_iff st fs s.m_sid).mp hfree
  exact ⟨hnone, by rw [hfs, fs_write_absent _ _ _ hnone]⟩

theorem create_many_cons (st : file_storage) (rd : Nat → Nat) (fuel : Nat) (a : attributes)
    (rest : List attributes) (fs : filesystem) (pos : Nat) (ss : List sepulca)
    (fs' : filesystem) (pos' : Nat)
    (h : create_many st rd fuel (a :: rest) fs pos = some (ss, fs', pos')) :
    ∃ s fs1 pos1 ss', st.create fs rd fuel pos a = some (s, fs1, pos1)
      ∧ create_many st rd fuel rest fs1 pos1 = some (ss', fs', pos') ∧ ss = s :: ss' := by
  simp only [create_many] at h
  cases hc : st.create fs rd fuel pos a with
  | none => simp [hc] at h
  | some r =>
    obtain ⟨s, fs1, pos1⟩ := r
    simp only [hc] at h
    cases hm : create_many st rd fuel rest fs1 pos1 with
    | none => simp [hm] at h
    | some r' =>
      obtain ⟨ss', fs2, pos2⟩ := r'
      simp only [hm, Option.some.injEq, Prod.mk.injEq] at h
      obtain ⟨h1, h2, h3⟩ := h
      subst h1 h2 h3
      exact ⟨s, fs1, pos1, ss', rfl, hm, rfl⟩

/-- A run of `create` calls only appends entries: one new file per handle, at pairwise
different paths that were all absent at the start, each named by a generated identifier. -/
theorem create_many_spec (st : file_storage) (rd : Nat → Nat) (fuel : Nat)
    (As : List attributes) (fs : filesystem) (pos : Nat) (ss : List sepulca)
    (fs' : filesystem) (pos' : Nat)
    (h : create_many st rd fuel As fs pos = some (ss, fs', pos')) :
    fs' = fs ++ ss.map (fun s => (st.get_cell_path s.m_sid, serialize s))
      ∧ (∀ s ∈ ss, fs_read fs (st.get_cell_path s.m_sid) = none)
      ∧ (ss.map (fun s => st.get_cell_path s.m_sid)).Nodup
      ∧ (∀ s ∈ ss, ∃ n, s.m_sid = new_id rd n) := by
  induction As generalizing fs pos ss with
  | nil =>
    simp only [create_many, Option.some.injEq, Prod.mk.injEq] at h
    obtain ⟨h1, h2, _⟩ := h
    subst h1 h2
    simp
  | cons a rest ih =>
    obtain ⟨s, fs1, pos1, ss', hc, hm, hss⟩ := create_many_cons st rd fuel a rest fs pos ss fs' pos' h
    obtain ⟨hfs', hnone, hnd, hgr⟩ := ih fs1 pos1 ss' hm
    obtain ⟨hsnone, hfs1⟩ := create_step st fs rd fuel pos a s fs1 pos1 hc
    obtain ⟨_, _, hsg⟩ := create_id_wellformed st fs rd fuel pos a s fs1 pos1 hc
    subst hss
    refine ⟨?_, ?_, ?_, ?_⟩
    · rw [hfs', hfs1]; simp
    · intro x hx
      rcases List.mem_cons.mp hx with hx | hx
      · rw [hx]; exact hsnone
      · exact fs_read_append_none fs [(st.get_cell_path s.m_sid, serialize s)] _
          (hfs1 ▸ hnone x hx)
    · rw [List.map_cons, List.nodup_cons]
      refine ⟨?_, hnd⟩
      intro hmem
      obtain ⟨x, hx, hpx⟩ := List.mem_map.mp hmem
      have h1 := hnone x hx
      rw [hpx, hfs1, fs_write_absent _ _ _ hsnone |>.symm, fs_read_write_same] at h1
      exact absurd h1 (by simp)
    · intro x hx
      rcases List.mem_cons.mp hx with hx | hx
      · rw [hx]; exact hsg
      · exact hgr x hx

theorem fs_write_keeps (fs : filesystem) (p q c : Str) (h : fs_read fs p ≠ none) :
    fs_read (fs_write fs q c) p ≠ none := by
  by_cases hpq : p = q
  · rw [hpq, fs_read_write_same]; simp
  · rw [fs_read_write_other _ _ _ _ hpq]; exact h

/-- A run of `create` and `commit` calls removes no file, and the handles it creates have
files at pairwise different paths, all absent at the start. -/
theorem run_calls_spec (st : file_storage) (rd : Nat → Nat) (fuel : Nat)
    (cs : List storage_call) (fs : filesystem) (pos : Nat) (ss : List sepulca)
    (fs' : filesystem) (pos' : Nat)
    (h : run_calls st rd fuel cs fs pos = some (ss, fs', pos')) :
    (∀ p, fs_read fs p ≠ none → fs_read fs' p ≠ none)
      ∧ (∀ s ∈ ss, fs_read fs (st.get_cell_path s.m_sid) = none)
      ∧ (ss.map (fun s => st.get_cell_path s.m_sid)).Nodup := by
  induction cs generalizing fs pos ss with
  | nil =>
    simp only [run_calls, Option.some.injEq, Prod.mk.injEq] at h
    obtain ⟨h1, h2, _⟩ := h
    subst h1 h2
    simp
  | cons c rest ih =>
    cases c with
    | commit s =>
      simp only [run_calls] at h
      obtain ⟨hmono, hnone, hnd⟩ := ih _ _ _ h
      have hstep : ∀ p, fs_read fs p ≠ none → fs_read (s.commit st fs) p ≠ none :=
        fun p hp => fs_write_keeps fs p _ _ hp
      refine ⟨fun p hp => hmono p (hstep p hp), ?_, hnd⟩
      intro x hx
      by_contra hc
      exact hstep _ hc (hnone x hx)
    | create a =>
      simp only [run_calls] at h
      cases hc : st.create fs rd fuel pos a with
      | none => simp [hc] at h
      | some r =>
        obtain ⟨s, fs1, pos1⟩ := r
        simp only [hc] at h
        cases hm : run_calls st rd fuel rest fs1 pos1 with
        | none => simp [hm] at h
        | some r' =>
          obtain ⟨ss', fs2, pos2⟩ := r'
          simp only [hm, Option.some.injEq, Prod.mk.injEq] at h
          obtain ⟨h1, h2, h3⟩ := h
          subst h1 h2 h3
          obtain ⟨hmono, hnone, hnd⟩ := ih _ _ _ hm
          obtain ⟨hl, _, hfs1⟩ := create_eq st fs rd fuel pos a s fs1 pos1 hc
          obtain ⟨hsnone, _⟩ := create_step st fs rd fuel pos a s fs1 pos1 hc
          have hstep : ∀ p, fs_read fs p ≠ none → fs_read fs1 p ≠ none :=
            fun p hp => hfs1 ▸ fs_write_keeps fs p _ _ hp
          refine ⟨fun p hp => hmono p (hstep p hp), ?_, ?_⟩
          · intro x hx
            rcases List.mem_cons.mp hx with hx | hx
            · rw [hx]; exact hsnone
            · by_contra hcon
              exact hstep _ hcon (hnone x hx)
          · rw [List.map_cons, List.nodup_cons]
            refine ⟨?_, hnd⟩
            intro hmem
            obtain ⟨x, hx, hpx⟩ := List.mem_map.mp hmem
            have h1 := hnone x hx
            rw [hpx, hfs1, fs_read_write_same] at h1
            exact absurd h1 (by simp)

/-- C2: an identifier returned by `create` names no record file of the storage as it was
just before the call, `create` does return one whenever a free identifier is drawn within
the attempts allowed, and the identifiers returned by the `create` calls of a run of
`create` and `commit` calls on one storage, with no `erase`, are pairwise distinct. -/
theorem create_identifiers_fresh_and_distinct (st : file_storage) (fs : filesystem)
    (rd : Nat → Nat) (fuel pos : Nat) :
    (∀ attrs s fs' pos', st.create fs rd fuel pos attrs = some (s, fs', pos') →
        (st.exists fs s.get_id).1 = false)
    ∧ (∀ attrs, free_within st fs rd fuel pos →
        ∃ s fs' pos', st.create fs rd fuel pos attrs = some (s, fs', pos'))
    ∧ (∀ cs ss fs' pos', run_calls st rd fuel cs fs pos = some (ss, fs', pos') →
        (ss.map sepulca.get_id).Nodup) := by
  refine ⟨?_, ?_, ?_⟩
  · intro attrs s fs' pos' h
    obtain ⟨hnone, _⟩ := create_step st fs rd fuel pos attrs s fs' pos' h
    exact (do_check_exists_false_iff st fs _).mpr hnone
  · intro attrs h
    exact create_returns st fs rd fuel pos attrs h
  · intro cs ss fs' pos' h
    obtain ⟨_, _, hnd⟩ := run_calls_spec st rd fuel cs fs pos ss fs' pos' h
    have : ss.map (fun s => st.get_cell_path s.m_sid)
        = (ss.map sepulca.get_id).map st.get_cell_path := by
      simp [List.map_map, Function.comp_def, sepulca.get_id]
    rw [this] at hnd
    exact List.Nodup.of_map _ hnd

theorem create_identifiers_fresh_and_distinct_witness :
    (∃ s fs' pos', example_storage.create [] example_rd 1 0 example_attrs = some (s, fs', pos'))
    ∧ ∃ ss fs' pos',
      run_calls example_storage example_rd 1
          [.create example_attrs, .commit example_sepulca, .create [], .create example_attrs] [] 0
        = some (ss, fs', pos')
      ∧ (ss.map sepulca.get_id).Nodup :=
  ⟨(create_identifiers_fresh_and_distinct example_storage [] example_rd 1 0).2.1 example_attrs
      ⟨0, by decide, by decide⟩,
    _, _, _, rfl,
    (create_identifiers_fresh_and_distinct example_storage [] example_rd 1 0).2.2
      [.create example_attrs, .commit example_sepulca, .create [], .create example_attrs]
      _ _ _ rfl⟩

/-! ## C3 -/

theorem map_assign_wellformed (m : attributes) (k v : Str) (hm : attrs_wellformed m)
    (hk : k ≠ []) (hkn : '\n' ∉ k) (hvn : '\n' ∉ v) :
    attrs_wellformed (map_assign m k v) := by
  intro e he
  rcases map_assign_mem m k v e he with h | h
  · rw [h]; exact ⟨hk, hkn, hvn⟩
  · exact hm e h

/-- C3: for a handle obtained from `create` with well-formed attributes, a non-empty
newline-free name `k` and newline-free values `v1`, `v2`: after `set_attr k v1`, `commit`,
`set_attr k v2`, `commit`, a fresh `get` of the identifier returns a record whose `get_attr k`
is `v2` and whose attribute mapping is the current mapping of the handle. -/
theorem commit_overwrites_previous_commit (st : file_storage) (fs : filesystem)
    (rd : Nat → Nat) (fuel pos : Nat) (M : attributes) (k v1 v2 : Str)
    (hwf : map_wf M) (hM : attrs_wellformed M)
    (hk : k ≠ []) (hkn : '\n' ∉ k) (hv1 : '\n' ∉ v1) (hv2 : '\n' ∉ v2)
    (hfree : free_within st fs rd fuel pos) :
    ∃ s fs1 pos', st.create fs rd fuel pos M = some (s, fs1, pos')
      ∧ ∃ r, (st.get (((s.set_attr k v1).set_attr k v2).commit st
                ((s.set_attr k v1).commit st fs1)) s.get_id).1 = .ok r
          ∧ r.get_attr k = .ok v2
          ∧ r.get_attrs = ((s.set_attr k v1).set_attr k v2).get_attrs := by
  obtain ⟨s, fs1, pos', hc⟩ := create_returns st fs rd fuel pos M hfree
  refine ⟨s, fs1, pos', hc, ?_⟩
  obtain ⟨_, hs, _⟩ := create_eq st fs rd fuel pos M s fs1 pos' hc
  obtain ⟨hid, hidn, _⟩ := create_id_wellformed st fs rd fuel pos M s fs1 pos' hc
  have hattrs : s.m_attrs = M := by rw [hs]; rfl
  have hwf2 : map_wf ((s.set_attr k v1).set_attr k v2).m_attrs :=
    map_assign_wf _ _ _ (map_assign_wf _ _ _ (hattrs ▸ hwf))
  have hM2 : attrs_wellformed ((s.set_attr k v1).set_attr k v2).m_attrs :=
    map_assign_wellformed _ _ _
      (map_assign_wellformed _ _ _ (hattrs ▸ hM) hk hkn hv1) hk hkn hv2
  have hget := get_do_serialize st ((s.set_attr k v1).commit st fs1)
    ((s.set_attr k v1).set_attr k v2) hid hidn hwf2 hM2
  refine ⟨_, hget, ?_, rfl⟩
  simp [sepulca.get_attr, file_storage.new_sepulca, sepulca.set_attr, map_find_assign_same]

theorem commit_overwrites_previous_commit_witness :
    ∃ s fs1 pos', example_storage.create [] example_rd 1 0 example_attrs = some (s, fs1, pos')
      ∧ ∃ r, (example_storage.get
                (((s.set_attr "k".toList "v1".toList).set_attr "k".toList "v2".toList).commit
                  example_storage
                  ((s.set_attr "k".toList "v1".toList).commit example_storage fs1)) s.get_id).1
              = .ok r
          ∧ r.get_attr "k".toList = .ok "v2".toList
          ∧ r.get_attrs
              = ((s.set_attr "k".toList "v1".toList).set_attr "k".toList "v2".toList).get_attrs :=
  commit_overwrites_previous_commit example_storage [] example_rd 1 0 example_attrs
    "k".toList "v1".toList "v2".toList (by decide) (by decide) (by decide) (by decide)
    (by decide) (by decide) ⟨0, by decide, by decide⟩

/-! ## C4 -/

theorem exists_true_iff (st : file_storage) (fs : filesystem) (sid : sepulca_id) :
    (st.exists fs sid).1 = true ↔ ∃ c, fs_read fs (st.get_cell_path sid) = some c := by
  simp [file_storage.exists, file_storage.do_check_exists, is_regular_file, Option.isSome_iff_exists]

theorem erase_snd (st : file_storage) (fs : filesystem) (s : sepulca) :
    (st.erase fs s).2 = fs_remove fs (st.get_cell_path s.get_id) := by
  unfold file_storage.erase
  split_ifs with h
  · have : fs_read fs (st.get_cell_path s.get_id) = none :=
      (do_check_exists_false_iff st fs _).mp (by simpa using h)
    simp [fs_remove_absent _ _ this]
  · rfl

/-- C5: `erase` raises exactly when no regular file is at the path of the record, and then
leaves the file system as it was; otherwise it succeeds, the file at that path is gone and
every other file is as before; a second `erase` on the same handle always raises. -/
theorem erase_raises_iff_absent (st : file_storage) (fs : filesystem) (s : sepulca) :
    ((s.erase st fs).1 = .error (.already_destroyed s.get_id)
        ↔ is_regular_file fs (st.get_cell_path s.get_id) = false)
    ∧ ((s.erase st fs).1 = .ok ()
        ↔ is_regular_file fs (st.get_cell_path s.get_id) = true)
    ∧ (is_regular_file fs (st.get_cell_path s.get_id) = false → (s.erase st fs).2 = fs)
    ∧ (is_regular_file fs (st.get_cell_path s.get_id) = true →
        fs_read (s.erase st fs).2 (st.get_cell_path s.get_id) = none
        ∧ (∀ q, q ≠ st.get_cell_path s.get_id → fs_read (s.erase st fs).2 q = fs_read fs q)
        ∧ (∀ e, e ∈ (s.erase st fs).2 ↔ e ∈ fs ∧ e.1 ≠ st.get_cell_path s.get_id))
    ∧ (s.erase st (s.erase st fs).2).1 = .error (.already_destroyed s.get_id) := by
  have hsnd := erase_snd st fs s
  refine ⟨?_, ?_, ?_, ?_, ?_⟩
  · cases h : is_regular_file fs (st.get_cell_path s.get_id) <;>
      simp [sepulca.erase, file_storage.erase, file_storage.do_check_exists, h]
  · cases h : is_regular_file fs (st.get_cell_path s.get_id) <;>
      simp [sepulca.erase, file_storage.erase, file_storage.do_check_exists, h]
  · intro h
    simp [sepulca.erase, file_storage.erase, file_storage.do_check_exists, h]
  · intro _
    simp only [sepulca.erase, hsnd]
    refine ⟨fs_read_remove_same _ _, fun q hq => fs_read_remove_other _ _ _ hq, ?_⟩
    intro e
    simp [fs_remove, List.mem_filter]
  · simp only [sepulca.erase, hsnd]
    simp [file_storage.erase, file_storage.do_check_exists, is_regular_file, fs_read_remove_same]

theorem erase_raises_iff_absent_witness :
    is_regular_file [] (example_storage.get_cell_path example_sepulca.get_id) = false
    ∧ (example_sepulca.erase example_storage []).2 = []
    ∧ is_regular_file (example_sepulca.commit example_storage [])
        (example_storage.get_cell_path example_sepulca.get_id) = true
    ∧ fs_read (example_sepulca.erase example_storage
        (example_sepulca.commit example_storage [])).2
        (example_storage.get_cell_path example_sepulca.get_id) = none :=
  ⟨by decide,
    (erase_raises_iff_absent example_storage [] example_sepulca).2.2.1 (by decide),
    by decide,
    ((erase_raises_iff_absent example_storage (example_sepulca.commit example_storage [])
      example_sepulca).2.2.2.1 (by decide)).1⟩

/-! ## C6 -/

theorem getline_good_fst (c : Str) :
    (getline { buf := c, eofbit := false, failbit := false }).1 = first_line c := by
  unfold getline first_line
  simp only [Bool.false_eq_true, or_self, if_false]
  split <;> rfl

theorem getline_good_snd_fst (c : Str) :
    (getline (getline { buf := c, eofbit := false, failbit := false }).2).1 = second_line c := by
  unfold second_line
  cases hd : c.dropWhile (fun x => decide (x ≠ '\n')) with
  | nil =>
    have : (getline { buf := c, eofbit := false, failbit := false }).2
        = { buf := [], eofbit := true, failbit := (first_line c).isEmpty } := by
      unfold getline first_line
      simp only [Bool.false_eq_true, or_self, if_false, hd]
    rw [this]
    simp [getline]
  | cons a rest =>
    have : (getline { buf := c, eofbit := false, failbit := false }).2
        = { buf := rest, eofbit := false, failbit := false } := by
      unfold getline
      simp only [Bool.false_eq_true, or_self, if_false, hd]
    rw [this, getline_good_fst]
    simp [first_line]

theorem deserialize_eq (ifs : ifstream) :
    deserialize ifs =
      if (getline ifs).1 ≠ SEPULCA_SIG then none
      else if (getline (getline ifs).2).1 = [] then none
      else some (file_storage.new_sepulca (getline (getline ifs).2).1
        (deserialize_loop ((getline (getline ifs).2).2.buf.length + 1)
          (getline (getline ifs).2).2 [])) := rfl

theorem deserialize_none_iff (c : Str) :
    deserialize { buf := c, eofbit := false, failbit := false } = none
      ↔ first_line c ≠ SEPULCA_SIG ∨ second_line c = [] := by
  rw [deserialize_eq, getline_good_snd_fst, getline_good_fst]
  split_ifs with h1 h2
  · simp [h1]
  · simp [h2]
  · simp only [reduceCtorEq, false_iff, not_or]
    exact ⟨h1, h2⟩

theorem deserialize_unopened : deserialize { buf := [], eofbit := false, failbit := true } = none := by
  decide

/-- What `do_deserialize` does at a path: it fails exactly when no file is there, or the first
line of the file is not the signature, or its second line is empty. -/
theorem do_deserialize_none_iff (fs : filesystem) (p : Str) :
    file_storage.do_deserialize fs p = none
      ↔ fs_read fs p = none
        ∨ ∃ c, fs_read fs p = some c ∧ (first_line c ≠ SEPULCA_SIG ∨ second_line c = []) := by
  cases h : fs_read fs p with
  | none =>
    simp [file_storage.do_deserialize, ifstream.open, h, deserialize_unopened]
  | some c =>
    rw [do_deserialize_of_read fs p c h, deserialize_none_iff]
    simp

/-- C6: `get` raises the not-found error exactly when the file at the path of the identifier
is absent, or its first line is not the signature, or its second line is empty; in every
other case it returns a record; and the file system is the same afterwards. -/
theorem get_raises_iff_absent_or_invalid (st : file_storage) (fs : filesystem)
    (sid : sepulca_id) :
    ((st.get fs sid).1 = .error (.sepulca_not_found sid)
        ↔ fs_read fs (st.get_cell_path sid) = none
          ∨ ∃ c, fs_read fs (st.get_cell_path sid) = some c
              ∧ (first_line c ≠ SEPULCA_SIG ∨ second_line c = []))
    ∧ ((∃ r, (st.get fs sid).1 = .ok r)
        ↔ ∃ c, fs_read fs (st.get_cell_path sid) = some c
              ∧ first_line c = SEPULCA_SIG ∧ second_line c ≠ [])
    ∧ (st.get fs sid).2 = fs := by
  have key := do_deserialize_none_iff fs (st.get_cell_path sid)
  refine ⟨?_, ?_, ?_⟩
  · rw [← key]
    unfold file_storage.get
    cases file_storage.do_deserialize fs (st.get_cell_path sid) <;> simp
  · have hok : (∃ r, (st.get fs sid).1 = .ok r)
        ↔ ¬ file_storage.do_deserialize fs (st.get_cell_path sid) = none := by
      unfold file_storage.get
      cases file_storage.do_deserialize fs (st.get_cell_path sid) <;> simp
    rw [hok, key]
    cases h : fs_read fs (st.get_cell_path sid) with
    | none => simp
    | some c => simp [not_or]
  · unfold file_storage.get
    cases file_storage.do_deserialize fs (st.get_cell_path sid) <;> rfl

theorem get_raises_iff_absent_or_invalid_witness :
    (example_storage.get corrupt_dir "bad".toList).1
        = .error (.sepulca_not_found "bad".toList)
    ∧ (example_storage.get corrupt_dir "noid".toList).1
        = .error (.sepulca_not_found "noid".toList)
    ∧ (example_storage.get corrupt_dir "absent".toList).1
        = .error (.sepulca_not_found "absent".toList)
    ∧ ∃ r, (example_storage.get corrupt_dir "{0001-0203-0405-0607}".toList).1 = .ok r :=
  ⟨(get_raises_iff_absent_or_invalid example_storage corrupt_dir "bad".toList).1.mpr
      (Or.inr ⟨wrong_sig_file, by decide, Or.inl (by decide)⟩),
    (get_raises_iff_absent_or_invalid example_storage corrupt_dir "noid".toList).1.mpr
      (Or.inr ⟨empty_id_file, by decide, Or.inr (by decide)⟩),
    (get_raises_iff_absent_or_invalid example_storage corrupt_dir "absent".toList).1.mpr
      (Or.inl (by decide)),
    (get_raises_iff_absent_or_invalid example_storage corrupt_dir
      "{0001-0203-0405-0607}".toList).2.1.mpr
      ⟨serialize example_sepulca, by decide, by decide, by decide⟩⟩

/-! ## C7 -/

/-- C7: `exists` answers true exactly when a regular file is at the path of the identifier,
whatever the file holds, so also for a file on which `get` raises; the file system is the
same afterwards, and a second call gives the same answer. -/
theorem exists_iff_regular_file (st : file_storage) (fs : filesystem) (sid : sepulca_id) :
    ((st.exists fs sid).1 = true ↔ ∃ c, fs_read fs (st.get_cell_path sid) = some c)
    ∧ (∀ c, (st.exists (fs_write fs (st.get_cell_path sid) c) sid).1 = true)
    ∧ (∀ c, first_line c ≠ SEPULCA_SIG ∨ second_line c = [] →
        (st.exists (fs_write fs (st.get_cell_path sid) c) sid).1 = true
        ∧ (st.get (fs_write fs (st.get_cell_path sid) c) sid).1
            = .error (.sepulca_not_found sid))
    ∧ (st.exists fs sid).2 = fs
    ∧ (st.exists (st.exists fs sid).2 sid).1 = (st.exists fs sid).1 := by
  have hw : ∀ c, (st.exists (fs_write fs (st.get_cell_path sid) c) sid).1 = true :=
    fun c => (exists_true_iff st _ sid).mpr ⟨c, fs_read_write_same _ _ _⟩
  refine ⟨exists_true_iff st fs sid, hw, ?_, rfl, rfl⟩
  intro c hc
  refine ⟨hw c, ?_⟩
  have hd : file_storage.do_deserialize (fs_write fs (st.get_cell_path sid) c)
      (st.get_cell_path sid) = none :=
    (do_deserialize_none_iff _ _).mpr (Or.inr ⟨c, fs_read_write_same _ _ _, hc⟩)
  simp [file_storage.get, hd]

theorem exists_iff_regular_file_witness :
    (example_storage.exists
        (fs_write [] (example_storage.get_cell_path example_sepulca.get_id) wrong_sig_file)
        example_sepulca.get_id).1 = true
    ∧ (example_storage.get
        (fs_write [] (example_storage.get_cell_path example_sepulca.get_id) wrong_sig_file)
        example_sepulca.get_id).1 = .error (.sepulca_not_found example_sepulca.get_id) :=
  (exists_iff_regular_file example_storage [] example_sepulca.get_id).2.2.1 wrong_sig_file
    (Or.inl (by decide))

/-! ## Enumeration -/

theorem enumerate_loop_eq_visit_until {σ : Type} (st : file_storage) (fs : filesystem)
    (cb : σ → sepulca → Bool × σ) (L : List Str) (acc : σ) :
    enumerate_loop st fs cb L acc
      = visit_until cb ((L.filter (fun p => p ≠ st.get_lock_file_path)).filterMap
          (file_storage.do_deserialize fs)) acc := by
  induction L generalizing acc with
  | nil => rfl
  | cons p rest ih =>
    by_cases hp : p = st.get_lock_file_path
    · simp only [enumerate_loop, hp, if_true, ih]
      simp
    · cases hd : file_storage.do_deserialize fs p with
      | none =>
        simp only [enumerate_loop, hp, if_false, hd, ih]
        simp [List.filter_cons, hp, List.filterMap_cons, hd]
      | some s =>
        simp only [enumerate_loop, hp, if_false, hd, ih]
        simp only [List.filter_cons, ne_eq, hp, not_false_eq_true, decide_True, if_true,
          List.filterMap_cons, hd, visit_until]

theorem enumerate_eq_visit_until {σ : Type} (st : file_storage) (fs : filesystem)
    (cb : σ → sepulca → Bool × σ) (acc : σ) :
    st.enumerate fs cb acc = visit_until cb (valid_entries st fs) acc :=
  enumerate_loop_eq_visit_until st fs cb _ acc

theorem visit_until_true {σ : Type} (f : σ → sepulca → σ) (l : List sepulca) (acc : σ) :
    visit_until (fun a s => (true, f a s)) l acc = (l.foldl f acc, l) := by
  induction l generalizing acc with
  | nil => rfl
  | cons s rest ih => simp [visit_until, ih]

theorem visit_until_pure (f : sepulca → Bool) (l : List sepulca) :
    (visit_until (fun (_ : Unit) s => (f s, ())) l ()).2
      = l.takeWhile f ++ (l.dropWhile f).take 1 := by
  induction l with
  | nil => rfl
  | cons s rest ih =>
    cases hf : f s
    · simp [visit_until, hf, List.takeWhile_cons, List.dropWhile_cons]
    · simp [visit_until, hf, List.takeWhile_cons, List.dropWhile_cons, ih]

/-! ## C9 -/

/-- C9: for every content of the file system, `enumerate` with a visitor that always returns
true calls the visitor exactly on the entries of the directory, other than the lock file,
that deserialize, in traversal order; an entry whose first line is not the signature or
whose second line is empty does not deserialize, and every entry that does is visited. -/
theorem enumerate_visits_valid_entries {σ : Type} (st : file_storage) (fs : filesystem)
    (f : σ → sepulca → σ) (acc : σ) :
    st.enumerate fs (fun a s => (true, f a s)) acc
        = ((valid_entries st fs).foldl f acc, valid_entries st fs)
    ∧ (∀ p c, fs_read fs p = some c → first_line c ≠ SEPULCA_SIG ∨ second_line c = [] →
        file_storage.do_deserialize fs p = none)
    ∧ (∀ p s, p ∈ directory_iterator fs st.m_dir → p ≠ st.get_lock_file_path →
        file_storage.do_deserialize fs p = some s →
        s ∈ (st.enumerate fs (fun a s => (true, f a s)) acc).2) := by
  have h1 : st.enumerate fs (fun a s => (true, f a s)) acc
      = ((valid_entries st fs).foldl f acc, valid_entries st fs) := by
    rw [enumerate_eq_visit_until, visit_until_true]
  refine ⟨h1, ?_, ?_⟩
  · intro p c hr hc
    exact (do_deserialize_none_iff fs p).mpr (Or.inr ⟨c, hr, hc⟩)
  · intro p s hp hl hd
    rw [h1]
    simp only [valid_entries, List.mem_filterMap, List.mem_filter]
    exact ⟨p, ⟨hp, by simpa using hl⟩, hd⟩

theorem enumerate_visits_valid_entries_witness :
    file_storage.do_deserialize corrupt_dir "db/bad.txt".toList = none
    ∧ example_sepulca ∈ (example_storage.enumerate corrupt_dir (fun (a : Unit) _ => (true, a)) ()).2
    ∧ (example_storage.enumerate corrupt_dir (fun (a : Unit) _ => (true, a)) ()).2
        = [example_sepulca] :=
  ⟨(enumerate_visits_valid_entries example_storage corrupt_dir (fun (a : Unit) _ => a) ()).2.1
      "db/bad.txt".toList wrong_sig_file (by decide) (Or.inl (by decide)),
    (enumerate_visits_valid_entries example_storage corrupt_dir (fun (a : Unit) _ => a) ()).2.2
      "db/{0001-0203-0405-0607}.txt".toList example_sepulca (by decide) (by decide) (by rfl),
    (congrArg Prod.snd
      (enumerate_visits_valid_entries example_storage corrupt_dir (fun (a : Unit) _ => a) ()).1).trans
      (by rfl)⟩

/-! ## C10 -/

/-- C10: `enumerate` calls the visitor on the valid entries in traversal order up to and
including the first one for which the visitor returns false, and on none after it; for a
visitor that is a predicate on the record, the visited records are the longest run of
entries accepted by it followed by the first one refused, if any. -/
theorem enumerate_stops_at_first_false (st : file_storage) (fs : filesystem) :
    (∀ {σ : Type} (cb : σ → sepulca → Bool × σ) (acc : σ),
        st.enumerate fs cb acc = visit_until cb (valid_entries st fs) acc)
    ∧ (∀ f : sepulca → Bool,
        (st.enumerate fs (fun (_ : Unit) s => (f s, ())) ()).2
          = (valid_entries st fs).takeWhile f ++ ((valid_entries st fs).dropWhile f).take 1) := by
  refine ⟨fun cb acc => enumerate_eq_visit_until st fs cb acc, ?_⟩
  intro f
  rw [enumerate_eq_visit_until, visit_until_pure]

theorem enumerate_stops_at_first_false_witness :
    (example_storage.enumerate created_fs
        (fun (_ : Unit) s => (decide (s.m_attrs ≠ []), ())) ()).2
      = created_handles.take 2 :=
  ((enumerate_stops_at_first_false example_storage created_fs).2
    (fun s => decide (s.m_attrs ≠ []))).trans (by rfl)

/-! ## C8 -/

theorem erase_many_eq (st : file_storage) (S : List sepulca) (fs : filesystem) :
    erase_many st S fs
      = fs.filter (fun e => decide (e.1 ∉ S.map (fun s => st.get_cell_path s.m_sid))) := by
  induction S generalizing fs with
  | nil => simp [erase_many]
  | cons s rest ih =>
    simp only [erase_many, sepulca.erase, erase_snd, ih, fs_remove, List.filter_filter,
      sepulca.get_id]
    apply List.filter_congr
    intro e _
    simp only [List.map_cons, List.mem_cons, not_or, Bool.decide_and, Bool.and_comm]

theorem fs_read_filter (fs : filesystem) (kp : Str → Bool) (p : Str) (h : kp p = true) :
    fs_read (fs.filter (fun e => kp e.1)) p = fs_read fs p := by
  induction fs with
  | nil => rfl
  | cons e rest ih =>
    obtain ⟨p', c'⟩ := e
    by_cases hp : p' = p
    · subst hp; simp [List.filter_cons, h, fs_read]
    · by_cases hk : kp p' = true
      · simp [List.filter_cons, hk, fs_read, hp, ih]
      · simp [List.filter_cons, hk, fs_read, hp, ih]

theorem fs_read_append_right (a b : filesystem) (p : Str) (h : fs_read a p = none) :
    fs_read (a ++ b) p = fs_read b p := by
  induction a with
  | nil => rfl
  | cons e rest ih =>
    obtain ⟨p', c'⟩ := e
    by_cases hp : p' = p
    · simp [fs_read, hp] at h
    · simp only [fs_read, hp, if_false] at h
      simp [fs_read, hp, ih h]

theorem fs_read_created (st : file_storage) (ss : List sepulca) (s : sepulca) (hs : s ∈ ss)
    (hnd : (ss.map (fun s => st.get_cell_path s.m_sid)).Nodup) :
    fs_read (ss.map (fun s => (st.get_cell_path s.m_sid, serialize s))) (st.get_cell_path s.m_sid)
      = some (serialize s) := by
  induction ss with
  | nil => simp at hs
  | cons x rest ih =>
    rw [List.map_cons, List.nodup_cons] at hnd
    rcases List.mem_cons.mp hs with h | h
    · subst h; simp [fs_read]
    · have hne : st.get_cell_path x.m_sid ≠ st.get_cell_path s.m_sid := by
        intro hc
        exact hnd.1 (List.mem_map.mpr ⟨s, h, hc.symm⟩)
      simp [fs_read, hne, ih h hnd.2]

theorem filterMap_map_eq {α β γ : Type} (g : α → Option β) (h : β → γ) (k : α → γ)
    (l : List α) (hl : ∀ x ∈ l, ∃ r, g x = some r ∧ h r = k x) :
    (l.filterMap g).map h = l.map k := by
  induction l with
  | nil => rfl
  | cons x rest ih =>
    obtain ⟨r, hr, hk⟩ := hl x (List.mem_cons_self _ _)
    simp [List.filterMap_cons, hr, hk, ih (fun y hy => hl y (List.mem_cons_of_mem _ hy))]

/-- The paths listed for the directory, the lock file apart, among created files that a
filter on paths keeps. -/
theorem listing_of_created (st : file_storage) (rd : Nat → Nat) (kp : Str → Bool)
    (ss : List sepulca) (hg : ∀ s ∈ ss, ∃ n, s.m_sid = new_id rd n) :
    ((((ss.map (fun s => (st.get_cell_path s.m_sid, serialize s))).filter
        (fun e => kp e.1)).filter (fun e => is_dir_entry st.m_dir e.1)).map Prod.fst).filter
        (fun p => decide (p ≠ st.get_lock_file_path))
      = (ss.filter (fun s => kp (st.get_cell_path s.m_sid))).map
          (fun s => st.get_cell_path s.m_sid) := by
  induction ss with
  | nil => rfl
  | cons s rest ih =>
    obtain ⟨n, hn⟩ := hg s (List.mem_cons_self _ _)
    have hcell := new_id_cell st rd n
    rw [← hn] at hcell
    have ih' := ih (fun y hy => hg y (List.mem_cons_of_mem _ hy))
    by_cases hk : kp (st.get_cell_path s.m_sid) = true
    · simp only [List.map_cons, List.filter_cons, hk, if_true, hcell.1, ne_eq, hcell.2,
        not_false_eq_true, decide_True]
      rw [← ih']
    · simp only [List.map_cons, List.filter_cons, hk, if_false, Bool.false_eq_true]
      rw [← ih']

theorem listing_of_initial (st : file_storage) (fs0 : filesystem) (kp : Str → Bool)
    (h0 : ∀ p ∈ directory_iterator fs0 st.m_dir, p = st.get_lock_file_path) :
    ((((fs0.filter (fun e => kp e.1)).filter (fun e => is_dir_entry st.m_dir e.1)).map
        Prod.fst).filter (fun p => decide (p ≠ st.get_lock_file_path))) = [] := by
  rw [List.filter_eq_nil_iff]
  intro p hp
  simp only [List.mem_map, List.mem_filter] at hp
  obtain ⟨e, ⟨⟨he, _⟩, hd⟩, hfst⟩ := hp
  have : p ∈ directory_iterator fs0 st.m_dir := by
    simp only [directory_iterator, List.mem_map, List.mem_filter]
    exact ⟨e, ⟨he, hd⟩, hfst⟩
  simp [h0 p this]

/-- After a run of `create` calls on a directory that held at most the lock file, and
`erase` on some of the handles, the records visited by `enumerate` with a visitor that always
returns true carry the identifiers of the handles not erased, in their order. -/
theorem enumerate_after_creates_erases {σ : Type} (st : file_storage) (fs0 : filesystem)
    (rd : Nat → Nat) (fuel pos : Nat) (As : List attributes) (ss : List sepulca)
    (fs1 : filesystem) (pos1 : Nat) (S : List sepulca) (f : σ → sepulca → σ) (acc : σ)
    (h0 : ∀ p ∈ directory_iterator fs0 st.m_dir, p = st.get_lock_file_path)
    (hc : create_many st rd fuel As fs0 pos = some (ss, fs1, pos1))
    (hS : ∀ s ∈ S, s ∈ ss) :
    (st.enumerate (erase_many st S fs1) (fun a s => (true, f a s)) acc).2.map sepulca.get_id
      = (ss.filter (fun s => decide (s ∉ S))).map sepulca.get_id := by
  obtain ⟨hfs1, hnone, hnd, hg⟩ := create_many_spec st rd fuel As fs0 pos ss fs1 pos1 hc
  rw [enumerate_eq_visit_until, visit_until_true]
  simp only [valid_entries, directory_iterator]
  rw [erase_many_eq, hfs1]
  generalize hkp : (fun p => decide (p ∉ S.map (fun s => st.get_cell_path s.m_sid))) = kp
  have hkp' : (fun (e : Str × Str) => decide (e.1 ∉ S.map (fun s => st.get_cell_path s.m_sid)))
      = fun e => kp e.1 := by rw [← hkp]
  rw [hkp']
  have hlist : ((((fs0 ++ ss.map (fun s => (st.get_cell_path s.m_sid, serialize s))).filter
        (fun e => kp e.1)).filter (fun e => is_dir_entry st.m_dir e.1)).map Prod.fst).filter
        (fun p => decide (p ≠ st.get_lock_file_path))
      = (ss.filter (fun s => kp (st.get_cell_path s.m_sid))).map
          (fun s => st.get_cell_path s.m_sid) := by
    simp only [List.filter_append, List.map_append]
    rw [listing_of_initial st fs0 kp h0, listing_of_created st rd kp ss hg, List.nil_append]
  rw [hlist, List.filterMap_map]
  have hvis : ((ss.filter (fun s => kp (st.get_cell_path s.m_sid))).filterMap
        (file_storage.do_deserialize
          ((fs0 ++ ss.map (fun s => (st.get_cell_path s.m_sid, serialize s))).filter
            (fun e => kp e.1)) ∘ fun s => st.get_cell_path s.m_sid)).map sepulca.get_id
      = (ss.filter (fun s => kp (st.get_cell_path s.m_sid))).map sepulca.get_id := by
    apply filterMap_map_eq
    intro x hx
    obtain ⟨hxs, hxk⟩ := List.mem_filter.mp hx
    obtain ⟨n, hn⟩ := hg x hxs
    have hread : fs_read ((fs0 ++ ss.map (fun s => (st.get_cell_path s.m_sid, serialize s))).filter
        (fun e => kp e.1)) (st.get_cell_path x.m_sid) = some (serialize x) := by
      rw [fs_read_filter _ kp _ hxk, fs_read_append_right _ _ _ (hnone x hxs),
        fs_read_created st ss x hxs hnd]
    obtain ⟨a, ha⟩ := deserialize_serialize_id x (hn ▸ (new_id_wellformed rd n).1)
      (hn ▸ (new_id_wellformed rd n).2)
    refine ⟨file_storage.new_sepulca x.m_sid a, ?_, rfl⟩
    simp only [Function.comp_apply]
    rw [do_deserialize_of_read _ _ _ hread, ha]
  rw [hvis]
  congr 1
  apply List.filter_congr
  intro x hx
  rw [← hkp]
  have hiff : st.get_cell_path x.m_sid ∈ S.map (fun s => st.get_cell_path s.m_sid) ↔ x ∈ S := by
    constructor
    · intro hm
      obtain ⟨y, hy, hxy⟩ := List.mem_map.mp hm
      have := List.inj_on_of_nodup_map hnd (hS y hy) hx hxy
      exact this ▸ hy
    · intro hm
      exact List.mem_map.mpr ⟨x, hm, rfl⟩
  simp [hiff]

/-- C8: starting from a storage directory that holds at most the lock file (with whatever
content), after a run of `create` calls returning the handles `ss` and `erase` on the
handles of any list `S` of them, `enumerate` with a visitor that always returns true visits
records whose identifiers are exactly those of the handles of `ss` not in `S`, each exactly
once; no file of a handle is the lock file, which is therefore not among the files visited. -/
theorem enumerate_complete_after_erase {σ : Type} (st : file_storage) (fs0 : filesystem)
    (rd : Nat → Nat) (fuel pos : Nat) (As : List attributes) (ss : List sepulca)
    (fs1 : filesystem) (pos1 : Nat) (S : List sepulca) (f : σ → sepulca → σ) (acc : σ)
    (h0 : ∀ p ∈ directory_iterator fs0 st.m_dir, p = st.get_lock_file_path)
    (hc : create_many st rd fuel As fs0 pos = some (ss, fs1, pos1))
    (hS : ∀ s ∈ S, s ∈ ss) :
    ((st.enumerate (erase_many st S fs1) (fun a s => (true, f a s)) acc).2.map
        sepulca.get_id).Perm ((ss.filter (fun s => decide (s ∉ S))).map sepulca.get_id)
    ∧ ((st.enumerate (erase_many st S fs1) (fun a s => (true, f a s)) acc).2.map
        sepulca.get_id).Nodup
    ∧ ∀ s ∈ ss, st.get_cell_path s.get_id ≠ st.get_lock_file_path := by
  have heq := enumerate_after_creates_erases st fs0 rd fuel pos As ss fs1 pos1 S f acc h0 hc hS
  obtain ⟨_, _, hnd, hg⟩ := create_many_spec st rd fuel As fs0 pos ss fs1 pos1 hc
  refine ⟨heq ▸ List.Perm.refl _, ?_, ?_⟩
  · rw [heq]
    have hids : (ss.map sepulca.get_id).Nodup := by
      have : ss.map (fun s => st.get_cell_path s.m_sid)
          = (ss.map sepulca.get_id).map st.get_cell_path := by
        simp [List.map_map, Function.comp_def, sepulca.get_id]
      rw [this] at hnd
      exact List.Nodup.of_map _ hnd
    exact List.Nodup.sublist (List.Sublist.map _ (List.filter_sublist _)) hids
  · intro s hs
    obtain ⟨n, hn⟩ := hg s hs
    rw [sepulca.get_id, hn]
    exact (new_id_cell st rd n).2

theorem enumerate_complete_after_erase_witness :
    ((example_storage.enumerate
        (erase_many example_storage [file_storage.new_sepulca (new_id example_rd 8) []] created_fs)
        (fun (a : Unit) _ => (true, a)) ()).2.map sepulca.get_id).Perm
      ((created_handles.filter
        (fun s => decide (s ∉ [file_storage.new_sepulca (new_id example_rd 8) []]))).map
        sepulca.get_id)
    ∧ ((example_storage.enumerate
        (erase_many example_storage [file_storage.new_sepulca (new_id example_rd 8) []] created_fs)
        (fun (a : Unit) _ => (true, a)) ()).2.map sepulca.get_id).Nodup
    ∧ ∀ s ∈ created_handles,
        example_storage.get_cell_path s.get_id ≠ example_storage.get_lock_file_path :=
  enumerate_complete_after_erase example_storage fresh_dir example_rd 1 0
    [example_attrs, [], example_attrs] created_handles created_fs 24
    [file_storage.new_sepulca (new_id example_rd 8) []] (fun (a : Unit) _ => a) ()
    (by decide) (by rfl) (by decide)

/-- The opening of a storage on the new directory `db` creates the lock file, and the run of
the example visits the first and the third record. -/
theorem enumerate_example_run :
    file_storage.ctor [] "db".toList = .ok (example_storage, fresh_dir)
    ∧ (example_storage.enumerate
        (erase_many example_storage [file_storage.new_sepulca (new_id example_rd 8) []] created_fs)
        (fun (a : Unit) _ => (true, a)) ()).2.map sepulca.get_id
      = ["{0001-0203-0405-0607}".toList, "{1011-1213-1415-1617}".toList] := by
  constructor <;> rfl

/-- The constructor refuses the path of a regular file and a path below a regular file. -/
theorem ctor_example_errors :
    file_storage.ctor [("db".toList, [])] "db".toList = .error (.not_a_directory "db".toList)
    ∧ file_storage.ctor [("db".toList, [])] "db/x".toList
        = .error (.create_directories_failed "db/x".toList)
    ∧ file_storage.ctor [("db/lock.txt".toList, [])] "db".toList
        = .ok (example_storage, fresh_dir) := by
  refine ⟨?_, ?_, ?_⟩ <;> rfl

/-! ## C11 -/

set_option maxRecDepth 100000 in
theorem hex_byte_eq : ∀ n < 256, setw2_fill0 (to_hex n) = two_hex n := by
  decide

theorem hex_digit_ok : ∀ d < 16, hex_digits.contains (hex_digit d) = true := by
  decide

theorem new_id_step_eq (rd : Nat → Nat) (pos i : Nat) :
    new_id_step rd pos i
      = (if i > 0 ∧ i % 2 = 0 then ['-'] else []) ++ two_hex (random_num rd (pos + i)) := by
  have hlt : random_num rd (pos + i) < 256 := Nat.mod_lt _ (by decide)
  unfold new_id_step
  rw [hex_byte_eq _ hlt]

theorem new_id_eq (rd : Nat → Nat) (pos : Nat) :
    new_id rd pos
      = ['{'] ++ two_hex (random_num rd (pos + 0)) ++ two_hex (random_num rd (pos + 1))
        ++ ['-'] ++ two_hex (random_num rd (pos + 2)) ++ two_hex (random_num rd (pos + 3))
        ++ ['-'] ++ two_hex (random_num rd (pos + 4)) ++ two_hex (random_num rd (pos + 5))
        ++ ['-'] ++ two_hex (random_num rd (pos + 6)) ++ two_hex (random_num rd (pos + 7))
        ++ ['}'] := by
  have hr : List.range 8 = [0, 1, 2, 3, 4, 5, 6, 7] := by decide
  unfold new_id
  rw [hr]
  simp [List.flatMap, new_id_step_eq]

theorem new_id_in_grammar (rd : Nat → Nat) (pos : Nat) :
    in_id_grammar (new_id rd pos) = true := by
  have hd1 : ∀ n, hex_digit (random_num rd n / 16) ∈ hex_digits := by
    intro n
    have hlt : random_num rd n < 256 := Nat.mod_lt _ (by decide)
    simpa using hex_digit_ok (random_num rd n / 16) (by omega)
  have hd2 : ∀ n, hex_digit (random_num rd n % 16) ∈ hex_digits := by
    intro n
    simpa using hex_digit_ok (random_num rd n % 16) (Nat.mod_lt _ (by decide))
  rw [new_id_eq]
  simp only [in_id_grammar, two_hex, List.cons_append, List.nil_append, List.length_cons,
    List.length_nil, id_chars_ok, id_char_ok]
  simp [hd1, hd2]

/-- C11: for every eight bytes read from the random device, `new_id` is a leading `{`, then
each byte in order as exactly two lowercase hexadecimal digits, with a `-` before the third,
fifth and seventh byte and nowhere else, then a trailing `}`: a string of 21 characters of
the shape `{hhhh-hhhh-hhhh-hhhh}`. -/
theorem new_id_format (rd : Nat → Nat) (pos : Nat) :
    new_id rd pos
      = ['{'] ++ two_hex (random_num rd (pos + 0)) ++ two_hex (random_num rd (pos + 1))
        ++ ['-'] ++ two_hex (random_num rd (pos + 2)) ++ two_hex (random_num rd (pos + 3))
        ++ ['-'] ++ two_hex (random_num rd (pos + 4)) ++ two_hex (random_num rd (pos + 5))
        ++ ['-'] ++ two_hex (random_num rd (pos + 6)) ++ two_hex (random_num rd (pos + 7))
        ++ ['}']
    ∧ (new_id rd pos).length = 21
    ∧ in_id_grammar (new_id rd pos) = true
    ∧ (∀ i, random_num rd (pos + i) < 256
        ∧ hex_digits.contains (hex_digit (random_num rd (pos + i) / 16)) = true
        ∧ hex_digits.contains (hex_digit (random_num rd (pos + i) % 16)) = true) := by
  refine ⟨new_id_eq rd pos, ?_, new_id_in_grammar rd pos, ?_⟩
  · rw [new_id_eq]; simp [two_hex]
  · intro i
    have hlt : random_num rd (pos + i) < 256 := Nat.mod_lt _ (by decide)
    exact ⟨hlt, hex_digit_ok _ (by omega), hex_digit_ok _ (Nat.mod_lt _ (by decide))⟩

/-- The identifier made of the bytes 0x00, 0x0a, 0xff, 0x10, 0x9c, 0x01, 0xe7, 0x80. -/
theorem new_id_format_example :
    new_id (fun i => [0, 10, 255, 16, 156, 1, 231, 128].getD i 0) 0
      = "{000a-ff10-9c01-e780}".toList := by
  decide

/-! ## C12 -/

/-- C12, as stated, fails: `get_cell_path` replaces what follows the last period of the
identifier, so the distinct identifiers `a.b` and `a.c` are both mapped to `db/a.txt`, and
the identifier `lock` is mapped to the lock file `db/lock.txt`. -/
theorem get_cell_path_collision_counterexample :
    "a.b".toList ≠ "a.c".toList
    ∧ example_storage.get_cell_path "a.b".toList = "db/a.txt".toList
    ∧ example_storage.get_cell_path "a.c".toList = "db/a.txt".toList
    ∧ example_storage.get_cell_path "lock".toList = example_storage.get_lock_file_path := by
  decide

theorem get_cell_path_plain_inj (st : file_storage) (a b : sepulca_id)
    (ha : '/' ∉ a ∧ '.' ∉ a) (hb : '/' ∉ b ∧ '.' ∉ b)
    (h : st.get_cell_path a = st.get_cell_path b) : a = b := by
  rw [get_cell_path_plain st a ha.1 ha.2, get_cell_path_plain st b hb.1 hb.2] at h
  exact List.append_cancel_right (List.append_cancel_left h)

theorem get_cell_path_plain_lock (st : file_storage) (a : sepulca_id)
    (ha : '/' ∉ a ∧ '.' ∉ a) :
    st.get_cell_path a = st.get_lock_file_path ↔ a = "lock".toList := by
  rw [get_cell_path_plain st a ha.1 ha.2, get_lock_file_path_eq]
  constructor
  · intro h
    have h1 : a ++ "txt".toList.cons '.' = "lock".toList ++ "txt".toList.cons '.' :=
      List.append_cancel_left h
    exact List.append_cancel_right h1
  · intro h
    rw [h]
    rfl

/-- C12 (amended): restricted to identifier strings that contain neither a directory
separator nor a period, `get_cell_path` maps distinct identifiers to different paths, and it
maps such an identifier to the path of the lock file only when the identifier is the string
`lock`. -/
theorem get_cell_path_injective_on_plain (st : file_storage) (a b : sepulca_id)
    (ha : '/' ∉ a ∧ '.' ∉ a) (hb : '/' ∉ b ∧ '.' ∉ b) :
    (a ≠ b → st.get_cell_path a ≠ st.get_cell_path b)
    ∧ (a ≠ "lock".toList → st.get_cell_path a ≠ st.get_lock_file_path) := by
  refine ⟨fun hne h => hne (get_cell_path_plain_inj st a b ha hb h), ?_⟩
  intro hne h
  exact hne ((get_cell_path_plain_lock st a ha).mp h)

theorem get_cell_path_injective_on_plain_witness :
    example_storage.get_cell_path "rec-1".toList ≠ example_storage.get_cell_path "rec-2".toList
    ∧ example_storage.get_cell_path "rec-1".toList ≠ example_storage.get_lock_file_path :=
  ⟨(get_cell_path_injective_on_plain example_storage "rec-1".toList "rec-2".toList
      (by decide) (by decide)).1 (by decide),
    (get_cell_path_injective_on_plain example_storage "rec-1".toList "rec-2".toList
      (by decide) (by decide)).2 (by decide)⟩

/-! ## C13 -/

theorem serialize_attrs_eq_lines (m : attributes) :
    serialize_attrs m
      = (m.flatMap (fun e => [e.1, e.2])).flatMap (fun l => l ++ ['\n']) := by
  induction m with
  | nil => rfl
  | cons e rest ih =>
    obtain ⟨k, v⟩ := e
    simp [serialize_attrs, ih, List.flatMap_cons]

theorem serialize_eq_lines (s : sepulca) :
    serialize s = (record_lines s).flatMap (fun l => l ++ ['\n']) := by
  simp [serialize, record_lines, serialize_attrs_eq_lines, List.flatMap_cons]

theorem can_write_of_create (st : file_storage) (fs : filesystem) (rd : Nat → Nat)
    (fuel pos : Nat) (attrs : attributes) (s : sepulca) (fs' : filesystem) (pos' : Nat)
    (h : st.create fs rd fuel pos attrs = some (s, fs', pos')) : can_write st fs s.get_id := by
  obtain ⟨_, _, n, hn⟩ := create_id_wellformed st fs rd fuel pos attrs s fs' pos' h
  right
  rw [sepulca.get_id, hn]
  exact (new_id_cell st rd n).1

theorem map_find_mem (m : attributes) (k v : Str) (h : map_find m k = some v) : (k, v) ∈ m := by
  induction m with
  | nil => simp [map_find] at h
  | cons e rest ih =>
    obtain ⟨k', v'⟩ := e
    simp only [map_find] at h
    split_ifs at h with hk
    · simp only [Option.some.injEq] at h
      rw [hk, h]
      exact List.mem_cons_self _ _
    · exact List.mem_cons_of_mem _ (ih h)

theorem map_wf_head_ne (k' v' : Str) (rest : attributes) (h : map_wf ((k', v') :: rest)) :
    ∀ e ∈ rest, e.1 ≠ k' := by
  intro e he hc
  have := (List.pairwise_cons.mp h).1 e he
  rw [hc, str_lt_irrefl] at this
  exact absurd this (by decide)

theorem map_find_of_mem (m : attributes) (k v : Str) (hwf : map_wf m) (h : (k, v) ∈ m) :
    map_find m k = some v := by
  induction m with
  | nil => simp at h
  | cons e rest ih =>
    obtain ⟨k', v'⟩ := e
    rcases List.mem_cons.mp h with h | h
    · simp only [Prod.mk.injEq] at h
      simp [map_find, h.1, h.2]
    · have hne : k' ≠ k := fun hc => map_wf_head_ne k' v' rest hwf (k, v) h hc.symm
      simp only [map_find, hne, if_false]
      exact ih (List.pairwise_cons.mp hwf).2 h

theorem map_find_assign_other (m : attributes) (k v k' : Str) (hk : k' ≠ k) :
    map_find (map_assign m k v) k' = map_find m k' := by
  induction m with
  | nil => simp [map_assign, map_find, Ne.symm hk]
  | cons e rest ih =>
    obtain ⟨k0, v0⟩ := e
    simp only [map_assign]
    split_ifs with h1 h2
    · simp [map_find, Ne.symm hk]
    · simp [map_find, ih]
    · have hkk : k = k0 := str_lt_total k k0 (by simpa using h1) (by simpa using h2)
      have hne : ¬ k0 = k' := fun hc => hk (hc ▸ hkk.symm)
      simp [map_find, hne]

theorem map_erase_mem (m : attributes) (k : Str) (e : Str × Str) (h : e ∈ map_erase m k) :
    e ∈ m := by
  induction m with
  | nil => simp [map_erase] at h
  | cons x rest ih =>
    obtain ⟨k', v'⟩ := x
    simp only [map_erase] at h
    split_ifs at h with hk
    · exact List.mem_cons_of_mem _ h
    · rcases List.mem_cons.mp h with h | h
      · exact h ▸ List.mem_cons_self _ _
      · exact List.mem_cons_of_mem _ (ih h)

theorem map_erase_wf (m : attributes) (k : Str) (h : map_wf m) : map_wf (map_erase m k) := by
  induction m with
  | nil => simpa [map_erase] using h
  | cons x rest ih =>
    obtain ⟨k', v'⟩ := x
    have hrest : map_wf rest := (List.pairwise_cons.mp h).2
    simp only [map_erase]
    split_ifs with hk
    · exact hrest
    · refine List.pairwise_cons.mpr ⟨?_, ih hrest⟩
      intro e he
      exact (List.pairwise_cons.mp h).1 e (map_erase_mem rest k e he)

theorem map_find_erase_same (m : attributes) (k : Str) (h : map_wf m) :
    map_find (map_erase m k) k = none := by
  induction m with
  | nil => rfl
  | cons x rest ih =>
    obtain ⟨k', v'⟩ := x
    have hrest : map_wf rest := (List.pairwise_cons.mp h).2
    simp only [map_erase]
    split_ifs with hk
    · cases hf : map_find rest k with
      | none => rfl
      | some v =>
        have hmem := map_find_mem rest k v hf
        exact absurd hk.symm (map_wf_head_ne k' v' rest h (k, v) hmem)
    · simp [map_find, hk, ih hrest]

theorem map_find_erase_other (m : attributes) (k k' : Str) (hk : k' ≠ k) :
    map_find (map_erase m k) k' = map_find m k' := by
  induction m with
  | nil => rfl
  | cons x rest ih =>
    obtain ⟨k0, v0⟩ := x
    simp only [map_erase]
    split_ifs with h0
    · have hne : ¬ k0 = k' := fun hc => hk (hc ▸ h0)
      simp [map_find, hne]
    · simp [map_find, ih]

theorem map_find_none_not_mem (m : attributes) (k : Str) (h : map_find m k = none) :
    ∀ v, (k, v) ∉ m := by
  induction m with
  | nil => simp
  | cons e rest ih =>
    obtain ⟨k', v'⟩ := e
    simp only [map_find] at h
    split_ifs at h with hk
    intro v hv
    rcases List.mem_cons.mp hv with hv | hv
    · simp only [Prod.mk.injEq] at hv
      exact hk hv.1.symm
    · exact ih h v hv

/-! ## C14 -/

/-- C14: for every record and attribute name, `get_attr` raises the attribute-not-found
error exactly when `has_attr` is false, and otherwise returns the value that the map of the
record holds for the name. Both are `const` methods: functions of the record that yield no
new record. -/
theorem get_attr_raises_iff_not_has_attr (s : sepulca) (name : Str) :
    (s.get_attr name = .error (.attribute_not_found name) ↔ s.has_attr name = false)
    ∧ ((∃ v, s.get_attr name = .ok v) ↔ s.has_attr name = true)
    ∧ (s.has_attr name = true ↔ ∃ v, (name, v) ∈ s.get_attrs)
    ∧ (∀ v, s.get_attr name = .ok v → (name, v) ∈ s.get_attrs)
    ∧ (map_wf s.get_attrs → ∀ v, (name, v) ∈ s.get_attrs → s.get_attr name = .ok v) := by
  unfold sepulca.get_attr sepulca.has_attr sepulca.get_attrs
  refine ⟨?_, ?_, ?_, ?_, ?_⟩
  · cases map_find s.m_attrs name <;> simp
  · cases map_find s.m_attrs name <;> simp
  · constructor
    · intro h
      obtain ⟨v, hv⟩ := Option.isSome_iff_exists.mp h
      exact ⟨v, map_find_mem _ _ _ hv⟩
    · rintro ⟨v, hv⟩
      cases hf : map_find s.m_attrs name with
      | some w => rfl
      | none => exact absurd hv (map_find_none_not_mem _ _ hf v)
  · intro v hv
    cases hf : map_find s.m_attrs name with
    | none => simp [hf] at hv
    | some w =>
      simp only [hf, Except.ok.injEq] at hv
      exact map_find_mem _ _ _ (hv ▸ hf)
  · intro hwf v hv
    simp [map_find_of_mem _ _ _ hwf hv]

theorem get_attr_raises_iff_not_has_attr_witness :
    example_sepulca.get_attr "note".toList = .ok []
    ∧ example_sepulca.has_attr "size".toList = false :=
  ⟨(get_attr_raises_iff_not_has_attr example_sepulca "note".toList).2.2.2.2 (by decide) []
      (by decide),
    (get_attr_raises_iff_not_has_attr example_sepulca "size".toList).1.mp rfl⟩

/-! ## C15 -/

theorem map_erase_mem_of_ne (m : attributes) (k : Str) (e : Str × Str) (he : e ∈ m)
    (hne : e.1 ≠ k) : e ∈ map_erase m k := by
  induction m with
  | nil => simp at he
  | cons x rest ih =>
    obtain ⟨k', v'⟩ := x
    simp only [map_erase]
    rcases List.mem_cons.mp he with h | h
    · have hk : ¬ k' = k := by rw [h] at hne; exact hne
      simp only [hk, if_false]
      exact h ▸ List.mem_cons_self _ _
    · split_ifs with hk
      · exact h
      · exact List.mem_cons_of_mem _ (ih h)

/-- C16: `delete_attr name` raises the attribute-not-found error exactly when the record has
no attribute `name`, and then leaves the record as it was; otherwise it succeeds and removes
that attribute alone: `has_attr name` becomes false, every other attribute, the identifier
and the payload are as before. The method takes and yields no file system. -/
theorem delete_attr_raises_iff_absent (s : sepulca) (name : Str) (hwf : map_wf s.get_attrs) :
    ((s.delete_attr name).1 = .error (.attribute_not_found name) ↔ s.has_attr name = false)
    ∧ (s.has_attr name = false → (s.delete_attr name).2 = s)
    ∧ (s.has_attr name = true →
        (s.delete_attr name).1 = .ok ()
        ∧ (s.delete_attr name).2.has_attr name = false
        ∧ (∀ n, n ≠ name →
            (s.delete_attr name).2.get_attr n = s.get_attr n
            ∧ (s.delete_attr name).2.has_attr n = s.has_attr n)
        ∧ (∀ e, e ∈ (s.delete_attr name).2.get_attrs ↔ e ∈ s.get_attrs ∧ e.1 ≠ name)
        ∧ (s.delete_attr name).2.get_id = s.get_id
        ∧ (s.delete_attr name).2.get_transient_data = s.get_transient_data) := by
  unfold sepulca.get_attrs at hwf
  refine ⟨?_, ?_, ?_⟩
  · unfold sepulca.delete_attr sepulca.has_attr
    cases map_find s.m_attrs name <;> simp
  · unfold sepulca.delete_attr sepulca.has_attr
    cases map_find s.m_attrs name <;> simp
  · intro h
    obtain ⟨v, hv⟩ := Option.isSome_iff_exists.mp h
    have hd : s.delete_attr name = (.ok (), { s with m_attrs := map_erase s.m_attrs name }) := by
      simp [sepulca.delete_attr, hv]
    rw [hd]
    refine ⟨rfl, ?_, ?_, ?_, rfl, rfl⟩
    · simp [sepulca.has_attr, map_find_erase_same _ _ hwf]
    · intro n hn
      simp [sepulca.get_attr, sepulca.has_attr, map_find_erase_other _ _ _ hn]
    · intro e
      simp only [sepulca.get_attrs]
      constructor
      · intro he
        refine ⟨map_erase_mem _ _ _ he, ?_⟩
        intro hc
        have := map_find_of_mem _ e.1 e.2 (map_erase_wf _ name hwf) he
        rw [hc, map_find_erase_same _ _ hwf] at this
        exact absurd this (by simp)
      · rintro ⟨he, hne⟩
        exact map_erase_mem_of_ne _ _ _ he hne

theorem delete_attr_raises_iff_absent_witness :
    (example_sepulca.delete_attr "size".toList).2 = example_sepulca
    ∧ (example_sepulca.delete_attr "colour".toList).1 = .ok ()
    ∧ (example_sepulca.delete_attr "colour".toList).2.has_attr "colour".toList = false :=
  ⟨(delete_attr_raises_iff_absent example_sepulca "size".toList (by decide)).2.1 (by decide),
    ((delete_attr_raises_iff_absent example_sepulca "colour".toList (by decide)).2.2
      (by decide)).1,
    ((delete_attr_raises_iff_absent example_sepulca "colour".toList (by decide)).2.2
      (by decide)).2.1⟩

/-! ## C17 -/

theorem deserialize_transient (ifs : ifstream) (r : sepulca) (h : deserialize ifs = some r) :
    r.m_transient_data = none := by
  rw [deserialize_eq] at h
  split_ifs at h
  simp only [Option.some.injEq] at h
  rw [← h]
  rfl

/-- C17: `set_transient_data d` returns the payload the handle held before the call and
makes `get_transient_data` return `d`; identifier and attributes are as before. The payload
is not persisted: the characters written by `commit`, and so the file system after it, are
the same whatever the payload, and a record read by `get` carries the empty payload. -/
theorem set_transient_data_exchanges (s : sepulca) (d : std_any) :
    (s.set_transient_data d).1 = s.get_transient_data
    ∧ (s.set_transient_data d).2.get_transient_data = d
    ∧ (s.set_transient_data d).2.get_id = s.get_id
    ∧ (s.set_transient_data d).2.get_attrs = s.get_attrs
    ∧ serialize (s.set_transient_data d).2 = serialize s
    ∧ (∀ (st : file_storage) (fs : filesystem),
        (s.set_transient_data d).2.commit st fs = s.commit st fs)
    ∧ (∀ (st : file_storage) (fs : filesystem) (sid : sepulca_id) (r : sepulca),
        (st.get fs sid).1 = .ok r → r.get_transient_data = none) := by
  refine ⟨rfl, rfl, rfl, rfl, rfl, fun _ _ => rfl, ?_⟩
  intro st fs sid r h
  unfold file_storage.get at h
  cases hd : file_storage.do_deserialize fs (st.get_cell_path sid) with
  | none => simp [hd] at h
  | some r' =>
    simp only [hd, Except.ok.injEq] at h
    rw [← h]
    exact deserialize_transient _ _ hd

theorem set_transient_data_exchanges_witness :
    (example_sepulca_payload.set_transient_data (some 9)).1 = some 7
    ∧ (example_sepulca_payload.set_transient_data (some 9)).2.get_transient_data = some 9
    ∧ (example_sepulca_payload.set_transient_data (some 9)).2.commit example_storage fresh_dir
        = example_sepulca.commit example_storage fresh_dir
    ∧ (file_storage.new_sepulca example_sepulca.get_id example_sepulca.get_attrs).get_transient_data
        = none :=
  ⟨(set_transient_data_exchanges example_sepulca_payload (some 9)).1,
    (set_transient_data_exchanges example_sepulca_payload (some 9)).2.1,
    ((set_transient_data_exchanges example_sepulca_payload (some 9)).2.2.2.2.2.1
      example_storage fresh_dir).trans (by rfl),
    (set_transient_data_exchanges example_sepulca_payload (some 9)).2.2.2.2.2.2
      example_storage ((example_sepulca_payload.set_transient_data (some 9)).2.commit
        example_storage fresh_dir) example_sepulca.get_id _
      (get_do_serialize example_storage fresh_dir example_sepulca_payload
        (by decide) (by decide) (by decide) (by decide))⟩

/-! ## C19 -/

theorem hex_digits_plain : ∀ c ∈ hex_digits, c ≠ '/' ∧ c ≠ '.' ∧ c ≠ '\n' := by
  decide

theorem id_char_ok_plain (i : Nat) (c : Char) (h : id_char_ok i c = true) :
    c ≠ '/' ∧ c ≠ '.' ∧ c ≠ '\n' := by
  unfold id_char_ok at h
  split_ifs at h
  · have : c = '{' := by simpa using h
    subst this; decide
  · have : c = '}' := by simpa using h
    subst this; decide
  · have : c = '-' := by simpa using h
    subst this; decide
  · exact hex_digits_plain c (by simpa using h)

theorem id_chars_ok_plain (i : Nat) (s : Str) (h : id_chars_ok i s = true) :
    ∀ c ∈ s, c ≠ '/' ∧ c ≠ '.' ∧ c ≠ '\n' := by
  induction s generalizing i with
  | nil => simp
  | cons a t ih =>
    simp only [id_chars_ok, Bool.and_eq_true] at h
    intro c hc
    rcases List.mem_cons.mp hc with hc | hc
    · rw [hc]; exact id_char_ok_plain i a h.1
    · exact ih (i + 1) h.2 c hc

/-- An identifier of the grammar has no separator, no period and no newline, and begins with
an opening brace. -/
theorem in_id_grammar_plain (sid : Str) (h : in_id_grammar sid = true) :
    '/' ∉ sid ∧ '.' ∉ sid ∧ '\n' ∉ sid ∧ ∃ t, sid = '{' :: t := by
  simp only [in_id_grammar, Bool.and_eq_true, beq_iff_eq] at h
  have hp := id_chars_ok_plain 0 sid h.2
  refine ⟨fun hc => (hp _ hc).1 rfl, fun hc => (hp _ hc).2.1 rfl, fun hc => (hp _ hc).2.2 rfl, ?_⟩
  cases sid with
  | nil => simp at h
  | cons a t =>
    have h0 := h.2
    simp only [id_chars_ok, Bool.and_eq_true, id_char_ok, if_true, beq_iff_eq] at h0
    exact ⟨t, by rw [h0.1]⟩

theorem path_extension_txt (D sid : Str) (hD : D = [] ∨ D.getLast? = some '/')
    (hs : '/' ∉ sid) (hdot : '.' ∉ sid) (hne : sid ≠ []) :
    path_filename (D ++ (sid ++ "txt".toList.cons '.')) = sid ++ "txt".toList.cons '.'
      ∧ path_extension (D ++ (sid ++ "txt".toList.cons '.')) = "txt".toList.cons '.' := by
  have hs' : '/' ∉ sid ++ "txt".toList.cons '.' := by
    intro h
    rcases List.mem_append.mp h with h | h
    · exact hs h
    · revert h; decide
  have hf := path_filename_append D _ hD hs'
  refine ⟨hf, ?_⟩
  unfold path_extension
  simp only [hf]
  obtain ⟨a, t, rfl⟩ := List.exists_cons_of_ne_nil hne
  have h1 : ¬ ((a :: t) ++ "txt".toList.cons '.' = ['.'] ∨
      (a :: t) ++ "txt".toList.cons '.' = ['.', '.']) := by
    rintro (h | h)
    · have := congrArg List.length h; simp at this
    · have := congrArg List.length h; simp at this
  have h2 : '.' ∈ ((a :: t) ++ "txt".toList.cons '.').tail := by
    simp
  have h3 : (((a :: t) ++ "txt".toList.cons '.').reverse.takeWhile (fun c => decide (c ≠ '.'))).reverse
      = "txt".toList := by
    have hrev : ((a :: t) ++ "txt".toList.cons '.').reverse
        = "txt".toList.reverse ++ '.' :: (a :: t).reverse := by
      simp
    rw [hrev, takeWhile_ne_append _ _ '.' (by decide)]
    rfl
  rw [if_neg h1, if_pos h2, h3]

/-- C20: for every identifier of the shape `{hhhh-hhhh-hhhh-hhhh}`, `get_cell_path` is the
path of the file named by the identifier followed by `.txt` in the storage directory; the
identifier is the stem of that path, whose extension is `.txt`; two such identifiers with the
same path are equal; and the path is not the path of the lock file. -/
theorem get_cell_path_on_grammar (st : file_storage) (sid : sepulca_id)
    (h : in_id_grammar sid = true) :
    st.get_cell_path sid = path_append st.m_dir (sid ++ ".txt".toList)
    ∧ (st.m_dir ≠ [] → st.m_dir.getLast? ≠ some '/' →
        st.get_cell_path sid = st.m_dir ++ ['/'] ++ sid ++ ".txt".toList)
    ∧ path_stem (st.get_cell_path sid) = sid
    ∧ path_extension (st.get_cell_path sid) = ".txt".toList
    ∧ (∀ sid', in_id_grammar sid' = true →
        st.get_cell_path sid = st.get_cell_path sid' → sid = sid')
    ∧ st.get_cell_path sid ≠ st.get_lock_file_path := by
  obtain ⟨hs, hdot, _, t, ht⟩ := in_id_grammar_plain sid h
  have hne : sid ≠ [] := by rw [ht]; simp
  have hhead : (sid ++ ".txt".toList).head? ≠ some '/' := by rw [ht]; simp
  have hplain := get_cell_path_plain st sid hs hdot
  have hext := path_extension_txt (path_append st.m_dir []) sid (path_append_nil_cases _)
    hs hdot hne
  refine ⟨?_, ?_, ?_, ?_, ?_, ?_⟩
  · rw [hplain, path_append_eq _ _ hhead]
    rfl
  · intro hd hl
    rw [hplain]
    simp [path_append, hd, hl]
  · unfold path_stem
    rw [hplain, hext.1, hext.2]
    simp
  · rw [hplain, hext.2]
    rfl
  · intro sid' h' heq
    obtain ⟨hs', hdot', _, _⟩ := in_id_grammar_plain sid' h'
    exact get_cell_path_plain_inj st sid sid' ⟨hs, hdot⟩ ⟨hs', hdot'⟩ heq
  · intro hl
    have := (get_cell_path_plain_lock st sid ⟨hs, hdot⟩).mp hl
    rw [ht] at this
    simp at this

theorem get_cell_path_on_grammar_witness :
    example_storage.get_cell_path "{0001-0203-0405-0607}".toList
        = "db/{0001-0203-0405-0607}.txt".toList
    ∧ path_stem (example_storage.get_cell_path "{0001-0203-0405-0607}".toList)
        = "{0001-0203-0405-0607}".toList
    ∧ example_storage.get_cell_path "{0001-0203-0405-0607}".toList
        ≠ example_storage.get_lock_file_path :=
  ⟨(get_cell_path_on_grammar example_storage "{0001-0203-0405-0607}".toList (by decide)).2.1
      (by decide) (by decide),
    (get_cell_path_on_grammar example_storage "{0001-0203-0405-0607}".toList (by decide)).2.2.1,
    (get_cell_path_on_grammar example_storage "{0001-0203-0405-0607}".toList
      (by decide)).2.2.2.2.2⟩

/-! ## C22 -/

theorem str_lt_nil_right (k : Str) : str_lt k [] = false := by
  cases k <;> rfl

/-- In an ordered map the empty name, when present, is the first key. -/
theorem map_wf_empty_key_first (m : attributes) (v : Str) (hwf : map_wf m)
    (h : ([], v) ∈ m) : ∃ rest, m = ([], v) :: rest := by
  cases m with
  | nil => simp at h
  | cons e rest =>
    rcases List.mem_cons.mp h with h | h
    · exact ⟨rest, by rw [h]⟩
    · have := (List.pairwise_cons.mp hwf).1 _ h
      rw [str_lt_nil_right] at this
      exact absurd this (by decide)

/-- Reading back a record whose first attribute name is empty: the loop of `do_deserialize`
stops at the first name line and no attribute is read. -/
theorem deserialize_empty_name (s : sepulca) (v : Str) (rest : attributes)
    (hid : s.m_sid ≠ []) (hidn : '\n' ∉ s.m_sid) (hm : s.m_attrs = ([], v) :: rest) :
    deserialize { buf := serialize s, eofbit := false, failbit := false }
      = some (file_storage.new_sepulca s.m_sid []) := by
  have hbuf : serialize s
      = SEPULCA_SIG ++ '\n' :: (s.m_sid ++ '\n' :: ([] ++ '\n' :: (v ++ '\n' :: serialize_attrs rest))) := by
    simp [serialize, sepulca.get_id, sepulca.get_attrs, hm, serialize_attrs]
  simp only [deserialize, hbuf, getline_line _ _ sig_no_newline, getline_line _ _ hidn,
    ne_eq, not_true_eq_false, if_false, hid]
  simp only [deserialize_loop, ifstream.ok, Bool.not_false, if_true,
    getline_line [] _ (List.not_mem_nil _), ne_eq, not_true_eq_false, if_false]

theorem get_commit_empty_name (st : file_storage) (fs : filesystem) (s : sepulca) (v : Str)
    (hid : s.m_sid ≠ []) (hidn : '\n' ∉ s.m_sid) (hwf : map_wf s.m_attrs)
    (hmem : ([], v) ∈ s.m_attrs) :
    (st.get (s.commit st fs) s.m_sid).1 = .ok (file_storage.new_sepulca s.m_sid []) := by
  obtain ⟨rest, hm⟩ := map_wf_empty_key_first _ v hwf hmem
  unfold file_storage.get
  rw [do_deserialize_of_read _ _ (serialize s)
    (by simp [sepulca.commit, file_storage.commit, file_storage.do_serialize, sepulca.get_id,
      fs_read_write_same])]
  rw [deserialize_empty_name s v rest hid hidn hm]

theorem only_accesses_refl (w : io_state) : only_accesses w w :=
  ⟨[], by simp, by simp, rfl⟩

theorem only_accesses_trans {w1 w2 w3 : io_state} (h1 : only_accesses w1 w2)
    (h2 : only_accesses w2 w3) : only_accesses w1 w3 := by
  obtain ⟨m1, hl1, ha1, hk1⟩ := h1
  obtain ⟨m2, hl2, ha2, hk2⟩ := h2
  refine ⟨m1 ++ m2, by rw [hl2, hl1, List.append_assoc], ?_, hk2.trans hk1⟩
  intro e he
  rcases List.mem_append.mp he with he | he
  · exact ha1 e he
  · exact ha2 e he

theorem only_accesses_access (w : io_state) (p : Str) : only_accesses w (w.access p) :=
  ⟨[io_event.fs_access p], rfl, by simp [is_fs_access], rfl⟩

theorem do_check_exists_io_accesses (st : file_storage) (sid : sepulca_id) (w : io_state) :
    only_accesses w (st.do_check_exists_io sid w).2 :=
  only_accesses_access w _

theorem do_serialize_io_accesses (st : file_storage) (s : sepulca) (w : io_state) :
    only_accesses w (st.do_serialize_io s w) :=
  ⟨[io_event.fs_access (st.get_cell_path s.get_id)], rfl, by simp [is_fs_access], rfl⟩

theorem do_deserialize_io_accesses (p : Str) (w : io_state) :
    only_accesses w (file_storage.do_deserialize_io p w).2 :=
  only_accesses_access w _

theorem remove_io_accesses (p : Str) (w : io_state) : only_accesses w (remove_io p w) :=
  ⟨[io_event.fs_access p], rfl, by simp [is_fs_access], rfl⟩

theorem directory_iterator_io_accesses (dir : Str) (w : io_state) :
    only_accesses w (directory_iterator_io dir w).2 :=
  only_accesses_access w _

/-- Between the `lock` and the `unlock` of an open lock, a body that only calls the file
system gives a guarded run. -/
theorem lock_unlock_guarded (w w1 : io_state) (hfd : w.lk.m_fd ≠ -1)
    (h : only_accesses (file_lock.lock w) w1) : lock_guarded w (file_lock.unlock w1) := by
  obtain ⟨mid, hl, ha, hk⟩ := h
  have hlock : file_lock.lock w
      = { w with lk := { w.lk with held := true }, log := w.log ++ [io_event.lock] } := by
    simp [file_lock.lock, hfd]
  rw [hlock] at hl hk
  have hfd1 : w1.lk.m_fd ≠ -1 := by rw [hk]; exact hfd
  refine ⟨mid, ?_, ha, ?_⟩
  · simp [file_lock.unlock, hfd1, hl]
  · simp [file_lock.unlock, hfd1]

theorem lock_guard_guarded {α : Type} (body : io_state → α × io_state) (w : io_state)
    (hfd : w.lk.m_fd ≠ -1) (hbody : ∀ w0, only_accesses w0 (body w0).2) :
    lock_guarded w (lock_guard body w).2 :=
  lock_unlock_guarded w _ hfd (hbody _)

theorem create_loop_io_accesses (st : file_storage) (rd : Nat → Nat) (fuel pos : Nat)
    (w : io_state) (sid : sepulca_id) (pos' : Nat) (w1 : io_state)
    (h : create_loop_io st rd fuel pos w = some (sid, pos', w1)) : only_accesses w w1 := by
  induction fuel generalizing pos w with
  | zero => simp [create_loop_io] at h
  | succ f ih =>
    simp only [create_loop_io] at h
    split_ifs at h with hex
    · exact only_accesses_trans (do_check_exists_io_accesses st _ w) (ih _ _ h)
    · simp only [Option.some.injEq, Prod.mk.injEq] at h
      rw [← h.2.2]
      exact do_check_exists_io_accesses st _ w

theorem enumerate_loop_io_accesses {σ : Type} (st : file_storage)
    (cb : visitor_io σ) (hcb : ∀ a s w0, only_accesses w0 (cb a s w0).2)
    (L : List Str) (acc : σ) (w : io_state) :
    only_accesses w (enumerate_loop_io st cb L acc w).2 := by
  induction L generalizing acc w with
  | nil => exact only_accesses_refl w
  | cons p rest ih =>
    simp only [enumerate_loop_io]
    split_ifs with hp
    · exact ih acc w
    · split
      · split_ifs
        · exact only_accesses_trans (do_deserialize_io_accesses p w)
            (only_accesses_trans (hcb _ _ _) (ih _ _))
        · exact only_accesses_trans (do_deserialize_io_accesses p w) (hcb _ _ _)
      · exact only_accesses_trans (do_deserialize_io_accesses p w) (ih _ _)

theorem pure_visitor_accesses {σ : Type} (cb : σ → sepulca → Bool × σ) (a : σ) (s : sepulca)
    (w0 : io_state) : only_accesses w0 (pure_visitor cb a s w0).2 :=
  only_accesses_refl w0

theorem accesses_under_lock_mid (mid tail : List io_event)
    (h : ∀ e ∈ mid, is_fs_access e = true) :
    accesses_under_lock true (mid ++ tail) = accesses_under_lock true tail := by
  induction mid with
  | nil => rfl
  | cons e rest ih =>
    have he := h e (List.mem_cons_self _ _)
    cases e with
    | lock => simp [is_fs_access] at he
    | unlock => simp [is_fs_access] at he
    | fs_access p =>
      simp only [List.cons_append, accesses_under_lock, Bool.true_and]
      exact ih (fun e he => h e (List.mem_cons_of_mem _ he))

/-- Steps that begin with `lock`, go on with calls on the file system and end with `unlock`
make every call with the lock held. -/
theorem lock_guarded_accesses_under_lock (w w' : io_state) (hw : w.log = [])
    (h : lock_guarded w w') : accesses_under_lock false w'.log = true := by
  obtain ⟨mid, hlog, hmid, _⟩ := h
  have hl : w'.log = io_event.lock :: (mid ++ [io_event.unlock]) := by
    rw [hlog, hw]; simp
  rw [hl]
  simp only [accesses_under_lock]
  rw [accesses_under_lock_mid mid _ hmid]
  rfl

/-! ## The guarded operations compute what the operations compute -/

theorem file_lock_lock_fs (w : io_state) : (file_lock.lock w).fs = w.fs := by
  unfold file_lock.lock; split_ifs <;> rfl

theorem file_lock_unlock_fs (w : io_state) : (file_lock.unlock w).fs = w.fs := by
  unfold file_lock.unlock; split_ifs <;> rfl

theorem get_io_eq (st : file_storage) (sid : sepulca_id) (w : io_state) :
    (st.get_io sid w).1 = (st.get w.fs sid).1 ∧ (st.get_io sid w).2.fs = (st.get w.fs sid).2 := by
  simp only [file_storage.get_io, lock_guard, file_storage.do_deserialize_io, file_lock_lock_fs,
    file_storage.get]
  cases file_storage.do_deserialize w.fs (st.get_cell_path sid) <;>
    simp [file_lock_unlock_fs, io_state.access, file_lock_lock_fs]

theorem exists_io_eq (st : file_storage) (sid : sepulca_id) (w : io_state) :
    (st.exists_io sid w).1 = (st.exists w.fs sid).1
      ∧ (st.exists_io sid w).2.fs = (st.exists w.fs sid).2 := by
  simp [file_storage.exists_io, lock_guard, file_storage.do_check_exists_io, file_lock_lock_fs,
    file_storage.exists, file_lock_unlock_fs, io_state.access]

theorem erase_io_eq (st : file_storage) (s : sepulca) (w : io_state) :
    (st.erase_io s w).1 = (st.erase w.fs s).1 ∧ (st.erase_io s w).2.fs = (st.erase w.fs s).2 := by
  simp only [file_storage.erase_io, lock_guard, file_storage.do_check_exists_io,
    file_lock_lock_fs, file_storage.erase]
  cases st.do_check_exists w.fs s.get_id <;>
    simp [file_lock_unlock_fs, io_state.access, file_lock_lock_fs, remove_io]

theorem commit_io_eq (st : file_storage) (s : sepulca) (w : io_state) :
    (st.commit_io s w).2.fs = st.commit w.fs s := by
  simp [file_storage.commit_io, lock_guard, file_storage.do_serialize_io, file_lock_lock_fs,
    file_storage.commit, file_lock_unlock_fs]

theorem enumerate_loop_io_eq {σ : Type} (st : file_storage) (cb : σ → sepulca → Bool × σ)
    (L : List Str) (acc : σ) (w : io_state) :
    (enumerate_loop_io st (pure_visitor cb) L acc w).1 = enumerate_loop st w.fs cb L acc
      ∧ (enumerate_loop_io st (pure_visitor cb) L acc w).2.fs = w.fs := by
  induction L generalizing acc w with
  | nil => exact ⟨rfl, rfl⟩
  | cons p rest ih =>
    simp only [enumerate_loop_io, enumerate_loop, file_storage.do_deserialize_io, pure_visitor]
    split_ifs with hp
    · exact ih acc w
    · cases hd : file_storage.do_deserialize w.fs p with
      | none =>
        have := ih acc (w.access p)
        exact ⟨this.1, this.2⟩
      | some r =>
        simp only
        cases hgo : (cb acc r).1
        · simp [io_state.access]
        · have := ih (cb acc r).2 (w.access p)
          have hfs : (w.access p).fs = w.fs := rfl
          rw [hfs] at this
          simp [this.1, this.2]

theorem enumerate_io_eq {σ : Type} (st : file_storage) (cb : σ → sepulca → Bool × σ)
    (acc : σ) (w : io_state) :
    (st.enumerate_io (pure_visitor cb) acc w).1 = st.enumerate w.fs cb acc
      ∧ (st.enumerate_io (pure_visitor cb) acc w).2.fs = w.fs := by
  have h := enumerate_loop_io_eq st cb (directory_iterator_io st.m_dir (file_lock.lock w)).1 acc
    (directory_iterator_io st.m_dir (file_lock.lock w)).2
  have hfs : (directory_iterator_io st.m_dir (file_lock.lock w)).2.fs = w.fs := by
    simp [directory_iterator_io, io_state.access, file_lock_lock_fs]
  have hl : (directory_iterator_io st.m_dir (file_lock.lock w)).1
      = directory_iterator w.fs st.m_dir := by
    simp [directory_iterator_io, file_lock_lock_fs]
  rw [hfs, hl] at h
  simp only [file_storage.enumerate_io, lock_guard, file_storage.enumerate, file_lock_unlock_fs]
  rw [hl]
  exact h

theorem create_loop_io_eq (st : file_storage) (rd : Nat → Nat) (fuel pos : Nat) (w : io_state) :
    (create_loop_io st rd fuel pos w).map (fun r => (r.1, r.2.1))
        = create_loop st w.fs rd fuel pos
      ∧ ∀ r, create_loop_io st rd fuel pos w = some r → r.2.2.fs = w.fs := by
  induction fuel generalizing pos w with
  | zero => simp [create_loop_io, create_loop]
  | succ f ih =>
    simp only [create_loop_io, create_loop, file_storage.do_check_exists_io]
    cases hex : st.do_check_exists w.fs (new_id rd pos)
    · simp [io_state.access]
    · simp only [if_true]
      have := ih (pos + 8) (w.access (st.get_cell_path (new_id rd pos)))
      exact this

/-- The guarded `create` returns exactly when `create` does, with the same handle, the same
next position and the same file system. -/
theorem create_io_eq (st : file_storage) (rd : Nat → Nat) (fuel pos : Nat)
    (attrs : attributes) (w : io_state) :
    (st.create_io rd fuel pos attrs w).map (fun r => (r.1.1, r.2.fs, r.1.2))
      = st.create w.fs rd fuel pos attrs := by
  have h := create_loop_io_eq st rd fuel pos (file_lock.lock w)
  rw [file_lock_lock_fs] at h
  unfold file_storage.create_io file_storage.create
  cases hl : create_loop_io st rd fuel pos (file_lock.lock w) with
  | none =>
    rw [hl] at h
    simp only [Option.map_none'] at h
    simp [← h.1]
  | some r =>
    obtain ⟨sid, pos', w1⟩ := r
    rw [hl] at h
    simp only [Option.map_some'] at h
    have hfs := h.2 _ rfl
    simp only at hfs
    simp [← h.1, file_lock_unlock_fs, file_storage.do_serialize_io, hfs]

theorem create_io_guarded (st : file_storage) (rd : Nat → Nat) (fuel pos : Nat)
    (attrs : attributes) (w : io_state) (hfd : w.lk.m_fd ≠ -1)
    (r : sepulca × Nat) (w' : io_state)
    (h : st.create_io rd fuel pos attrs w = some (r, w')) : lock_guarded w w' := by
  unfold file_storage.create_io at h
  cases hl : create_loop_io st rd fuel pos (file_lock.lock w) with
  | none => simp [hl] at h
  | some x =>
    obtain ⟨sid, pos', w1⟩ := x
    simp only [hl, Option.some.injEq, Prod.mk.injEq] at h
    rw [← h.2]
    exact lock_unlock_guarded w _ hfd
      (only_accesses_trans (create_loop_io_accesses st rd fuel pos _ sid pos' w1 hl)
        (do_serialize_io_accesses st _ w1))

/-! ## C21 -/

/-- The steps of an `enumerate` on a directory with two records whose visitor commits each
record: the `commit` inside the visitor takes the lock, which is held already, and drops it
when it returns, so the second record is read (and the rest of the loop runs) with the lock
free; the steps are not those of a guarded operation. -/
theorem enumerate_committing_visitor_counterexample :
    (example_storage.enumerate_io (committing_visitor example_storage) ()
        two_records_io_state).2.log
      = [io_event.lock, io_event.fs_access "db".toList,
         io_event.fs_access "db/{0001-0203-0405-0607}.txt".toList,
         io_event.lock, io_event.fs_access "db/{0001-0203-0405-0607}.txt".toList,
         io_event.unlock,
         io_event.fs_access "db/{1011-1213-1415-1617}.txt".toList,
         io_event.lock, io_event.fs_access "db/{1011-1213-1415-1617}.txt".toList,
         io_event.unlock, io_event.unlock]
    ∧ accesses_under_lock false
        (example_storage.enumerate_io (committing_visitor example_storage) ()
          two_records_io_state).2.log = false
    ∧ ¬ lock_guarded two_records_io_state
        (example_storage.enumerate_io (committing_visitor example_storage) ()
          two_records_io_state).2 := by
  have h1 : (example_storage.enumerate_io (committing_visitor example_storage) ()
        two_records_io_state).2.log
      = [io_event.lock, io_event.fs_access "db".toList,
         io_event.fs_access "db/{0001-0203-0405-0607}.txt".toList,
         io_event.lock, io_event.fs_access "db/{0001-0203-0405-0607}.txt".toList,
         io_event.unlock,
         io_event.fs_access "db/{1011-1213-1415-1617}.txt".toList,
         io_event.lock, io_event.fs_access "db/{1011-1213-1415-1617}.txt".toList,
         io_event.unlock, io_event.unlock] := by rfl
  have h2 : accesses_under_lock false
        (example_storage.enumerate_io (committing_visitor example_storage) ()
          two_records_io_state).2.log = false := by
    rw [h1]; rfl
  refine ⟨h1, h2, ?_⟩
  intro h
  have h3 := lock_guarded_accesses_under_lock _ _ rfl h
  rw [h2] at h3
  exact Bool.false_ne_true h3

/-- C21: with the lock of the storage open, each of `get`, `exists`, `erase`, `commit` and
`create`, and `enumerate` with a visitor whose steps are calls on the file system only (it
neither takes nor drops the lock, so it calls no operation of the storage), takes the lock
as its first step, then only calls the file system, then drops the lock as its last step,
and the lock is not held afterwards; this holds whatever the outcome, also when `get` or
`erase` raises; the outcome is the one of the operation itself (for `enumerate`, with a
visitor that leaves the state alone), and `create` returns whenever a free identifier is
drawn within the attempts allowed. -/
theorem operations_are_lock_guarded (st : file_storage) (w : io_state)
    (hfd : w.lk.m_fd ≠ -1) :
    (∀ sid, lock_guarded w (st.get_io sid w).2 ∧ (st.get_io sid w).1 = (st.get w.fs sid).1)
    ∧ (∀ sid, lock_guarded w (st.exists_io sid w).2
        ∧ (st.exists_io sid w).1 = (st.exists w.fs sid).1)
    ∧ (∀ {σ : Type} (cb : visitor_io σ) (acc : σ),
        (∀ a s w0, only_accesses w0 (cb a s w0).2) →
        lock_guarded w (st.enumerate_io cb acc w).2)
    ∧ (∀ {σ : Type} (cb : σ → sepulca → Bool × σ) (acc : σ),
        lock_guarded w (st.enumerate_io (pure_visitor cb) acc w).2
        ∧ (st.enumerate_io (pure_visitor cb) acc w).1 = st.enumerate w.fs cb acc)
    ∧ (∀ s, lock_guarded w (st.erase_io s w).2 ∧ (st.erase_io s w).1 = (st.erase w.fs s).1)
    ∧ (∀ s, lock_guarded w (st.commit_io s w).2
        ∧ (st.commit_io s w).2.fs = st.commit w.fs s)
    ∧ (∀ rd fuel pos attrs r w', st.create_io rd fuel pos attrs w = some (r, w') →
        lock_guarded w w')
    ∧ (∀ rd fuel pos attrs, free_within st w.fs rd fuel pos →
        ∃ r w', st.create_io rd fuel pos attrs w = some (r, w')) := by
  have henum : ∀ {σ : Type} (cb : visitor_io σ) (acc : σ),
      (∀ a s w0, only_accesses w0 (cb a s w0).2) →
      lock_guarded w (st.enumerate_io cb acc w).2 := by
    intro σ cb acc hcb
    refine lock_guard_guarded _ w hfd ?_
    intro w0
    exact only_accesses_trans (directory_iterator_io_accesses st.m_dir w0)
      (enumerate_loop_io_accesses st cb hcb _ acc _)
  refine ⟨?_, ?_, henum, ?_, ?_, ?_, ?_, ?_⟩
  · intro sid
    refine ⟨lock_guard_guarded _ w hfd ?_, (get_io_eq st sid w).1⟩
    intro w0
    split <;> exact do_deserialize_io_accesses _ w0
  · intro sid
    exact ⟨lock_guard_guarded _ w hfd (fun w0 => do_check_exists_io_accesses st sid w0),
      (exists_io_eq st sid w).1⟩
  · intro σ cb acc
    exact ⟨henum (pure_visitor cb) acc (pure_visitor_accesses cb), (enumerate_io_eq st cb acc w).1⟩
  · intro s
    refine ⟨lock_guard_guarded _ w hfd ?_, (erase_io_eq st s w).1⟩
    intro w0
    split_ifs
    · exact do_check_exists_io_accesses st _ w0
    · exact only_accesses_trans (do_check_exists_io_accesses st _ w0) (remove_io_accesses _ _)
  · intro s
    exact ⟨lock_guard_guarded _ w hfd (fun w0 => do_serialize_io_accesses st s w0),
      commit_io_eq st s w⟩
  · intro rd fuel pos attrs r w' h
    exact create_io_guarded st rd fuel pos attrs w hfd r w' h
  · intro rd fuel pos attrs hfree
    obtain ⟨s, fs', pos', hc⟩ := create_returns st w.fs rd fuel pos attrs hfree
    have h := create_io_eq st rd fuel pos attrs w
    rw [hc] at h
    cases hio : st.create_io rd fuel pos attrs w with
    | none => rw [hio] at h; simp at h
    | some x => exact ⟨x.1, x.2, rfl⟩

theorem operations_are_lock_guarded_witness :
    (lock_guarded example_io_state (example_storage.get_io "absent".toList example_io_state).2
      ∧ (example_storage.get_io "absent".toList example_io_state).1
          = .error (.sepulca_not_found "absent".toList))
    ∧ (lock_guarded example_io_state (example_storage.erase_io bare_sepulca example_io_state).2
      ∧ (example_storage.erase_io bare_sepulca example_io_state).1
          = .error (.already_destroyed bare_sepulca.get_id))
    ∧ (lock_guarded two_records_io_state
        (example_storage.enumerate_io (pure_visitor (fun (a : Unit) _ => (true, a))) ()
          two_records_io_state).2
      ∧ (example_storage.enumerate_io (pure_visitor (fun (a : Unit) _ => (true, a))) ()
          two_records_io_state).1 = ((), [example_sepulca, bare_sepulca]))
    ∧ ∃ r w', example_storage.create_io example_rd 1 8 [] example_io_state = some (r, w')
        ∧ lock_guarded example_io_state w' :=
  ⟨⟨((operations_are_lock_guarded example_storage example_io_state (by decide)).1
        "absent".toList).1,
      (((operations_are_lock_guarded example_storage example_io_state (by decide)).1
        "absent".toList).2).trans rfl⟩,
    ⟨((operations_are_lock_guarded example_storage example_io_state
        (by decide)).2.2.2.2.1 bare_sepulca).1,
      (((operations_are_lock_guarded example_storage example_io_state
        (by decide)).2.2.2.2.1 bare_sepulca).2).trans rfl⟩,
    ⟨((operations_are_lock_guarded example_storage two_records_io_state
        (by decide)).2.2.2.1 (fun (a : Unit) _ => (true, a)) ()).1,
      (((operations_are_lock_guarded example_storage two_records_io_state
        (by decide)).2.2.2.1 (fun (a : Unit) _ => (true, a)) ()).2).trans rfl⟩,
    _, _, rfl,
    (operations_are_lock_guarded example_storage example_io_state (by decide)).2.2.2.2.2.2.1
      example_rd 1 8 [] _ _ rfl⟩

/-- The steps of three operations on the example directory: a `get` that raises, an `erase`
that raises, and an `enumerate`. -/
theorem lock_guard_example_logs :
    (example_storage.get_io "absent".toList example_io_state).2.log
      = [io_event.lock, io_event.fs_access "db/absent.txt".toList, io_event.unlock]
    ∧ (example_storage.erase_io bare_sepulca example_io_state).2.log
      = [io_event.lock, io_event.fs_access "db/{1011-1213-1415-1617}.txt".toList,
         io_event.unlock]
    ∧ (example_storage.enumerate_io (pure_visitor (fun (a : Unit) _ => (true, a))) ()
        example_io_state).2.log
      = [io_event.lock, io_event.fs_access "db".toList,
         io_event.fs_access "db/bad.txt".toList, io_event.fs_access "db/noid.txt".toList,
         io_event.fs_access "db/{0001-0203-0405-0607}.txt".toList, io_event.unlock]
    ∧ (example_storage.enumerate_io (pure_visitor (fun (a : Unit) _ => (true, a))) ()
        example_io_state).2.lk.held = false := by
  refine ⟨?_, ?_, ?_, ?_⟩ <;> rfl

/-! ## Record files in reachable states -/

theorem first_line_serialize (s : sepulca) : first_line (serialize s) = SEPULCA_SIG := by
  have hbuf : serialize s = SEPULCA_SIG ++ '\n' :: (s.m_sid ++ '\n' :: serialize_attrs s.m_attrs) := by
    simp [serialize, sepulca.get_id, sepulca.get_attrs]
  rw [first_line, hbuf, takeWhile_ne_append _ _ '\n' sig_no_newline]

theorem second_line_serialize (s : sepulca) (h : '\n' ∉ s.m_sid) :
    second_line (serialize s) = s.m_sid := by
  have hbuf : serialize s = SEPULCA_SIG ++ '\n' :: (s.m_sid ++ '\n' :: serialize_attrs s.m_attrs) := by
    simp [serialize, sepulca.get_id, sepulca.get_attrs]
  rw [second_line, hbuf, dropWhile_ne_append _ _ '\n' sig_no_newline]
  simp only [List.drop_succ_cons, List.drop_zero]
  exact takeWhile_ne_append _ _ '\n' h

theorem fs_read_mem (fs : filesystem) (p c : Str) (h : fs_read fs p = some c) : (p, c) ∈ fs := by
  induction fs with
  | nil => simp [fs_read] at h
  | cons e rest ih =>
    obtain ⟨p', c'⟩ := e
    simp only [fs_read] at h
    split_ifs at h with hp
    · simp only [Option.some.injEq] at h
      rw [hp, h]
      exact List.mem_cons_self _ _
    · exact List.mem_cons_of_mem _ (ih h)

theorem fs_write_mem (fs : filesystem) (p c : Str) (e : Str × Str)
    (h : e ∈ fs_write fs p c) : e = (p, c) ∨ e ∈ fs := by
  induction fs with
  | nil => left; simpa [fs_write] using h
  | cons x rest ih =>
    obtain ⟨p', c'⟩ := x
    simp only [fs_write] at h
    split_ifs at h with hp
    · rcases List.mem_cons.mp h with h | h
      · left; rw [h, hp]
      · right; exact List.mem_cons_of_mem _ h
    · rcases List.mem_cons.mp h with h | h
      · right; exact h ▸ List.mem_cons_self _ _
      · rcases ih h with h | h
        · left; exact h
        · right; exact List.mem_cons_of_mem _ h

theorem fs_write_paths (fs : filesystem) (p c : Str) (h : fs_read fs p ≠ none) :
    (fs_write fs p c).map Prod.fst = fs.map Prod.fst := by
  induction fs with
  | nil => simp [fs_read] at h
  | cons x rest ih =>
    obtain ⟨p', c'⟩ := x
    simp only [fs_write]
    split_ifs with hp
    · rfl
    · simp only [fs_read, hp, if_false] at h
      simp [ih h]

theorem record_files_paths (st : file_storage) (fs : filesystem) :
    (record_files st fs).map Prod.fst
      = (fs.map Prod.fst).filter
          (fun p => is_dir_entry st.m_dir p && decide (p ≠ st.get_lock_file_path)) := by
  unfold record_files
  rw [List.filter_map]
  rfl

theorem record_files_nodup_write (st : file_storage) (fs : filesystem) (p c : Str)
    (h : ((record_files st fs).map Prod.fst).Nodup) :
    ((record_files st (fs_write fs p c)).map Prod.fst).Nodup := by
  rw [record_files_paths] at h ⊢
  cases hr : fs_read fs p with
  | some c' =>
    rw [fs_write_paths fs p c (by rw [hr]; simp)]
    exact h
  | none =>
    rw [fs_write_absent fs p c hr, List.map_append, List.filter_append]
    refine List.Nodup.append h ((List.nodup_singleton p).sublist (List.filter_sublist _)) ?_
    intro x hx hx'
    have hx1 : x ∈ fs.map Prod.fst := (List.mem_filter.mp hx).1
    have hx2 : x = p := by
      have := (List.mem_filter.mp hx').1
      simpa using this
    obtain ⟨e, he, hfst⟩ := List.mem_map.mp hx1
    exact (fs_read_none_iff fs p).mp hr e he (hfst.trans hx2)

theorem record_files_nodup_remove (st : file_storage) (fs : filesystem) (p : Str)
    (h : ((record_files st fs).map Prod.fst).Nodup) :
    ((record_files st (fs_remove fs p)).map Prod.fst).Nodup := by
  refine List.Nodup.sublist ?_ h
  unfold record_files fs_remove
  exact List.Sublist.map _ (List.Sublist.filter _ (List.filter_sublist _))

theorem file_inv_written (st : file_storage) (s : sepulca) (h : in_id_grammar s.m_sid = true) :
    file_inv st (st.get_cell_path s.m_sid, serialize s) :=
  Or.inr ⟨s, h, rfl, rfl⟩

/-- A file that deserializes in a state where every file satisfies `file_inv` was written for
a handle with a generated identifier, which is the identifier read back. -/
theorem do_deserialize_of_inv (st : file_storage) (fs : filesystem) (p : Str) (r : sepulca)
    (hF : ∀ e ∈ fs, file_inv st e) (h : file_storage.do_deserialize fs p = some r) :
    in_id_grammar r.m_sid = true ∧ p = st.get_cell_path r.m_sid := by
  cases hr : fs_read fs p with
  | none =>
    have := (do_deserialize_none_iff fs p).mpr (Or.inl hr)
    rw [this] at h; simp at h
  | some c =>
    rcases hF (p, c) (fs_read_mem fs p c hr) with ⟨hinv, _⟩ | ⟨s, hg, hp, hc⟩
    · have := (do_deserialize_none_iff fs p).mpr (Or.inr ⟨c, hr, hinv⟩)
      rw [this] at h; simp at h
    · simp only at hp hc
      obtain ⟨_, _, hn, t, ht⟩ := in_id_grammar_plain s.m_sid hg
      obtain ⟨a, ha⟩ := deserialize_serialize_id s (by rw [ht]; simp) hn
      rw [do_deserialize_of_read fs p c hr, hc, ha] at h
      simp only [Option.some.injEq] at h
      rw [← h]
      exact ⟨hg, hp⟩

theorem visit_until_mem {σ : Type} (cb : σ → sepulca → Bool × σ) (l : List sepulca) (acc : σ)
    (r : sepulca) (h : r ∈ (visit_until cb l acc).2) : r ∈ l := by
  induction l generalizing acc with
  | nil => simp [visit_until] at h
  | cons s rest ih =>
    simp only [visit_until] at h
    split_ifs at h
    · rcases List.mem_cons.mp h with h | h
      · exact h ▸ List.mem_cons_self _ _
      · exact List.mem_cons_of_mem _ (ih _ h)
    · simp only [List.mem_singleton] at h
      exact h ▸ List.mem_cons_self _ _

/-- A record visited by `enumerate` was read from an entry of the directory that is not the
lock file. -/
theorem enumerate_mem (st : file_storage) (fs : filesystem) {σ : Type}
    (cb : σ → sepulca → Bool × σ) (acc : σ) (r : sepulca)
    (h : r ∈ (st.enumerate fs cb acc).2) :
    ∃ p, p ∈ directory_iterator fs st.m_dir ∧ p ≠ st.get_lock_file_path
      ∧ file_storage.do_deserialize fs p = some r := by
  rw [enumerate_eq_visit_until] at h
  have := visit_until_mem cb _ acc r h
  simp only [valid_entries, List.mem_filterMap, List.mem_filter] at this
  obtain ⟨p, ⟨hp, hl⟩, hd⟩ := this
  exact ⟨p, hp, by simpa using hl, hd⟩

theorem get_ok_do_deserialize (st : file_storage) (fs : filesystem) (sid : sepulca_id)
    (r : sepulca) (h : (st.get fs sid).1 = .ok r) :
    file_storage.do_deserialize fs (st.get_cell_path sid) = some r := by
  unfold file_storage.get at h
  cases hd : file_storage.do_deserialize fs (st.get_cell_path sid) with
  | none => simp [hd] at h
  | some r' =>
    simp only [hd, Except.ok.injEq] at h
    rw [h]

theorem record_files_empty (st : file_storage) (fs0 : filesystem)
    (h0 : empty_directory st fs0) : record_files st fs0 = [] := by
  unfold record_files
  rw [List.filter_eq_nil_iff]
  intro e he
  simp only [Bool.and_eq_true, decide_eq_true_eq, not_and, not_not]
  intro hd
  apply h0
  simp only [directory_iterator, List.mem_map, List.mem_filter]
  exact ⟨e, ⟨he, hd⟩, rfl⟩

theorem delete_attr_sid (h : sepulca) (name : Str) : (h.delete_attr name).2.m_sid = h.m_sid := by
  unfold sepulca.delete_attr
  cases map_find h.m_attrs name <;> rfl

/-- The invariant of the states reached from a file system without a valid record: every
file was there at the start and is no record file, or was written for a handle with a
generated identifier; every handle carries a generated identifier. -/
theorem reachable_inv_no_valid_record (st : file_storage) (fs0 : filesystem)
    (hd0 : empty_directory st fs0) (hv0 : no_valid_record fs0)
    (fs : filesystem) (H : List sepulca) (hr : reachable st fs0 fs H) :
    (∀ e ∈ fs, file_inv st e) ∧ ∀ h ∈ H, in_id_grammar h.m_sid = true := by
  induction hr with
  | init =>
    refine ⟨?_, by simp⟩
    intro e he
    refine Or.inl ⟨hv0 e he, ?_⟩
    intro hd
    apply hd0
    simp only [directory_iterator, List.mem_map, List.mem_filter]
    exact ⟨e, ⟨he, hd⟩, rfl⟩
  | create rd fuel pos attrs s fs' pos' _ hc ih =>
    obtain ⟨hF, hH⟩ := ih
    obtain ⟨_, _, hfs⟩ := create_eq st _ rd fuel pos attrs s fs' pos' hc
    obtain ⟨_, _, n, hn⟩ := create_id_wellformed st _ rd fuel pos attrs s fs' pos' hc
    have hg : in_id_grammar s.m_sid = true := by rw [hn]; exact new_id_in_grammar rd n
    refine ⟨?_, ?_⟩
    · intro e he
      rw [hfs] at he
      rcases fs_write_mem _ _ _ e he with h | h
      · rw [h]; exact file_inv_written st s hg
      · exact hF e h
    · intro h hh
      rcases List.mem_cons.mp hh with hh | hh
      · rw [hh]; exact hg
      · exact hH h hh
  | get sid r _ hget ih =>
    obtain ⟨hF, hH⟩ := ih
    refine ⟨hF, ?_⟩
    intro h hh
    rcases List.mem_cons.mp hh with hh | hh
    · rw [hh]
      exact (do_deserialize_of_inv st _ _ r hF (get_ok_do_deserialize st _ sid r hget)).1
    · exact hH h hh
  | enumerate cb acc _ ih =>
    obtain ⟨hF, hH⟩ := ih
    refine ⟨hF, ?_⟩
    intro h hh
    rcases List.mem_append.mp hh with hh | hh
    · obtain ⟨p, _, _, hd⟩ := enumerate_mem st _ cb acc h hh
      exact (do_deserialize_of_inv st _ p h hF hd).1
    · exact hH h hh
  | visit p r _ _ _ hd ih =>
    obtain ⟨hF, hH⟩ := ih
    refine ⟨hF, ?_⟩
    intro h hh
    rcases List.mem_cons.mp hh with hh | hh
    · rw [hh]
      exact (do_deserialize_of_inv st _ p r hF hd).1
    · exact hH h hh
  | set_attr h name value _ hmem ih =>
    obtain ⟨hF, hH⟩ := ih
    refine ⟨hF, ?_⟩
    intro x hx
    rcases List.mem_cons.mp hx with hx | hx
    · rw [hx]; exact hH h hmem
    · exact hH x hx
  | delete_attr h name _ hmem ih =>
    obtain ⟨hF, hH⟩ := ih
    refine ⟨hF, ?_⟩
    intro x hx
    rcases List.mem_cons.mp hx with hx | hx
    · rw [hx, delete_attr_sid]; exact hH h hmem
    · exact hH x hx
  | set_transient_data h d _ hmem ih =>
    obtain ⟨hF, hH⟩ := ih
    refine ⟨hF, ?_⟩
    intro x hx
    rcases List.mem_cons.mp hx with hx | hx
    · rw [hx]; exact hH h hmem
    · exact hH x hx
  | commit h _ hmem ih =>
    obtain ⟨hF, hH⟩ := ih
    refine ⟨?_, hH⟩
    intro e he
    rcases fs_write_mem _ _ _ e he with h' | h'
    · rw [h']; exact file_inv_written st h (hH h hmem)
    · exact hF e h'
  | erase h _ hmem ih =>
    obtain ⟨hF, hH⟩ := ih
    refine ⟨?_, hH⟩
    intro e he
    rw [sepulca.erase, erase_snd] at he
    exact hF e (List.mem_filter.mp he).1

theorem second_line_no_newline (c : Str) : '\n' ∉ second_line c := by
  intro h
  have := List.mem_takeWhile_imp h
  simp at this

/-- A file that deserializes is read in full as a record whose identifier is the second line
of the file. -/
theorem do_deserialize_sid (fs : filesystem) (p : Str) (r : sepulca)
    (h : file_storage.do_deserialize fs p = some r) :
    ∃ c, fs_read fs p = some c ∧ first_line c = SEPULCA_SIG ∧ second_line c ≠ []
      ∧ r.m_sid = second_line c := by
  cases hr : fs_read fs p with
  | none =>
    have := (do_deserialize_none_iff fs p).mpr (Or.inl hr)
    rw [this] at h; simp at h
  | some c =>
    rw [do_deserialize_of_read fs p c hr, deserialize_eq, getline_good_snd_fst,
      getline_good_fst] at h
    split_ifs at h with h1 h2
    simp only [Option.some.injEq] at h
    refine ⟨c, rfl, not_not.mp h1, h2, ?_⟩
    rw [← h]
    rfl

theorem do_deserialize_sid_valid (fs : filesystem) (p : Str) (r : sepulca)
    (h : file_storage.do_deserialize fs p = some r) : r.m_sid ≠ [] ∧ '\n' ∉ r.m_sid := by
  obtain ⟨c, _, _, hne, hsid⟩ := do_deserialize_sid fs p r h
  rw [hsid]
  exact ⟨hne, second_line_no_newline c⟩

theorem record_inv_written (st : file_storage) (s : sepulca) (hid : s.m_sid ≠ [])
    (hidn : '\n' ∉ s.m_sid) : record_inv st (st.get_cell_path s.m_sid, serialize s) := by
  unfold record_inv
  simp only
  rw [first_line_serialize, second_line_serialize s hidn]
  exact ⟨rfl, hid, rfl⟩

theorem record_files_write (st : file_storage) (fs : filesystem) (p c : Str) (e : Str × Str)
    (h : e ∈ record_files st (fs_write fs p c)) : e = (p, c) ∨ e ∈ record_files st fs := by
  obtain ⟨hmem, hcond⟩ := List.mem_filter.mp h
  rcases fs_write_mem fs p c e hmem with h' | h'
  · exact Or.inl h'
  · exact Or.inr (List.mem_filter.mpr ⟨h', hcond⟩)

theorem record_files_remove (st : file_storage) (fs : filesystem) (p : Str) (e : Str × Str)
    (h : e ∈ record_files st (fs_remove fs p)) : e ∈ record_files st fs := by
  obtain ⟨hmem, hcond⟩ := List.mem_filter.mp h
  exact List.mem_filter.mpr ⟨(List.mem_filter.mp hmem).1, hcond⟩

/-- The invariant of the states reached from an empty directory: every record file is a
valid record whose identifier is mapped to its path; the record files have pairwise different
paths; every handle carries an identifier that is non-empty and has no newline. -/
theorem reachable_inv (st : file_storage) (fs0 : filesystem) (h0 : empty_directory st fs0)
    (fs : filesystem) (H : List sepulca) (hr : reachable st fs0 fs H) :
    (∀ e ∈ record_files st fs, record_inv st e)
      ∧ ((record_files st fs).map Prod.fst).Nodup
      ∧ ∀ h ∈ H, h.m_sid ≠ [] ∧ '\n' ∉ h.m_sid := by
  induction hr with
  | init =>
    rw [record_files_empty st fs0 h0]
    exact ⟨by simp, List.nodup_nil, by simp⟩
  | create rd fuel pos attrs s fs' pos' _ hc ih =>
    obtain ⟨hF, hN, hH⟩ := ih
    obtain ⟨_, _, hfs⟩ := create_eq st _ rd fuel pos attrs s fs' pos' hc
    obtain ⟨hid, hidn, _⟩ := create_id_wellformed st _ rd fuel pos attrs s fs' pos' hc
    refine ⟨?_, ?_, ?_⟩
    · intro e he
      rw [hfs] at he
      rcases record_files_write st _ _ _ e he with h | h
      · rw [h]; exact record_inv_written st s hid hidn
      · exact hF e h
    · rw [hfs]; exact record_files_nodup_write st _ _ _ hN
    · intro h hh
      rcases List.mem_cons.mp hh with hh | hh
      · rw [hh]; exact ⟨hid, hidn⟩
      · exact hH h hh
  | get sid r _ hget ih =>
    obtain ⟨hF, hN, hH⟩ := ih
    refine ⟨hF, hN, ?_⟩
    intro h hh
    rcases List.mem_cons.mp hh with hh | hh
    · rw [hh]
      exact do_deserialize_sid_valid _ _ r (get_ok_do_deserialize st _ sid r hget)
    · exact hH h hh
  | enumerate cb acc _ ih =>
    obtain ⟨hF, hN, hH⟩ := ih
    refine ⟨hF, hN, ?_⟩
    intro h hh
    rcases List.mem_append.mp hh with hh | hh
    · obtain ⟨p, _, _, hd⟩ := enumerate_mem st _ cb acc h hh
      exact do_deserialize_sid_valid _ p h hd
    · exact hH h hh
  | visit p r _ _ _ hd ih =>
    obtain ⟨hF, hN, hH⟩ := ih
    refine ⟨hF, hN, ?_⟩
    intro h hh
    rcases List.mem_cons.mp hh with hh | hh
    · rw [hh]
      exact do_deserialize_sid_valid _ p r hd
    · exact hH h hh
  | set_attr h name value _ hmem ih =>
    obtain ⟨hF, hN, hH⟩ := ih
    refine ⟨hF, hN, ?_⟩
    intro x hx
    rcases List.mem_cons.mp hx with hx | hx
    · rw [hx]; exact hH h hmem
    · exact hH x hx
  | delete_attr h name _ hmem ih =>
    obtain ⟨hF, hN, hH⟩ := ih
    refine ⟨hF, hN, ?_⟩
    intro x hx
    rcases List.mem_cons.mp hx with hx | hx
    · rw [hx, delete_attr_sid]; exact hH h hmem
    · exact hH x hx
  | set_transient_data h d _ hmem ih =>
    obtain ⟨hF, hN, hH⟩ := ih
    refine ⟨hF, hN, ?_⟩
    intro x hx
    rcases List.mem_cons.mp hx with hx | hx
    · rw [hx]; exact hH h hmem
    · exact hH x hx
  | commit h _ hmem ih =>
    obtain ⟨hF, hN, hH⟩ := ih
    refine ⟨?_, record_files_nodup_write st _ _ _ hN, hH⟩
    intro e he
    rcases record_files_write st _ _ _ e he with h' | h'
    · rw [h']; exact record_inv_written st h (hH h hmem).1 (hH h hmem).2
    · exact hF e h'
  | erase h _ hmem ih =>
    obtain ⟨hF, hN, hH⟩ := ih
    refine ⟨?_, ?_, hH⟩
    · intro e he
      rw [sepulca.erase, erase_snd] at he
      exact hF e (record_files_remove st _ _ e he)
    · rw [sepulca.erase, erase_snd]
      exact record_files_nodup_remove st _ _ hN

/-- A handle read from the file at `p` whose identifier is mapped to `p`: its `commit` writes
that file, and its `erase` succeeds and removes it. -/
theorem loaded_handle_acts_on_file (st : file_storage) (fs : filesystem) (p : Str)
    (r : sepulca) (hd : file_storage.do_deserialize fs p = some r)
    (hp : st.get_cell_path r.get_id = p) :
    fs_read (r.commit st fs) p = some (serialize r)
      ∧ (r.erase st fs).1 = .ok ()
      ∧ fs_read (r.erase st fs).2 p = none := by
  have hex : st.do_check_exists fs r.get_id = true := by
    obtain ⟨c, hread, _⟩ := do_deserialize_sid fs p r hd
    simp [file_storage.do_check_exists, is_regular_file, hp, hread]
  refine ⟨?_, ?_, ?_⟩
  · rw [← hp]
    exact fs_read_write_same _ _ _
  · simp [sepulca.erase, file_storage.erase, hex]
  · rw [sepulca.erase, erase_snd, ← hp]
    exact fs_read_remove_same _ _

/-- A handle read from a record file of a state in which the record files satisfy
`record_inv` has the path of that file. -/
theorem loaded_from_record_file (st : file_storage) (fs : filesystem) (p : Str) (r : sepulca)
    (hF : ∀ e ∈ record_files st fs, record_inv st e)
    (hdir : is_dir_entry st.m_dir p = true) (hl : p ≠ st.get_lock_file_path)
    (hd : file_storage.do_deserialize fs p = some r) : st.get_cell_path r.get_id = p := by
  obtain ⟨c, hread, _, _, hsid⟩ := do_deserialize_sid fs p r hd
  have hmem : (p, c) ∈ record_files st fs :=
    List.mem_filter.mpr ⟨fs_read_mem fs p c hread, by simp [hdir, hl]⟩
  have := (hF (p, c) hmem).2.2
  simp only at this
  rw [sepulca.get_id, hsid]
  exact this

theorem directory_iterator_mem (fs : filesystem) (m_dir p : Str)
    (h : p ∈ directory_iterator fs m_dir) : is_dir_entry m_dir p = true := by
  simp only [directory_iterator, List.mem_map, List.mem_filter] at h
  obtain ⟨e, ⟨_, hd⟩, he⟩ := h
  rw [← he]
  exact hd

/-! ## C23 -/

/-- The storage directory `db` is empty and a valid record file lies in another directory:
`get` with the identifier `/db1/{0001-0203-0405-0607}` reads that file and returns a handle
whose identifier is mapped to `db/{0001-0203-0405-0607}.txt`, not to the file it was read
from; `erase` on the handle raises, and `commit` leaves the file it was read from as it was
and writes another file. -/
theorem get_outside_record_counterexample :
    empty_directory example_storage outside_record_fs
    ∧ reachable example_storage outside_record_fs outside_record_fs []
    ∧ (example_storage.get outside_record_fs "/db1/{0001-0203-0405-0607}".toList).1
        = .ok example_sepulca
    ∧ example_storage.get_cell_path "/db1/{0001-0203-0405-0607}".toList
        = "/db1/{0001-0203-0405-0607}.txt".toList
    ∧ example_storage.get_cell_path example_sepulca.get_id
        = "db/{0001-0203-0405-0607}.txt".toList
    ∧ example_storage.get_cell_path example_sepulca.get_id
        ≠ example_storage.get_cell_path "/db1/{0001-0203-0405-0607}".toList
    ∧ (example_sepulca.erase example_storage outside_record_fs).1
        = .error (.already_destroyed example_sepulca.get_id)
    ∧ (example_sepulca.set_attr "size".toList "3".toList).commit example_storage
          outside_record_fs
        = outside_record_fs ++ [("db/{0001-0203-0405-0607}.txt".toList,
            serialize (example_sepulca.set_attr "size".toList "3".toList))] := by
  refine ⟨by decide, reachable.init, ?_, ?_, ?_, by decide, ?_, ?_⟩ <;> rfl

/-- C23: in every state reachable from a storage on an empty directory by `create`, `get`,
`enumerate`, changes of handles, `commit` and `erase`, every record file begins with the
signature line, has a non-empty second line, and the identifier on its second line is mapped
by `get_cell_path` to the path of that file; a handle visited by `enumerate`, or returned by
`get` for an identifier whose path is a record file of the storage directory, has the path
of the file it was read from, so its `commit` writes that file and its `erase` removes it;
no two record files carry the same identifier; every handle carries an identifier that is
non-empty and has no newline; and when no file at all held a valid record at the start,
every handle returned by `get` has the path of the file it was read from, and every handle
carries a generated identifier. -/
theorem reachable_record_files_consistent (st : file_storage) (fs0 fs : filesystem)
    (H : List sepulca) (h0 : empty_directory st fs0) (hr : reachable st fs0 fs H) :
    (∀ e ∈ record_files st fs,
        first_line e.2 = SEPULCA_SIG ∧ second_line e.2 ≠ []
        ∧ st.get_cell_path (second_line e.2) = e.1)
    ∧ (∀ sid r, (st.get fs sid).1 = .ok r →
        is_dir_entry st.m_dir (st.get_cell_path sid) = true →
        st.get_cell_path sid ≠ st.get_lock_file_path →
        st.get_cell_path r.get_id = st.get_cell_path sid
        ∧ fs_read (r.commit st fs) (st.get_cell_path sid) = some (serialize r)
        ∧ (r.erase st fs).1 = .ok ()
        ∧ fs_read (r.erase st fs).2 (st.get_cell_path sid) = none)
    ∧ (∀ {σ : Type} (cb : σ → sepulca → Bool × σ) (acc : σ),
        ∀ r ∈ (st.enumerate fs cb acc).2,
          ∃ p, p ∈ directory_iterator fs st.m_dir ∧ p ≠ st.get_lock_file_path
            ∧ file_storage.do_deserialize fs p = some r
            ∧ st.get_cell_path r.get_id = p
            ∧ fs_read (r.commit st fs) p = some (serialize r)
            ∧ (r.erase st fs).1 = .ok ()
            ∧ fs_read (r.erase st fs).2 p = none)
    ∧ ((record_files st fs).map (fun e => second_line e.2)).Nodup
    ∧ (∀ h ∈ H, h.get_id ≠ [] ∧ '\n' ∉ h.get_id)
    ∧ (no_valid_record fs0 →
        (∀ sid r, (st.get fs sid).1 = .ok r →
          st.get_cell_path r.get_id = st.get_cell_path sid
          ∧ fs_read (r.commit st fs) (st.get_cell_path sid) = some (serialize r)
          ∧ (r.erase st fs).1 = .ok ()
          ∧ fs_read (r.erase st fs).2 (st.get_cell_path sid) = none)
        ∧ ∀ h ∈ H, in_id_grammar h.get_id = true) := by
  obtain ⟨hF, hN, hH⟩ := reachable_inv st fs0 h0 fs H hr
  refine ⟨hF, ?_, ?_, ?_, hH, ?_⟩
  · intro sid r hget hdir hl
    have hd := get_ok_do_deserialize st fs sid r hget
    have hp := loaded_from_record_file st fs _ r hF hdir hl hd
    exact ⟨hp, loaded_handle_acts_on_file st fs _ r hd hp⟩
  · intro σ cb acc r hr'
    obtain ⟨p, hp, hl, hd⟩ := enumerate_mem st fs cb acc r hr'
    have hpath := loaded_from_record_file st fs p r hF
      (directory_iterator_mem fs st.m_dir p hp) hl hd
    exact ⟨p, hp, hl, hd, hpath, loaded_handle_acts_on_file st fs p r hd hpath⟩
  · have hmap : ((record_files st fs).map (fun e => second_line e.2)).map st.get_cell_path
        = (record_files st fs).map Prod.fst := by
      rw [List.map_map]
      apply List.map_congr_left
      intro e he
      exact (hF e he).2.2
    rw [← hmap] at hN
    exact List.Nodup.of_map _ hN
  · intro hv0
    obtain ⟨hF', hH'⟩ := reachable_inv_no_valid_record st fs0 h0 hv0 fs H hr
    refine ⟨?_, hH'⟩
    intro sid r hget
    have hd := get_ok_do_deserialize st fs sid r hget
    have hp := (do_deserialize_of_inv st fs _ r hF' hd).2
    exact ⟨hp.symm, loaded_handle_acts_on_file st fs _ r hd hp.symm⟩

theorem reachable_record_files_consistent_witness :
    empty_directory example_storage fresh_dir
    ∧ reachable example_storage fresh_dir reached_fs reached_handles
    ∧ (∀ e ∈ record_files example_storage reached_fs,
        first_line e.2 = SEPULCA_SIG ∧ second_line e.2 ≠ []
        ∧ example_storage.get_cell_path (second_line e.2) = e.1)
    ∧ ((record_files example_storage reached_fs).map (fun e => second_line e.2)).Nodup
    ∧ (example_storage.get_cell_path
          (first_handle.set_attr "size".toList "3".toList).get_id
        = example_storage.get_cell_path "{0001-0203-0405-0607}".toList
      ∧ fs_read ((first_handle.set_attr "size".toList "3".toList).commit example_storage
          reached_fs) (example_storage.get_cell_path "{0001-0203-0405-0607}".toList)
        = some (serialize (first_handle.set_attr "size".toList "3".toList))
      ∧ ((first_handle.set_attr "size".toList "3".toList).erase example_storage
          reached_fs).1 = .ok ()
      ∧ fs_read ((first_handle.set_attr "size".toList "3".toList).erase example_storage
          reached_fs).2 (example_storage.get_cell_path "{0001-0203-0405-0607}".toList)
        = none)
    ∧ record_files example_storage reached_fs
        = [("db/{0001-0203-0405-0607}.txt".toList,
            "Sepulca v1\n{0001-0203-0405-0607}\ncolour\nred\nnote\n\nsize\n3\n".toList)] := by
  have hreach : reachable example_storage fresh_dir reached_fs reached_handles :=
    reachable.erase (file_storage.new_sepulca (new_id example_rd 8) [])
      (reachable.create example_rd 1 8 [] (file_storage.new_sepulca (new_id example_rd 8) []) _ 16
        (reachable.commit (first_handle.set_attr "size".toList "3".toList)
          (reachable.set_attr first_handle "size".toList "3".toList
            (reachable.create example_rd 1 0 example_attrs first_handle
              (example_storage.do_serialize fresh_dir first_handle) 8 reachable.init rfl)
            (List.mem_cons_self _ _))
          (List.mem_cons_self _ _))
        rfl)
      (List.mem_cons_self _ _)
  have h := reachable_record_files_consistent example_storage fresh_dir reached_fs
    reached_handles (by decide) hreach
  exact ⟨by decide, hreach, h.1, h.2.2.2.1,
    h.2.1 "{0001-0203-0405-0607}".toList (first_handle.set_attr "size".toList "3".toList) rfl
      (by decide) (by decide), by rfl⟩

end cosmica
